import Mathlib

/-! # Parallel VLSI wire routing: a shallow embedding

The development follows `OpenMP - Parallel VLSI Wire Routing/wireroute.h`,
`OpenMP - Parallel VLSI Wire Routing/wireroute.cpp` and the load-balancing and
annealing loops of `MPI - Parallel VLSI Wire Routing/wireroute.cpp`.

Modelling conventions.

* `int` and `cost_t` values are integers (`Int`); `MAX_COST` is `INT32_MAX`.
  The sums that `Metrics` accumulates are stored in `cost_t`, 32 bits wide:
  a sum that does not fit wraps around (`wrap_int32`).  Coordinates, indices
  and the counters in the cells of the cost array are taken exactly; a cell
  counts the routes over it.
* `float` and `double` values are binary floating-point numbers with 24 and
  53 significant bits, every operation rounded to nearest, ties to even
  (`round_nearest`).
* The cost array `result.costs` is a `List Int` of length `dim_x * dim_y`; an
  access whose index falls outside the array has no defined behaviour in the
  source and is the error `Fault.out_of_bounds` here.
* A failing `assert` is the error `Fault.assertion`.
* A loop `for (v = a; v != b; v += sign(a, b))` is the fold of its body over
  the successive values of `v`, listed by `for_values a b`.
* Calls of `rand()` are explicit arguments (`StepEnv`).
* A default-constructed `Route` has indeterminate `wire`, `p1`, `p2`; these
  are an explicit argument (`uninit`) wherever `Route()` is used.
-/

namespace WireRoute

/-! ## Geometry (`wireroute.h`) -/

/-- The `struct Point`. -/
structure Point where
  x : Int
  y : Int
  deriving DecidableEq, Repr

/-- The function `signX(p1, p2)`: `p2.x >= p1.x ? +1 : -1`. -/
def signX (p1 p2 : Point) : Int := if p2.x ≥ p1.x then 1 else -1

/-- The function `signY(p1, p2)`: `p2.y >= p1.y ? +1 : -1`. -/
def signY (p1 p2 : Point) : Int := if p2.y ≥ p1.y then 1 else -1

/-- The `struct Wire`; the field `end` is spelled `end_`. -/
structure Wire where
  start : Point
  end_ : Point
  deriving DecidableEq, Repr

/-- The method `Wire::signX()`. -/
def Wire.signX (w : Wire) : Int := WireRoute.signX w.start w.end_

/-- The method `Wire::signY()`. -/
def Wire.signY (w : Wire) : Int := WireRoute.signY w.start w.end_

/-- The constant `MAX_COST`, that is `INT32_MAX`. -/
def MAX_COST : Int := 2147483647

/-! ## Metrics -/

/-- The `struct Metrics`; the constructor defaults both fields to `0`. -/
structure Metrics where
  max_cost_value : Int := 0
  sum_cost_values : Int := 0
  deriving DecidableEq, Repr

/-- The `cost_t` (32-bit two's complement `int`) that the exact sum `v` of two
`cost_t` values is stored as: `v` itself when it fits, wrapped around
otherwise. -/
def wrap_int32 (v : Int) : Int := (v + 2147483648) % 4294967296 - 2147483648

/-- The method `Metrics::update(cost_t new_cost)`. -/
def Metrics.update (m : Metrics) (new_cost : Int) : Metrics :=
  { max_cost_value := max m.max_cost_value new_cost
    sum_cost_values := wrap_int32 (m.sum_cost_values + new_cost) }

/-- The method `Metrics::update(Metrics new_metrics)`. -/
def Metrics.update_metrics (m new_metrics : Metrics) : Metrics :=
  { max_cost_value := max m.max_cost_value new_metrics.max_cost_value
    sum_cost_values := wrap_int32 (m.sum_cost_values + new_metrics.sum_cost_values) }

/-- The comparison `operator<(const Metrics &, const Metrics &)`. -/
def Metrics.lt (lhs rhs : Metrics) : Bool :=
  if lhs.max_cost_value ≠ rhs.max_cost_value then
    decide (lhs.max_cost_value < rhs.max_cost_value)
  else decide (lhs.sum_cost_values < rhs.sum_cost_values)

/-! ## Routes -/

/-- The `struct Route`. -/
structure Route where
  wire : Wire
  p1 : Point
  p2 : Point
  metrics : Metrics := { max_cost_value := MAX_COST, sum_cost_values := MAX_COST }
  deriving DecidableEq, Repr

/-- The constructor `Route()`: `wire`, `p1` and `p2` are left indeterminate
(here: whatever `uninit` holds) and `metrics` is `Metrics{MAX_COST, MAX_COST}`. -/
def Route.default (uninit : Route) : Route :=
  { wire := uninit.wire, p1 := uninit.p1, p2 := uninit.p2 }

/-- The constructor `Route(Wire wire)`: `p1` and `p2` are indeterminate until
assigned; every use in the source assigns both before the route is read. -/
def Route.of_wire (wire : Wire) (p1 p2 : Point) : Route :=
  { wire := wire, p1 := p1, p2 := p2 }

/-- The points printed by `operator<<(std::ostream &, const Route &)`, in the
order printed. -/
def Route.serialize (route : Route) : List Point :=
  [route.wire.start]
    ++ (if route.p1 ≠ route.wire.start then [route.p1] else [])
    ++ (if route.p2 ≠ route.p1 then [route.p2] else [])
    ++ [route.wire.end_]

/-! ## Floating point

The values of type `float` and `double` that the program computes are not
negative.  They are modelled as IEEE 754 binary floating-point numbers with
a significand of 24 (`float`) or 53 (`double`) bits, every operation rounded
to nearest, ties to even; the exponent range is not limited (the values that
occur are far from overflow and underflow). -/

/-- A binary floating-point value that is not negative:
`mantissa * 2 ^ exponent`. -/
structure Binary where
  mantissa : Nat
  exponent : Int
  deriving DecidableEq, Repr

/-- The loop that counts how often `n` can be halved before it falls below 2. -/
def log2_loop : Nat → Nat → Nat
  | 0, _ => 0
  | fuel + 1, n => if n < 2 then 0 else log2_loop fuel (n / 2) + 1

/-- The position of the leading bit of `n`. -/
def floor_log2 (n : Nat) : Nat := log2_loop n n

/-- The integer nearest to `n / m`, a tie going to the even one. -/
def round_even (n m : Nat) : Nat :=
  if 2 * (n % m) < m then n / m
  else if m < 2 * (n % m) then n / m + 1
  else if (n / m) % 2 = 0 then n / m else n / m + 1

/-- The quotient `n / m` rounded to `prec` significant bits, to nearest, ties
to even: the exponent is chosen so that the scaled quotient lies between
`2 ^ (prec - 1)` and `2 ^ prec`, and the scaled quotient is rounded to an
integer. -/
def round_nearest (prec n m : Nat) : Binary :=
  if n = 0 then ⟨0, 0⟩
  else
    let e : Int := (floor_log2 n : Int) - (floor_log2 m : Int) - (prec : Int)
    if n * 2 ^ (-e).toNat < 2 ^ prec * (m * 2 ^ e.toNat) then
      ⟨round_even (n * 2 ^ (-e).toNat) (m * 2 ^ e.toNat), e⟩
    else ⟨round_even (n * 2 ^ (-e).toNat) (2 * (m * 2 ^ e.toNat)), e + 1⟩

/-- The product of two floating-point values, rounded to `prec` bits. -/
def Binary.mul (prec : Nat) (a b : Binary) : Binary :=
  round_nearest prec (a.mantissa * b.mantissa * 2 ^ (a.exponent + b.exponent).toNat)
    (2 ^ (-(a.exponent + b.exponent)).toNat)

/-- The conversion of a floating-point value to an integer, which drops the
fraction. -/
def Binary.trunc (f : Binary) : Nat :=
  if 0 ≤ f.exponent then f.mantissa * 2 ^ f.exponent.toNat
  else f.mantissa / 2 ^ (-f.exponent).toNat

/-- The comparison `k <= f` of an integer `k` that is not negative with a
floating-point value. -/
def Binary.ge_nat (f : Binary) (k : Nat) : Bool :=
  if 0 ≤ f.exponent then decide (k ≤ f.mantissa * 2 ^ f.exponent.toNat)
  else decide (k * 2 ^ (-f.exponent).toNat ≤ f.mantissa)

/-- The rational number that a floating-point value stands for, in lowest
terms. -/
def Binary.toRat (f : Binary) : ℚ :=
  mkRat (f.mantissa * 2 ^ f.exponent.toNat : Nat) (2 ^ (-f.exponent).toNat)

/-- The expression `int(p * d)` for a `float p` and an `int d`: `d` is
converted to `float`, the product is rounded to `float`, and the conversion
to `int` truncates towards zero.  Rounding and truncation are symmetric, so
the sign of `d` is carried over. -/
def int_of_product (p : Binary) (d : Int) : Int :=
  if 0 ≤ d then ((Binary.mul 24 p (round_nearest 24 d.natAbs 1)).trunc : Int)
  else -((Binary.mul 24 p (round_nearest 24 d.natAbs 1)).trunc : Int)

/-- The `double` that `main` stores in `SA_prob` for the option value
`n / m`: `(float)atof(...)`, that is the decimal rounded to `double`, then to
`float`, then widened. -/
def float_option (n m : Nat) : ℚ :=
  (round_nearest 24
    ((round_nearest 53 n m).mantissa * 2 ^ (round_nearest 53 n m).exponent.toNat)
    (2 ^ (-(round_nearest 53 n m).exponent).toNat)).toRat

/-- The default `0.1f` of the option `-p`, widened to `double`. -/
def default_SA_prob : ℚ := (round_nearest 24 1 10).toRat

/-! ## Program data -/

/-- The `struct Data`; `num_of_wires` is the length of `wires`.  `SA_prob` is
the value of the `double`; the defaults are those of the options in `main`. -/
structure Data where
  dim_x : Int
  dim_y : Int
  wires : List Wire
  SA_prob : ℚ := default_SA_prob
  SA_iters : Nat := 5

/-- The field `num_of_wires`. -/
def Data.num_of_wires (data : Data) : Nat := data.wires.length

/-- The `struct Result`: the cost array and the current route of every wire. -/
structure Result where
  costs : List Int
  routes : List Route
  deriving DecidableEq, Repr

/-- Ways in which a call stops without returning. -/
inductive Fault where
  | assertion
  | out_of_bounds
  deriving DecidableEq, Repr

/-! ## Loops -/

/-- The values taken by `v` in `for (v = a; v != stop; v += s)`, the loop
test being re-evaluated before each of at most `fuel` iterations. -/
def for_loop (s stop : Int) : Nat → Int → List Int
  | 0, _ => []
  | fuel + 1, v => if v = stop then [] else v :: for_loop s stop fuel (v + s)

/-- The values taken by `v` in `for (v = a; v != b; v += (b >= a ? +1 : -1))`.
The loop test fails after exactly `|b - a|` iterations (`length_for_values`). -/
def for_values (a b : Int) : List Int :=
  for_loop (if b ≥ a then 1 else -1) b (b - a).natAbs a

/-! ## Route walker (`wireroute.cpp`) -/

/-- The statement pair `result.costs[costsIdx] += cost_change;` followed by a read of
`result.costs[costsIdx]`: the new array and the value read. -/
def bump (costs : List Int) (costsIdx cost_change : Int) : Except Fault (List Int × Int) :=
  if 0 ≤ costsIdx ∧ costsIdx < costs.length then
    let v := costs.getD costsIdx.toNat 0 + cost_change
    .ok (costs.set costsIdx.toNat v, v)
  else .error .out_of_bounds

/-- The body of the loops of `walk_a_line`, folded over the cell indices
visited: `costs[costsIdx] += cost_change; metrics_of_line.update(costs[costsIdx])`. -/
def walk_cells (cost_change : Int) :
    List Int → List Int → Metrics → Except Fault (Metrics × List Int)
  | [], costs, m => .ok (m, costs)
  | costsIdx :: rest, costs, m =>
    match bump costs costsIdx cost_change with
    | .error e => .error e
    | .ok (costs', v) => walk_cells cost_change rest costs' (m.update v)

/-- The function `walk_a_line`. -/
def walk_a_line (data : Data) (costs : List Int) (p1 p2 : Point) (cost_change : Int) :
    Except Fault (Metrics × List Int) :=
  if ¬ (p1.x = p2.x ∨ p1.y = p2.y) then .error .assertion
  else if p1 = p2 then .ok ({}, costs)
  else if p1.x = p2.x then
    walk_cells cost_change ((for_values p1.y p2.y).map fun y => y * data.dim_x + p1.x) costs {}
  else
    walk_cells cost_change ((for_values p1.x p2.x).map fun x => p1.y * data.dim_x + x) costs {}

/-- The function `walk_a_route`. -/
def walk_a_route (data : Data) (costs : List Int) (route : Route) (cost_change : Int) :
    Except Fault (Metrics × List Int) :=
  match walk_a_line data costs route.wire.start route.p1 cost_change with
  | .error e => .error e
  | .ok (m1, costs1) =>
    match walk_a_line data costs1 route.p1 route.p2 cost_change with
    | .error e => .error e
    | .ok (m2, costs2) =>
      match walk_a_line data costs2 route.p2 route.wire.end_ cost_change with
      | .error e => .error e
      | .ok (m3, costs3) =>
        match bump costs3 (route.wire.end_.y * data.dim_x + route.wire.end_.x) cost_change with
        | .error e => .error e
        | .ok (costs4, v) =>
          .ok (((((({} : Metrics).update_metrics m1).update_metrics m2).update_metrics m3).update v),
            costs4)

/-- The loop of `walk_all_routes` over the routes still to be walked. -/
def walk_routes (data : Data) (cost_change : Int) :
    List Route → List Int → Metrics → Except Fault (Metrics × List Int)
  | [], costs, m => .ok (m, costs)
  | route :: rest, costs, m =>
    match walk_a_route data costs route cost_change with
    | .error e => .error e
    | .ok (mr, costs') => walk_routes data cost_change rest costs' (m.update_metrics mr)

/-- The function `walk_all_routes`; `result.routes` holds the `num_of_wires`
entries of the array. -/
def walk_all_routes (data : Data) (result : Result) (cost_change : Int) :
    Except Fault (Metrics × List Int) :=
  walk_routes data cost_change result.routes result.costs {}

/-! ## Route enumerator and random routes -/

/-- The candidate list that `prepare_all_routes` builds for one wire: the
`y` loop (p1 and p2 on the row `y`), then the `x` loop (p1 and p2 on the
column `x`). -/
def routes_of_wire (wire : Wire) : List Route :=
  ((for_values wire.start.y wire.end_.y).map fun y =>
      Route.of_wire wire ⟨wire.start.x, y⟩ ⟨wire.end_.x, y⟩)
    ++ ((for_values wire.start.x wire.end_.x).map fun x =>
      Route.of_wire wire ⟨x, wire.start.y⟩ ⟨x, wire.end_.y⟩)

/-- The function `prepare_all_routes`. -/
def prepare_all_routes (data : Data) : List (List Route) :=
  data.wires.map routes_of_wire

/-- The function `generate_random_route`; `rand1` and `rand2` are the values
of its two calls of `rand()`.  `p` is the `float` quotient
`(rand2 % 100) / 100.f`. -/
def generate_random_route (wire : Wire) (rand1 rand2 : Nat) : Route :=
  let dx := wire.end_.x - wire.start.x
  let dy := wire.end_.y - wire.start.y
  let vertical_first : Bool := rand1 % 2 != 0
  let p : Binary := round_nearest 24 (rand2 % 100) 100
  if vertical_first then
    let p1 : Point := ⟨wire.start.x, wire.start.y + int_of_product p dy⟩
    Route.of_wire wire p1 ⟨wire.end_.x, p1.y⟩
  else
    let p1 : Point := ⟨wire.start.x + int_of_product p dx, wire.start.y⟩
    Route.of_wire wire p1 ⟨p1.x, wire.end_.y⟩

/-- The function `is_random_route`: `(rand() % 100) <= (data.SA_prob * 100)`
for the value `r` of `rand()`.  The product is a `double` product; for a
negative `SA_prob` it is negative and the comparison fails. -/
def is_random_route (data : Data) (r : Nat) : Bool :=
  if data.SA_prob.num < 0 then false
  else (round_nearest 53 (data.SA_prob.num.natAbs * 100) data.SA_prob.den).ge_nat (r % 100)

/-! ## Annealing driver -/

/-- What one iteration of the driver loop takes from outside: the values of
its calls of `rand()` and the indeterminate content of the local
`Route best_route;`. -/
structure StepEnv where
  rand_sa : Nat
  rand_coin : Nat
  rand_ratio : Nat
  uninit : Route

/-- The candidate loop of the driver: every candidate is scored with
`walk_a_route(..., 0)` and replaces `best_route` when its metrics are
strictly smaller. -/
def search_best (data : Data) : List Route → List Int → Route → Except Fault (Route × List Int)
  | [], costs, best_route => .ok (best_route, costs)
  | candidate :: rest, costs, best_route =>
    match walk_a_route data costs candidate 0 with
    | .error e => .error e
    | .ok (m, costs') =>
      let new_route : Route := { candidate with metrics := m }
      search_best data rest costs' (if m.lt best_route.metrics then new_route else best_route)

/-- One iteration of the loop of `wire_routing_sequential` (and of
`wire_routing` read sequentially), for the wire `wire_id`. -/
def routing_step (data : Data) (possible_routes : List (List Route)) (env : StepEnv)
    (wire_id : Nat) (result : Result) : Except Fault Result :=
  match data.wires[wire_id]?, result.routes[wire_id]? with
  | some wire, some prev_route =>
    match walk_a_route data result.costs prev_route (-1) with
    | .error e => .error e
    | .ok (_, costs1) =>
      if is_random_route data env.rand_sa then
        let route := generate_random_route wire env.rand_coin env.rand_ratio
        match walk_a_route data costs1 route 1 with
        | .error e => .error e
        | .ok (_, costs2) => .ok { costs := costs2, routes := result.routes.set wire_id route }
      else
        match possible_routes[wire_id]? with
        | none => .error .out_of_bounds
        | some routes =>
          match search_best data routes costs1 (Route.default env.uninit) with
          | .error e => .error e
          | .ok (best_route, costs2) =>
            match walk_a_route data costs2 best_route 1 with
            | .error e => .error e
            | .ok (_, costs3) =>
              .ok { costs := costs3, routes := result.routes.set wire_id best_route }
  | _, _ => .error .out_of_bounds

/-- The loop of `wire_routing_sequential` from `wire_id` on; `envs` lists
the environment of each remaining iteration. -/
def routing_loop (data : Data) (possible_routes : List (List Route)) :
    List StepEnv → Nat → Result → Except Fault Result
  | [], _, result => .ok result
  | env :: envs, wire_id, result =>
    match routing_step data possible_routes env wire_id result with
    | .error e => .error e
    | .ok result' => routing_loop data possible_routes envs (wire_id + 1) result'

/-- The function `wire_routing_sequential`: one sweep over all wires, `envs`
holding one environment per wire. -/
def wire_routing_sequential (data : Data) (result : Result)
    (possible_routes : List (List Route)) (envs : List StepEnv) : Except Fault Result :=
  routing_loop data possible_routes (envs.take data.num_of_wires) 0 result

/-- The combiner of `#pragma omp declare reduction(min_route : Route :
omp_out = omp_in.metrics < omp_out.metrics ? omp_in : omp_out)`. -/
def min_route (omp_out omp_in : Route) : Route :=
  if omp_in.metrics.lt omp_out.metrics then omp_in else omp_out

/-- One thread of the parallel candidate loop of `wire_routing`: the thread
runs the iterations `route_ids` in this order on its private copy of
`best_route`. -/
def search_thread (data : Data) (routes : List Route) (costs : List Int)
    (route_ids : List Nat) (private_copy : Route) : Except Fault Route :=
  match search_best data (route_ids.filterMap fun route_id => routes[route_id]?) costs
      private_copy with
  | .error e => .error e
  | .ok (best_route, _) => .ok best_route

/-- The candidate loop of `wire_routing` under `reduction(min_route :
best_route)`.  `threads` lists the threads in the order in which their
private copies are combined into the shared `best_route`: for each thread
the iterations it ran and the indeterminate content of its private copy,
which is default-constructed.  The walks of the loop body run with
`cost_change = 0`, so the threads are taken one after the other. -/
def search_best_parallel (data : Data) (routes : List Route) (costs : List Int) :
    List (List Nat × Route) → Route → Except Fault Route
  | [], best_route => .ok best_route
  | (route_ids, uninit) :: rest, best_route =>
    match search_thread data routes costs route_ids (Route.default uninit) with
    | .error e => .error e
    | .ok omp_in => search_best_parallel data routes costs rest (min_route best_route omp_in)

/-- The loop `for (int i = 0; i < num_of_wires; i++) routes[i] =
generate_random_route(data, wires[i]);` of `main`; `draws` lists, for each
wire, the values of the two calls of `rand()`. -/
def initial_routes (data : Data) (draws : List (Nat × Nat)) : List Route :=
  List.zipWith (fun wire d => generate_random_route wire d.1 d.2) data.wires draws

/-- The loop `for (int i = 0; i != SA_iters; ++i)` of `main` over the sweeps
still to run, each sweep read sequentially; `sweeps` holds the environments
of each sweep. -/
def routing_sweeps (data : Data) (possible_routes : List (List Route)) :
    List (List StepEnv) → Result → Except Fault Result
  | [], result => .ok result
  | envs :: rest, result =>
    match wire_routing_sequential data result possible_routes envs with
    | .error e => .error e
    | .ok result' => routing_sweeps data possible_routes rest result'

/-- One iteration of the annealing loop of `compute` (MPI version) for the
wire `wire_id`, on the worker's copy `new_costs` of the cost array.  The
header of the MPI version is not among the sources: the candidate list
`all_routes_for_one_wire` returned by `generate_routes(wire)` is an argument,
and `walk_a_route`, `is_random_route` and `generate_random_route` are taken
to be those of the OpenMP version above. -/
def compute_step (data : Data) (all_routes_for_one_wire : List Route) (env : StepEnv)
    (wire_id : Nat) (result : Result) : Except Fault Result :=
  match data.wires[wire_id]?, result.routes[wire_id]? with
  | some wire, some prev_route =>
    match walk_a_route data result.costs prev_route (-1) with
    | .error e => .error e
    | .ok (m0, costs1) =>
      let prev_route : Route := { prev_route with metrics := m0 }
      if is_random_route data env.rand_sa then
        let new_route := generate_random_route wire env.rand_coin env.rand_ratio
        match walk_a_route data costs1 new_route 1 with
        | .error e => .error e
        | .ok (_, costs2) => .ok { costs := costs2, routes := result.routes.set wire_id new_route }
      else
        match search_best data all_routes_for_one_wire costs1 prev_route with
        | .error e => .error e
        | .ok (best_route, costs2) =>
          match walk_a_route data costs2 best_route 1 with
          | .error e => .error e
          | .ok (m, costs3) =>
            .ok { costs := costs3
                  routes := result.routes.set wire_id { best_route with metrics := m } }
  | _, _ => .error .out_of_bounds

/-- The body of the annealing loop of `compute` for the wire `wire_id`, with
the candidate list taken from `generate_routes`, which is not among the
sources and is an argument. -/
def compute_iteration (data : Data) (generate_routes : Wire → List Route) (env : StepEnv)
    (wire_id : Nat) (result : Result) : Except Fault Result :=
  match data.wires[wire_id]? with
  | some wire => compute_step data (generate_routes wire) env wire_id result
  | none => .error .out_of_bounds

/-- The loop `for (wire_id = wire_id_begin; wire_id < wire_id_end; ++wire_id)`
of `compute` with `count` iterations left; `env wire_id` is the environment
of the iteration for `wire_id`. -/
def compute_wire_loop (data : Data) (generate_routes : Wire → List Route)
    (env : Nat → StepEnv) : Nat → Nat → Result → Except Fault Result
  | 0, _, result => .ok result
  | count + 1, wire_id, result =>
    match compute_iteration data generate_routes (env wire_id) wire_id result with
    | .error e => .error e
    | .ok result' => compute_wire_loop data generate_routes env count (wire_id + 1) result'

/-- The loop `for (iter_id = 0; iter_id != SA_iters; ++iter_id)` of `compute`
with `count` sweeps left, over the wires `wire_id_begin .. wire_id_end - 1`. -/
def compute_iters (data : Data) (generate_routes : Wire → List Route)
    (envs : Nat → Nat → StepEnv) (wire_id_begin wire_id_end : Int) :
    Nat → Nat → Result → Except Fault Result
  | 0, _, result => .ok result
  | count + 1, iter_id, result =>
    match compute_wire_loop data generate_routes (envs iter_id)
        (wire_id_end - wire_id_begin).toNat wire_id_begin.toNat result with
    | .error e => .error e
    | .ok result' =>
      compute_iters data generate_routes envs wire_id_begin wire_id_end count (iter_id + 1) result'

/-! ## Work partitioner (load-balancing loop of `compute`, MPI version) -/

/-- The variables of the load-balancing loop.  The array `work_per_proc` is
a function from index to content; before the loop it holds indeterminate
values.  The array `workload_per_proc` is written but never read and is left
out. -/
structure PartState where
  work_per_proc : Nat → Int
  accumulated_computation : Nat
  proc_id : Nat

/-- The body of the load-balancing loop for the wire `wire_id` whose
`computation_cost` is `cost`.  The test
`accumulated_computation >= computation_per_proc * 0.999` is taken exactly,
as `accumulated_computation * 1000 >= computation_per_proc * 999`. -/
def partition_step (nproc num_of_wires computation_per_proc : Nat) (st : PartState)
    (wire_id cost : Nat) : Except Fault PartState :=
  let acc := st.accumulated_computation + cost
  if (wire_id : Int) = (num_of_wires : Int) - 1 then
    .ok { st with
      work_per_proc := Function.update st.work_per_proc st.proc_id ((wire_id : Int) + 1)
      accumulated_computation := acc }
  else if acc * 1000 ≥ computation_per_proc * 999 ∧ (st.proc_id : Int) ≠ (nproc : Int) - 1 then
    if st.proc_id < nproc then
      .ok { work_per_proc := Function.update st.work_per_proc st.proc_id ((wire_id : Int) + 1)
            accumulated_computation := 0
            proc_id := st.proc_id + 1 }
    else .error .assertion
  else .ok { st with accumulated_computation := acc }

/-- The load-balancing loop from `wire_id` on, over the costs of the wires
still to be visited. -/
def partition_loop (nproc num_of_wires computation_per_proc : Nat) :
    List Nat → Nat → PartState → Except Fault PartState
  | [], _, st => .ok st
  | cost :: rest, wire_id, st =>
    match partition_step nproc num_of_wires computation_per_proc st wire_id cost with
    | .error e => .error e
    | .ok st' => partition_loop nproc num_of_wires computation_per_proc rest (wire_id + 1) st'

/-- The load-balancing block of `compute`: `costs` lists
`wires[i].computation_cost`, `init` is the content of `work_per_proc` before
the loop; the result is the content of `work_per_proc` after it. -/
def load_balance (costs : List Nat) (nproc : Nat) (init : Nat → Int) : Except Fault (Nat → Int) :=
  let total_computation_cost := costs.sum
  let computation_per_proc := total_computation_cost / nproc
  match partition_loop nproc costs.length computation_per_proc costs 0
      { work_per_proc := init, accumulated_computation := 0, proc_id := 0 } with
  | .error e => .error e
  | .ok st => .ok st.work_per_proc

/-- The assignment `wire_id_begin = (procID == 0 ? 0 : work_per_proc[procID - 1])`. -/
def wire_id_begin (work_per_proc : Nat → Int) (procID : Nat) : Int :=
  if procID = 0 then 0 else work_per_proc (procID - 1)

/-- The assignment `wire_id_end = work_per_proc[procID]`. -/
def wire_id_end (work_per_proc : Nat → Int) (procID : Nat) : Int :=
  work_per_proc procID

/-- What the process `procID` holds in `new_costs` and `routes` after the
annealing loops of `compute`, started from the broadcast state `initial`;
the process with `procID == 0` writes these two to the output files. -/
def compute_worker (data : Data) (generate_routes : Wire → List Route)
    (envs : Nat → Nat → StepEnv) (work_per_proc : Nat → Int) (procID : Nat)
    (initial : Result) : Except Fault Result :=
  compute_iters data generate_routes envs (wire_id_begin work_per_proc procID)
    (wire_id_end work_per_proc procID) data.SA_iters 0 initial

/-! ## Vocabulary of the statements -/

/-- The value of a floating-point number as a rational. -/
def Binary.val (f : Binary) : ℚ := (f.mantissa : ℚ) * (2 : ℚ) ^ f.exponent

/-- The cells of `costs` after `cost_change` has been added at every index of
`cells`, one index after the other. -/
def add_cells (cost_change : Int) : List Int → List Int → List Int
  | [], costs => costs
  | idx :: rest, costs =>
    add_cells cost_change rest (costs.set idx.toNat (costs.getD idx.toNat 0 + cost_change))

/-- Every index of `cells` addresses an array of `len` entries. -/
def in_bounds (len : Nat) (cells : List Int) : Prop :=
  ∀ idx ∈ cells, 0 ≤ idx ∧ idx < (len : Int)

/-- The precondition asserted by `walk_a_line`: the two points share a
coordinate. -/
abbrev aligned (p1 p2 : Point) : Prop := p1.x = p2.x ∨ p1.y = p2.y

/-- The three segments of a route are axis-aligned. -/
abbrev Route.aligned (r : Route) : Prop :=
  WireRoute.aligned r.wire.start r.p1 ∧ WireRoute.aligned r.p1 r.p2
    ∧ WireRoute.aligned r.p2 r.wire.end_

/-- The point is a cell of the `dim_x` by `dim_y` grid. -/
abbrev Point.inside (data : Data) (p : Point) : Prop :=
  0 ≤ p.x ∧ p.x < data.dim_x ∧ 0 ≤ p.y ∧ p.y < data.dim_y

/-- The endpoints of the three segments of a route are cells of the grid. -/
abbrev Route.inside (data : Data) (r : Route) : Prop :=
  r.wire.start.inside data ∧ r.p1.inside data ∧ r.p2.inside data ∧ r.wire.end_.inside data

/-- The indices visited by the loop of `walk_a_line` from `p1` to `p2`, in
order. -/
def line_cells (data : Data) (p1 p2 : Point) : List Int :=
  if p1.x = p2.x then (for_values p1.y p2.y).map fun y => y * data.dim_x + p1.x
  else (for_values p1.x p2.x).map fun x => p1.y * data.dim_x + x

/-- The indices visited by `walk_a_route`, in order: the three half-open
segments and the terminal cell. -/
def footprint (data : Data) (r : Route) : List Int :=
  line_cells data r.wire.start r.p1 ++ line_cells data r.p1 r.p2
    ++ line_cells data r.p2 r.wire.end_ ++ [r.wire.end_.y * data.dim_x + r.wire.end_.x]

/-- How many times the footprints of `routes` cover the cell of index `j`. -/
def coverage (data : Data) (routes : List Route) (j : Nat) : Nat :=
  (routes.map fun r => (footprint data r).count (j : Int)).sum

/-- Grid consistency: every cell of the cost array holds the number of times
the footprints of the current routes cover it. -/
def consistent (data : Data) (result : Result) : Prop :=
  ∀ j : Nat, j < result.costs.length →
    result.costs.getD j 0 = (coverage data result.routes j : Int)

/-- The states of a worker after complete driver steps: the initial state is
the zero array of `dim_x * dim_y` cells (`calloc`) to which
`walk_all_routes(..., 1)` has applied the initial routes; a step is one
iteration of the loop of `wire_routing_sequential` or of the annealing loop
of `compute`, for any wire, any values of `rand()` and any candidate list. -/
inductive Reachable (data : Data) (possible_routes : List (List Route)) : Result → Prop
  | initial (routes : List Route) (costs : List Int) (m : Metrics) :
      walk_all_routes data
          ⟨List.replicate (data.dim_x * data.dim_y).toNat 0, routes⟩ 1 = .ok (m, costs) →
        Reachable data possible_routes ⟨costs, routes⟩
  | shared_step (env : StepEnv) (wire_id : Nat) (result result' : Result) :
      Reachable data possible_routes result →
        routing_step data possible_routes env wire_id result = .ok result' →
          Reachable data possible_routes result'
  | distributed_step (all_routes_for_one_wire : List Route) (env : StepEnv) (wire_id : Nat)
      (result result' : Result) :
      Reachable data possible_routes result →
        compute_step data all_routes_for_one_wire env wire_id result = .ok result' →
          Reachable data possible_routes result'

/-- The metrics of a route scored with `walk_a_route(..., 0)`, when the call
returns. -/
def dry_run (data : Data) (costs : List Int) (r : Route) : Option Metrics :=
  match walk_a_route data costs r 0 with
  | .ok (m, _) => some m
  | .error _ => none

/-- The index `costsIdx` of the cell of a point: `p.y * data.dim_x + p.x`. -/
def cell_index (data : Data) (p : Point) : Int := p.y * data.dim_x + p.x

/-- The point lies in the bounding box of the end points of the wire. -/
abbrev in_box (w : Wire) (p : Point) : Prop :=
  min w.start.x w.end_.x ≤ p.x ∧ p.x ≤ max w.start.x w.end_.x
    ∧ min w.start.y w.end_.y ≤ p.y ∧ p.y ≤ max w.start.y w.end_.y

/-- The maximum of `0` and the values of a list: what `Metrics::update`
leaves in `max_cost_value` after the values have been fed to metrics that
start at `0`. -/
def max_cost (vals : List Int) : Int := vals.foldr max 0

/-- The point `q` is a cell of the half-open segment from `p1` (included) to
`p2` (excluded) of two points that share a coordinate. -/
abbrev on_segment (p1 p2 q : Point) : Prop :=
  (p1.x = p2.x ∧ q.x = p1.x ∧ ((p1.y ≤ q.y ∧ q.y < p2.y) ∨ (p2.y < q.y ∧ q.y ≤ p1.y)))
    ∨ (p1.y = p2.y ∧ q.y = p1.y ∧ ((p1.x ≤ q.x ∧ q.x < p2.x) ∨ (p2.x < q.x ∧ q.x ≤ p1.x)))

/-- The points visited by the loop of `walk_a_line` from `p1` to `p2`, in
order. -/
def line_points (p1 p2 : Point) : List Point :=
  if p1.x = p2.x then (for_values p1.y p2.y).map fun y => ⟨p1.x, y⟩
  else (for_values p1.x p2.x).map fun x => ⟨x, p1.y⟩

/-- The number of cells of a route of the wire: `|dx| + |dy| + 1`. -/
def route_length (w : Wire) : Nat :=
  (w.end_.x - w.start.x).natAbs + (w.end_.y - w.start.y).natAbs + 1

/-- The coordinate `c` lies between `a` and `b`, both included. -/
abbrev between (a b c : Int) : Prop := (a ≤ c ∧ c ≤ b) ∨ (b ≤ c ∧ c ≤ a)

/-- The route belongs to the wire and has one of the two shapes the program
builds: `p1` and `p2` on a common row between the rows of start and end,
above start and end, or on a common column between their columns, beside
start and end. -/
abbrev proper_route (w : Wire) (r : Route) : Prop :=
  r.wire = w
    ∧ ((r.p1.x = w.start.x ∧ r.p2.x = w.end_.x ∧ r.p1.y = r.p2.y
          ∧ between w.start.y w.end_.y r.p1.y)
      ∨ (r.p1.y = w.start.y ∧ r.p2.y = w.end_.y ∧ r.p1.x = r.p2.x
          ∧ between w.start.x w.end_.x r.p1.x))

/-- The points visited by `walk_a_route`, in order. -/
def route_points (r : Route) : List Point :=
  line_points r.wire.start r.p1 ++ line_points r.p1 r.p2
    ++ line_points r.p2 r.wire.end_ ++ [r.wire.end_]

/-- The end points of every wire are cells of the grid. -/
def wires_inside (data : Data) : Prop :=
  ∀ w ∈ data.wires, w.start.inside data ∧ w.end_.inside data

/-- The bounding boxes of two different wires share no point. -/
def disjoint_boxes (data : Data) : Prop :=
  ∀ (i j : Nat) (w w' : Wire), i ≠ j → data.wires[i]? = some w → data.wires[j]? = some w' →
    ∀ p, in_box w p → ¬ in_box w' p

/-- The state of a run on wires with disjoint boxes: the array has
`dim_x * dim_y` cells and is consistent with the routes, and every wire has
a current route of one of the two shapes. -/
def well_routed (data : Data) (result : Result) : Prop :=
  (result.costs.length : Int) = data.dim_x * data.dim_y
    ∧ consistent data result
    ∧ result.routes.length = data.wires.length
    ∧ ∀ (i : Nat) (w : Wire) (r : Route), data.wires[i]? = some w →
        result.routes[i]? = some r → proper_route w r

/-- The iterations `0, ..., n - 1` of a parallel loop are shared out among
the threads: every thread runs its iterations in increasing order and every
iteration is run by exactly one thread. -/
def shared_out (n : Nat) (threads : List (List Nat)) : Prop :=
  (∀ route_ids ∈ threads, route_ids.Sorted (· < ·)) ∧ threads.flatten.Perm (List.range n)

/-- Every current route connects its own wire: there is one route per wire,
`routes[i].wire` is `wires[i]` and the three segments of `routes[i]` are
axis-aligned. -/
def routes_connect_wires (data : Data) (result : Result) : Prop :=
  result.routes.length = data.wires.length
    ∧ ∀ (i : Nat) (wire : Wire) (route : Route), data.wires[i]? = some wire →
        result.routes[i]? = some route → route.wire = wire ∧ route.aligned

/-! ## Concrete inputs -/

/-- A 3 by 3 grid with the wires (0,0) to (2,2) and (0,1) to (2,1), and
`SA_prob = 0`. -/
def demo_data : Data :=
  { dim_x := 3, dim_y := 3, wires := [⟨⟨0, 0⟩, ⟨2, 2⟩⟩, ⟨⟨0, 1⟩, ⟨2, 1⟩⟩], SA_prob := 0 }

/-- The route (0,0), (2,0), (2,2) of the first wire of `demo_data`. -/
def demo_route0 : Route := { wire := ⟨⟨0, 0⟩, ⟨2, 2⟩⟩, p1 := ⟨0, 0⟩, p2 := ⟨2, 0⟩ }

/-- The straight route of the second wire of `demo_data`. -/
def demo_route1 : Route := { wire := ⟨⟨0, 1⟩, ⟨2, 1⟩⟩, p1 := ⟨0, 1⟩, p2 := ⟨2, 1⟩ }

/-- The cost array after `walk_all_routes(..., 1)` has applied `demo_route0`
and `demo_route1` to the zero array. -/
def demo_costs : List Int := [1, 1, 1, 1, 1, 2, 0, 0, 1]

/-- A 3 by 3 grid with the single wire (1,1) to (1,1), and `SA_prob = 0`. -/
def point_data : Data :=
  { dim_x := 3, dim_y := 3, wires := [⟨⟨1, 1⟩, ⟨1, 1⟩⟩], SA_prob := 0 }

/-- The only route shape of the wire of `point_data`. -/
def point_route : Route := { wire := ⟨⟨1, 1⟩, ⟨1, 1⟩⟩, p1 := ⟨1, 1⟩, p2 := ⟨1, 1⟩ }

/-- The data of `demo_data` with `SA_prob = 1.0`. -/
def always_random_data : Data :=
  { dim_x := 3, dim_y := 3, wires := [⟨⟨0, 0⟩, ⟨2, 2⟩⟩, ⟨⟨0, 1⟩, ⟨2, 1⟩⟩], SA_prob := 1 }

/-- The second candidate of the wire (0,0) to (2,2): (0,0), (0,1), (2,1), (2,2). -/
def demo_candidate1 : Route := Route.of_wire ⟨⟨0, 0⟩, ⟨2, 2⟩⟩ ⟨0, 1⟩ ⟨2, 1⟩

/-- The third candidate of the wire (0,0) to (2,2): (0,0), (0,2), (2,2). -/
def demo_candidate2 : Route := Route.of_wire ⟨⟨0, 0⟩, ⟨2, 2⟩⟩ ⟨0, 0⟩ ⟨0, 2⟩

/-- The cost array after `walk_all_routes(..., 1)` has applied
`demo_candidate2` and `demo_route1` to the zero array. -/
def demo_costs2 : List Int := [1, 0, 0, 2, 1, 1, 1, 1, 1]

/-- A 3 by 3 grid with the wires (0,0) to (2,2) and (0,1) to (2,2),
`SA_prob = 1.0` and one sweep. -/
def two_worker_data : Data :=
  { dim_x := 3, dim_y := 3, wires := [⟨⟨0, 0⟩, ⟨2, 2⟩⟩, ⟨⟨0, 1⟩, ⟨2, 2⟩⟩], SA_prob := 1,
    SA_iters := 1 }

/-- The initial route (0,1), (2,1), (2,2) of the second wire of
`two_worker_data`. -/
def two_worker_route1 : Route := { wire := ⟨⟨0, 1⟩, ⟨2, 2⟩⟩, p1 := ⟨0, 1⟩, p2 := ⟨2, 1⟩ }

/-- The draws of the workers of `two_worker_data`: vertical first for the
wire 0, horizontal first for the wire 1, ratio 50/100. -/
def two_worker_envs : Nat → Nat → StepEnv :=
  fun _ wire_id => if wire_id = 0 then ⟨0, 1, 50, demo_route0⟩ else ⟨0, 0, 50, demo_route0⟩

/-- A 3 by 3 grid without wires. -/
def empty_data : Data := { dim_x := 3, dim_y := 3, wires := [] }

/-- A 4 by 2 grid with the wires (0,0) to (1,1) and (2,0) to (3,1), whose
bounding boxes are the left and the right half of the grid. -/
def box_data : Data :=
  { dim_x := 4, dim_y := 2, wires := [⟨⟨0, 0⟩, ⟨1, 1⟩⟩, ⟨⟨2, 0⟩, ⟨3, 1⟩⟩] }

/-- The cost array `demo_costs` after the route (0,0), (2,0), (2,2) has been
retracted. -/
def demo_retracted : List Int := [0, 0, 0, 1, 1, 1, 0, 0, 0]

/-- A cost array on which the candidates of the wire (0,0) to (2,2) score
(1,1), (1,1), (1,1) and (0,0). -/
def tie_free_costs : List Int := [0, 0, 1, 1, 0, 0, 0, 0, 0]

/-- A content of a default-constructed `Route` whose first segment, (0,0) to
(1,1), is not axis-aligned. -/
def skew_route : Route := { wire := ⟨⟨0, 0⟩, ⟨2, 2⟩⟩, p1 := ⟨1, 1⟩, p2 := ⟨2, 2⟩ }

/-- A row of three cells, without wires. -/
def row_data : Data := { dim_x := 3, dim_y := 1, wires := [] }

end WireRoute

/-! # Properties -/

namespace WireRoute

/-! ## Floating-point rounding -/

theorem log2_loop_spec : ∀ (fuel n : Nat), 0 < n → n ≤ fuel →
    2 ^ log2_loop fuel n ≤ n ∧ n < 2 ^ (log2_loop fuel n + 1) := by
  intro fuel
  induction fuel with
  | zero => intro n h0 h; omega
  | succ fuel ih =>
    intro n h0 h
    unfold log2_loop
    by_cases h2 : n < 2
    · rw [if_pos h2]
      have : n = 1 := by omega
      subst this
      decide
    · rw [if_neg h2]
      obtain ⟨ih1, ih2⟩ := ih (n / 2) (by omega) (by omega)
      rw [pow_succ] at ih2 ⊢
      rw [pow_succ (2) (log2_loop fuel (n / 2) + 1), pow_succ]
      omega

/-- The leading bit: `2 ^ floor_log2 n <= n < 2 ^ (floor_log2 n + 1)`. -/
theorem floor_log2_spec (n : Nat) (h : 0 < n) :
    2 ^ floor_log2 n ≤ n ∧ n < 2 ^ (floor_log2 n + 1) :=
  log2_loop_spec n n h (le_refl n)

/-- Rounding to an integer raises the quotient by at most one half. -/
theorem round_even_le (n m : Nat) (hm : 0 < m) : 2 * (m * round_even n m) ≤ 2 * n + m := by
  have hdm := Nat.div_add_mod n m
  have hr := Nat.mod_lt n hm
  unfold round_even
  generalize n / m = q at *
  generalize n % m = r at *
  split
  · omega
  · split
    · rw [Nat.mul_add]; omega
    · split <;> [omega; (rw [Nat.mul_add]; omega)]

theorem two_zpow_split (e : Int) :
    (2 : ℚ) ^ e * ((2 ^ (-e).toNat : Nat) : ℚ) = ((2 ^ e.toNat : Nat) : ℚ) := by
  rcases le_total 0 e with h | h
  · obtain ⟨k, rfl⟩ := Int.eq_ofNat_of_zero_le h
    have h1 : (-(k : Int)).toNat = 0 := by omega
    rw [h1, Int.toNat_natCast]
    simp
  · obtain ⟨k, hk⟩ := Int.eq_ofNat_of_zero_le (show 0 ≤ -e by omega)
    have he : e = -(k : Int) := by omega
    subst he
    have h1 : (-(k : Int)).toNat = 0 := by omega
    rw [neg_neg, h1, Int.toNat_natCast, zpow_neg, zpow_natCast]
    have : (2 : ℚ) ^ k ≠ 0 := pow_ne_zero _ (by norm_num)
    simp [this]

/-- Rounding `n / m` to `prec` bits raises the value by at most the factor
`1 + 2 ^ (-prec)`. -/
theorem round_nearest_le (prec n m : Nat) (hm : 0 < m) :
    (round_nearest prec n m).val * ((2 : ℚ) ^ prec * m) ≤ n * ((2 : ℚ) ^ prec + 1) := by
  unfold round_nearest
  by_cases hn : n = 0
  · rw [if_pos hn]; subst hn; simp [Binary.val]
  rw [if_neg hn]
  have hn0 : 0 < n := Nat.pos_of_ne_zero hn
  obtain ⟨ha1, _⟩ := floor_log2_spec n hn0
  obtain ⟨_, hb2⟩ := floor_log2_spec m hm
  generalize floor_log2 n = a at *
  generalize floor_log2 m = b at *
  dsimp only
  generalize he : ((a : Int) - (b : Int) - (prec : Int)) = e
  have hpow : 2 ^ e.toNat * 2 ^ b * 2 ^ prec = 2 ^ (-e).toNat * 2 ^ a := by
    rw [← pow_add, ← pow_add, ← pow_add]
    congr 1
    omega
  have hz := two_zpow_split e
  have hw : 0 < 2 ^ (-e).toNat := Nat.two_pow_pos _
  have hu : 0 < 2 ^ e.toNat := Nat.two_pow_pos _
  have hb0 : 0 < 2 ^ b := Nat.two_pow_pos _
  rw [pow_succ] at hb2
  generalize 2 ^ e.toNat = u at *
  generalize 2 ^ (-e).toNat = w at *
  generalize hP : 2 ^ prec = P at *
  generalize 2 ^ a = A at *
  generalize 2 ^ b = B at *
  have hPq : (2 : ℚ) ^ prec = (P : ℚ) := by rw [← hP]; push_cast; rfl
  rw [hPq]
  have hwq : (0 : ℚ) < w := by exact_mod_cast hw
  -- the scaled quotient is at least `2 ^ (prec - 1)`
  have hlog : P * (m * u) ≤ 2 * (n * w) := by
    apply Nat.le_of_mul_le_mul_right _ hb0
    calc P * (m * u) * B = m * (u * B * P) := by ring
      _ = m * (w * A) := by rw [hpow]
      _ ≤ (B * 2) * (w * n) :=
          Nat.mul_le_mul (Nat.le_of_lt hb2) (Nat.mul_le_mul_left w ha1)
      _ = 2 * (n * w) * B := by ring
  have hmu : 0 < m * u := Nat.mul_pos hm hu
  split
  · have hre := round_even_le (n * w) (m * u) hmu
    generalize round_even (n * w) (m * u) = R at *
    have hF : P * (m * u) * R ≤ n * w * (P + 1) := by nlinarith
    have hFq : (P : ℚ) * (m * u) * R ≤ n * w * (P + 1) := by exact_mod_cast hF
    show (R : ℚ) * (2 : ℚ) ^ e * (P * m) ≤ n * (P + 1)
    apply le_of_mul_le_mul_right _ hwq
    calc (R : ℚ) * (2 : ℚ) ^ e * (P * m) * w = P * (m * ((2 : ℚ) ^ e * w)) * R := by ring
      _ = P * (m * u) * R := by rw [hz]
      _ ≤ n * w * (P + 1) := hFq
      _ = n * (P + 1) * w := by ring
  · rename_i hcase
    have hre := round_even_le (n * w) (2 * (m * u)) (Nat.mul_pos (by decide) hmu)
    generalize round_even (n * w) (2 * (m * u)) = R at *
    have hF : 2 * (P * (m * u) * R) ≤ n * w * (P + 1) := by nlinarith
    have hFq : 2 * ((P : ℚ) * (m * u) * R) ≤ n * w * (P + 1) := by exact_mod_cast hF
    show (R : ℚ) * (2 : ℚ) ^ (e + 1) * (P * m) ≤ n * (P + 1)
    rw [zpow_add_one₀ (by norm_num)]
    apply le_of_mul_le_mul_right _ hwq
    calc (R : ℚ) * ((2 : ℚ) ^ e * 2) * (P * m) * w = 2 * (P * (m * ((2 : ℚ) ^ e * w)) * R) := by
          ring
      _ = 2 * (P * (m * u) * R) := by rw [hz]
      _ ≤ n * w * (P + 1) := hFq
      _ = n * (P + 1) * w := by ring

theorem Binary.val_nonneg (f : Binary) : 0 ≤ f.val := by
  unfold Binary.val
  positivity

/-- Truncation does not raise the value. -/
theorem Binary.trunc_le_val (f : Binary) : (f.trunc : ℚ) ≤ f.val := by
  unfold Binary.trunc Binary.val
  have hz := two_zpow_split f.exponent
  split
  · rename_i h
    have h1 : (-f.exponent).toNat = 0 := by omega
    rw [h1] at hz
    simp only [pow_zero, Nat.cast_one, mul_one] at hz
    rw [hz]
    push_cast
    exact le_refl _
  · rename_i h
    have h1 : f.exponent.toNat = 0 := by omega
    rw [h1] at hz
    simp only [pow_zero, Nat.cast_one] at hz
    have hw : (0 : ℚ) < ((2 ^ (-f.exponent).toNat : Nat) : ℚ) := by
      exact_mod_cast Nat.two_pow_pos _
    have he : (2 : ℚ) ^ f.exponent = 1 / ((2 ^ (-f.exponent).toNat : Nat) : ℚ) := by
      rw [eq_div_iff (ne_of_gt hw)]; exact hz
    rw [he, mul_one_div]
    exact Nat.cast_div_le

/-- The rounded product exceeds the exact product by at most the factor
`1 + 2 ^ (-prec)`. -/
theorem Binary.mul_val_le (prec : Nat) (a b : Binary) :
    (Binary.mul prec a b).val * (2 : ℚ) ^ prec ≤ a.val * b.val * ((2 : ℚ) ^ prec + 1) := by
  have h := round_nearest_le prec
    (a.mantissa * b.mantissa * 2 ^ (a.exponent + b.exponent).toNat)
    (2 ^ (-(a.exponent + b.exponent)).toNat) (Nat.two_pow_pos _)
  have hz := two_zpow_split (a.exponent + b.exponent)
  have hw : (0 : ℚ) < ((2 ^ (-(a.exponent + b.exponent)).toNat : Nat) : ℚ) := by
    exact_mod_cast Nat.two_pow_pos _
  have hv : a.val * b.val = (a.mantissa : ℚ) * b.mantissa * (2 : ℚ) ^ (a.exponent + b.exponent) := by
    unfold Binary.val
    rw [zpow_add₀ (by norm_num)]
    ring
  rw [hv]
  unfold Binary.mul
  rw [Nat.cast_mul, ← hz] at h
  apply le_of_mul_le_mul_right _ hw
  calc _ = (round_nearest prec
            (a.mantissa * b.mantissa * 2 ^ (a.exponent + b.exponent).toNat)
            (2 ^ (-(a.exponent + b.exponent)).toNat)).val
          * ((2 : ℚ) ^ prec * ((2 ^ (-(a.exponent + b.exponent)).toNat : Nat) : ℚ)) := by ring
    _ ≤ _ := h
    _ = _ := by push_cast; ring

/-- The magnitude of `int(p * d)` does not exceed that of `d` when
`p = r / 100.f` with `r < 100`. -/
theorem product_trunc_le (r : Nat) (hr : r < 100) (k : Nat) :
    (Binary.mul 24 (round_nearest 24 r 100) (round_nearest 24 k 1)).trunc ≤ k := by
  have hp := round_nearest_le 24 r 100 (by decide)
  have hd := round_nearest_le 24 k 1 (by decide)
  have hx := Binary.mul_val_le 24 (round_nearest 24 r 100) (round_nearest 24 k 1)
  have ht := Binary.trunc_le_val
    (Binary.mul 24 (round_nearest 24 r 100) (round_nearest 24 k 1))
  have hp0 := Binary.val_nonneg (round_nearest 24 r 100)
  have hd0 := Binary.val_nonneg (round_nearest 24 k 1)
  generalize (Binary.mul 24 (round_nearest 24 r 100) (round_nearest 24 k 1)).val = x at *
  generalize (round_nearest 24 r 100).val = p at *
  generalize (round_nearest 24 k 1).val = D at *
  have hr' : (r : ℚ) ≤ 99 := by exact_mod_cast (by omega : r ≤ 99)
  have hk0 : (0 : ℚ) ≤ k := by positivity
  norm_num at hp hd hx
  have h1 : p ≤ 99 * 16777217 / (100 * 16777216) := by
    rw [le_div_iff₀ (by norm_num)]
    linarith
  have h2 : D ≤ k * (16777217 / 16777216) := by linarith
  have h3 : p * D ≤ (99 * 16777217 / (100 * 16777216)) * (k * (16777217 / 16777216)) :=
    mul_le_mul h1 h2 hd0 (by norm_num)
  have h4 : x ≤ k := by
    have hx' : x ≤ p * D * (16777217 / 16777216) := by linarith
    have hpd : 0 ≤ p * D := mul_nonneg hp0 hd0
    nlinarith
  exact_mod_cast ht.trans h4

/-- The offset `int(p * d)` with `p = r / 100.f`, `r < 100`, lies between 0
and `d`. -/
theorem int_of_product_bounds (r : Nat) (hr : r < 100) (d : Int) :
    (0 ≤ d → 0 ≤ int_of_product (round_nearest 24 r 100) d
        ∧ int_of_product (round_nearest 24 r 100) d ≤ d)
    ∧ (d ≤ 0 → d ≤ int_of_product (round_nearest 24 r 100) d
        ∧ int_of_product (round_nearest 24 r 100) d ≤ 0) := by
  have h := product_trunc_le r hr d.natAbs
  unfold int_of_product
  generalize (Binary.mul 24 (round_nearest 24 r 100) (round_nearest 24 d.natAbs 1)).trunc = t at *
  constructor
  · intro h0
    rw [if_pos h0]
    omega
  · intro h0
    split <;> omega

/-! ## Loop values -/

theorem for_loop_up (stop : Int) : ∀ (n : Nat) (v : Int), stop = v + n →
    (for_loop 1 stop n v).length = n ∧ ∀ x, x ∈ for_loop 1 stop n v ↔ v ≤ x ∧ x < stop := by
  intro n
  induction n with
  | zero => intro v h; simp [for_loop]; intro x; omega
  | succ n ih =>
    intro v h
    have hne : v ≠ stop := by omega
    obtain ⟨hl, hm⟩ := ih (v + 1) (by push_cast at h; omega)
    simp only [for_loop, if_neg hne, List.length_cons, hl, List.mem_cons, hm, true_and]
    intro x; omega

theorem for_loop_down (stop : Int) : ∀ (n : Nat) (v : Int), stop = v - n →
    (for_loop (-1) stop n v).length = n ∧
      ∀ x, x ∈ for_loop (-1) stop n v ↔ stop < x ∧ x ≤ v := by
  intro n
  induction n with
  | zero => intro v h; simp [for_loop]; intro x; omega
  | succ n ih =>
    intro v h
    have hne : v ≠ stop := by omega
    obtain ⟨hl, hm⟩ := ih (v + -1) (by push_cast at h; omega)
    simp only [for_loop, if_neg hne, List.length_cons, hl, List.mem_cons, hm, true_and]
    intro x; omega

/-- The loop `for (v = a; v != b; v += sign)` runs `|b - a|` times. -/
theorem length_for_values (a b : Int) : (for_values a b).length = (b - a).natAbs := by
  unfold for_values
  split
  · exact (for_loop_up b _ a (by omega)).1
  · exact (for_loop_down b _ a (by omega)).1

/-- The loop variable takes the values from `a` (included) towards `b` (excluded). -/
theorem mem_for_values (a b x : Int) :
    x ∈ for_values a b ↔ (a ≤ x ∧ x < b) ∨ (b < x ∧ x ≤ a) := by
  unfold for_values
  split
  · rw [(for_loop_up b _ a (by omega)).2]; omega
  · rw [(for_loop_down b _ a (by omega)).2]; omega

theorem for_values_self (a : Int) : for_values a a = [] := by
  simp [for_values, for_loop]

/-! ## The cost array -/

theorem list_eq_of_getD (l₁ l₂ : List Int) (hl : l₁.length = l₂.length)
    (h : ∀ j : Nat, l₁.getD j 0 = l₂.getD j 0) : l₁ = l₂ := by
  apply List.ext_getElem hl
  intro n h₁ h₂
  have := h n
  rwa [List.getD_eq_getElem _ _ h₁, List.getD_eq_getElem _ _ h₂] at this

theorem getD_set_cell (costs : List Int) (i j : Nat) (v : Int) (hi : i < costs.length) :
    (costs.set i v).getD j 0 = if i = j then v else costs.getD j 0 := by
  simp only [List.getD_eq_getElem?_getD, List.getElem?_set, hi, if_true]
  split <;> simp

theorem bump_ok (costs : List Int) (idx c : Int) (h : 0 ≤ idx ∧ idx < (costs.length : Int)) :
    bump costs idx c
      = .ok (costs.set idx.toNat (costs.getD idx.toNat 0 + c), costs.getD idx.toNat 0 + c) := by
  simp [bump, h]

theorem bump_eq_ok {costs costs' : List Int} {idx c v : Int}
    (h : bump costs idx c = .ok (costs', v)) :
    (0 ≤ idx ∧ idx < (costs.length : Int))
      ∧ costs' = costs.set idx.toNat (costs.getD idx.toNat 0 + c)
      ∧ v = costs.getD idx.toNat 0 + c := by
  unfold bump at h
  split at h
  · rename_i hb
    simp only [Except.ok.injEq, Prod.mk.injEq] at h
    exact ⟨hb, h.1.symm, h.2.symm⟩
  · simp at h

theorem length_add_cells (c : Int) : ∀ (cells costs : List Int),
    (add_cells c cells costs).length = costs.length := by
  intro cells
  induction cells with
  | nil => intro costs; rfl
  | cons idx rest ih => intro costs; simp [add_cells, ih]

theorem in_bounds_cons {len : Nat} {idx : Int} {rest : List Int} :
    in_bounds len (idx :: rest) ↔ (0 ≤ idx ∧ idx < (len : Int)) ∧ in_bounds len rest := by
  simp [in_bounds]

theorem in_bounds_append {len : Nat} {l₁ l₂ : List Int} :
    in_bounds len (l₁ ++ l₂) ↔ in_bounds len l₁ ∧ in_bounds len l₂ := by
  simp only [in_bounds, List.mem_append]
  constructor
  · intro h; exact ⟨fun i hi => h i (Or.inl hi), fun i hi => h i (Or.inr hi)⟩
  · rintro ⟨h₁, h₂⟩ i (hi | hi)
    · exact h₁ i hi
    · exact h₂ i hi

theorem add_cells_append (c : Int) : ∀ (l₁ l₂ costs : List Int),
    add_cells c (l₁ ++ l₂) costs = add_cells c l₂ (add_cells c l₁ costs) := by
  intro l₁
  induction l₁ with
  | nil => intro l₂ costs; rfl
  | cons idx rest ih => intro l₂ costs; simp [add_cells, ih]

/-- Cell `j` of the array gains `cost_change` once for every occurrence of
`j` among the indices walked. -/
theorem getD_add_cells (c : Int) : ∀ (cells costs : List Int),
    in_bounds costs.length cells → ∀ j : Nat,
      (add_cells c cells costs).getD j 0 = costs.getD j 0 + c * (cells.count (j : Int) : Nat) := by
  intro cells
  induction cells with
  | nil => intro costs _ j; simp [add_cells]
  | cons idx rest ih =>
    intro costs hb j
    obtain ⟨hidx, hrest⟩ := in_bounds_cons.1 hb
    have hlt : idx.toNat < costs.length := by omega
    have hrest' : in_bounds (costs.set idx.toNat (costs.getD idx.toNat 0 + c)).length rest := by
      simpa using hrest
    rw [add_cells, ih _ hrest' j, getD_set_cell _ _ _ _ hlt, List.count_cons]
    by_cases hij : idx = (j : Int)
    · have hj : idx.toNat = j := by omega
      have hb : (idx == (j : Int)) = true := by simpa using hij
      rw [if_pos hj, if_pos hb, hj]; push_cast; ring
    · have hj : ¬ idx.toNat = j := by omega
      have hb : ¬ (idx == (j : Int)) = true := by simpa using hij
      rw [if_neg hj, if_neg hb]; simp

theorem walk_cells_ok (c : Int) : ∀ (cells costs : List Int) (m : Metrics),
    in_bounds costs.length cells →
      ∃ m', walk_cells c cells costs m = .ok (m', add_cells c cells costs) := by
  intro cells
  induction cells with
  | nil => intro costs m _; exact ⟨m, rfl⟩
  | cons idx rest ih =>
    intro costs m hb
    obtain ⟨hidx, hrest⟩ := in_bounds_cons.1 hb
    have hrest' : in_bounds (costs.set idx.toNat (costs.getD idx.toNat 0 + c)).length rest := by
      simpa using hrest
    obtain ⟨m', hm'⟩ := ih _ (m.update (costs.getD idx.toNat 0 + c)) hrest'
    exact ⟨m', by simp only [walk_cells, bump_ok costs idx c hidx, hm', add_cells]⟩

theorem walk_cells_grid (c : Int) : ∀ (cells costs : List Int) (m m' : Metrics) (costs' : List Int),
    walk_cells c cells costs m = .ok (m', costs') →
      in_bounds costs.length cells ∧ costs' = add_cells c cells costs := by
  intro cells
  induction cells with
  | nil =>
    intro costs m m' costs' h
    simp only [walk_cells, Except.ok.injEq, Prod.mk.injEq] at h
    exact ⟨by simp [in_bounds], h.2.symm⟩
  | cons idx rest ih =>
    intro costs m m' costs' h
    rw [walk_cells] at h
    split at h
    · simp at h
    · rename_i costs₁ v hbump
      obtain ⟨hidx, hc, _⟩ := bump_eq_ok hbump
      obtain ⟨hb, he⟩ := ih _ _ _ _ h
      subst hc
      refine ⟨in_bounds_cons.2 ⟨hidx, by simpa using hb⟩, ?_⟩
      rw [he, add_cells]

/-! ## Walking lines and routes -/

theorem walk_a_line_eq (data : Data) (costs : List Int) (p1 p2 : Point) (c : Int)
    (h : aligned p1 p2) :
    walk_a_line data costs p1 p2 c = walk_cells c (line_cells data p1 p2) costs {} := by
  unfold walk_a_line line_cells
  rw [if_neg (not_not.2 h)]
  by_cases he : p1 = p2
  · subst he; simp [for_values_self, walk_cells]
  · rw [if_neg he]
    by_cases hx : p1.x = p2.x
    · simp only [hx, if_true]
    · simp only [hx, if_false]

theorem walk_a_line_not_aligned (data : Data) (costs : List Int) (p1 p2 : Point) (c : Int)
    (h : ¬ aligned p1 p2) : walk_a_line data costs p1 p2 c = .error .assertion := by
  unfold walk_a_line
  rw [if_pos h]

theorem walk_a_line_ok (data : Data) (costs : List Int) (p1 p2 : Point) (c : Int)
    (h : aligned p1 p2) (hb : in_bounds costs.length (line_cells data p1 p2)) :
    ∃ m, walk_a_line data costs p1 p2 c = .ok (m, add_cells c (line_cells data p1 p2) costs) := by
  rw [walk_a_line_eq data costs p1 p2 c h]
  exact walk_cells_ok c _ costs {} hb

theorem walk_a_line_grid {data : Data} {costs costs' : List Int} {p1 p2 : Point} {c : Int}
    {m : Metrics} (h : walk_a_line data costs p1 p2 c = .ok (m, costs')) :
    aligned p1 p2 ∧ in_bounds costs.length (line_cells data p1 p2)
      ∧ costs' = add_cells c (line_cells data p1 p2) costs := by
  by_cases ha : aligned p1 p2
  · rw [walk_a_line_eq data costs p1 p2 c ha] at h
    exact ⟨ha, walk_cells_grid c _ _ _ _ _ h⟩
  · rw [walk_a_line_not_aligned data costs p1 p2 c ha] at h
    simp at h

theorem walk_a_route_ok (data : Data) (costs : List Int) (r : Route) (c : Int)
    (ha : r.aligned) (hb : in_bounds costs.length (footprint data r)) :
    ∃ m, walk_a_route data costs r c = .ok (m, add_cells c (footprint data r) costs) := by
  unfold footprint at hb ⊢
  simp only [in_bounds_append] at hb
  obtain ⟨⟨⟨hb1, hb2⟩, hb3⟩, hb4⟩ := hb
  obtain ⟨ha1, ha2, ha3⟩ := ha
  obtain ⟨m1, h1⟩ := walk_a_line_ok data costs r.wire.start r.p1 c ha1 hb1
  obtain ⟨m2, h2⟩ := walk_a_line_ok data (add_cells c (line_cells data r.wire.start r.p1) costs)
    r.p1 r.p2 c ha2 (by rw [length_add_cells]; exact hb2)
  obtain ⟨m3, h3⟩ := walk_a_line_ok data
    (add_cells c (line_cells data r.p1 r.p2) (add_cells c (line_cells data r.wire.start r.p1) costs))
    r.p2 r.wire.end_ c ha3 (by rw [length_add_cells, length_add_cells]; exact hb3)
  have h4 := bump_ok (add_cells c (line_cells data r.p2 r.wire.end_)
      (add_cells c (line_cells data r.p1 r.p2) (add_cells c (line_cells data r.wire.start r.p1) costs)))
    (r.wire.end_.y * data.dim_x + r.wire.end_.x) c
    (by simpa [length_add_cells, in_bounds] using hb4)
  unfold walk_a_route
  simp only [h1, h2, h3, h4, add_cells_append, add_cells]
  exact ⟨_, rfl⟩

theorem walk_a_route_grid {data : Data} {costs costs' : List Int} {r : Route} {c : Int}
    {m : Metrics} (h : walk_a_route data costs r c = .ok (m, costs')) :
    r.aligned ∧ in_bounds costs.length (footprint data r)
      ∧ costs' = add_cells c (footprint data r) costs := by
  unfold walk_a_route at h
  split at h
  · simp at h
  · rename_i m1 costs1 h1
    split at h
    · simp at h
    · rename_i m2 costs2 h2
      split at h
      · simp at h
      · rename_i m3 costs3 h3
        split at h
        · simp at h
        · rename_i costs4 v h4
          obtain ⟨ha1, hb1, e1⟩ := walk_a_line_grid h1
          obtain ⟨ha2, hb2, e2⟩ := walk_a_line_grid h2
          obtain ⟨ha3, hb3, e3⟩ := walk_a_line_grid h3
          obtain ⟨hb4, e4, _⟩ := bump_eq_ok h4
          simp only [Except.ok.injEq, Prod.mk.injEq] at h
          subst e1 e2 e3 e4
          simp only [length_add_cells] at hb2 hb3 hb4
          refine ⟨⟨ha1, ha2, ha3⟩, ?_, ?_⟩
          · unfold footprint
            simp only [in_bounds_append]
            exact ⟨⟨⟨hb1, hb2⟩, hb3⟩, by simpa [in_bounds] using hb4⟩
          · rw [← h.2]
            unfold footprint
            simp only [add_cells_append, add_cells]

theorem line_cells_in_bounds (data : Data) (len : Nat)
    (hlen : (len : Int) = data.dim_x * data.dim_y) (p1 p2 : Point)
    (h1 : p1.inside data) (h2 : p2.inside data) :
    in_bounds len (line_cells data p1 p2) := by
  obtain ⟨h1a, h1b, h1c, h1d⟩ := h1
  obtain ⟨h2a, h2b, h2c, h2d⟩ := h2
  intro idx hidx
  unfold line_cells at hidx
  rw [hlen]
  split at hidx
  · obtain ⟨y, hy, rfl⟩ := List.mem_map.1 hidx
    rw [mem_for_values] at hy
    have hy0 : 0 ≤ y := by omega
    have hy1 : y + 1 ≤ data.dim_y := by omega
    constructor
    · nlinarith
    · nlinarith
  · obtain ⟨x, hx, rfl⟩ := List.mem_map.1 hidx
    rw [mem_for_values] at hx
    have hx0 : 0 ≤ x := by omega
    have hx1 : x < data.dim_x := by omega
    have hy1 : p1.y + 1 ≤ data.dim_y := by omega
    constructor
    · nlinarith
    · nlinarith

theorem footprint_in_bounds (data : Data) (len : Nat)
    (hlen : (len : Int) = data.dim_x * data.dim_y) (r : Route) (h : r.inside data) :
    in_bounds len (footprint data r) := by
  obtain ⟨hs, h1, h2, he⟩ := h
  unfold footprint
  simp only [in_bounds_append]
  refine ⟨⟨⟨line_cells_in_bounds data len hlen _ _ hs h1,
    line_cells_in_bounds data len hlen _ _ h1 h2⟩,
    line_cells_in_bounds data len hlen _ _ h2 he⟩, ?_⟩
  obtain ⟨hea, heb, hec, hed⟩ := he
  intro idx hidx
  simp only [List.mem_singleton] at hidx
  subst hidx
  rw [hlen]
  have hy1 : r.wire.end_.y + 1 ≤ data.dim_y := by omega
  constructor
  · nlinarith
  · nlinarith

theorem add_cells_zero (cells costs : List Int) (hb : in_bounds costs.length cells) :
    add_cells 0 cells costs = costs := by
  apply list_eq_of_getD _ _ (length_add_cells 0 cells costs)
  intro j
  rw [getD_add_cells 0 cells costs hb j]; simp

theorem add_cells_round_trip (c : Int) (cells costs : List Int)
    (hb : in_bounds costs.length cells) :
    add_cells (-c) cells (add_cells c cells costs) = costs := by
  have hb' : in_bounds (add_cells c cells costs).length cells := by
    rw [length_add_cells]; exact hb
  apply list_eq_of_getD _ _ (by rw [length_add_cells, length_add_cells])
  intro j
  rw [getD_add_cells (-c) cells _ hb' j, getD_add_cells c cells costs hb j]; ring

theorem walk_cells_error (c : Int) : ∀ (cells costs : List Int) (m : Metrics) (e : Fault),
    walk_cells c cells costs m = .error e → e = .out_of_bounds := by
  intro cells
  induction cells with
  | nil => intro costs m e h; simp [walk_cells] at h
  | cons idx rest ih =>
    intro costs m e h
    rw [walk_cells] at h
    split at h
    · rename_i e' hbump
      unfold bump at hbump
      split at hbump
      · simp at hbump
      · simp only [Except.error.injEq] at hbump h
        rw [← h, ← hbump]
    · exact ih _ _ _ h

/-! ## Conservation and pure evaluation -/

/-- C2: for every grid of `dim_x * dim_y` cells and every route whose three
segments are axis-aligned and lie inside the grid, `walk_a_route` with
`cost_change = +1` returns, the following `walk_a_route` with
`cost_change = -1` on the same route returns too, and the array it leaves is
the array before the two calls. -/
theorem conservation_round_trip (data : Data) (costs : List Int) (route : Route)
    (hlen : (costs.length : Int) = data.dim_x * data.dim_y)
    (ha : route.aligned) (hi : route.inside data) :
    ∃ m1 costs1 m2, walk_a_route data costs route 1 = .ok (m1, costs1)
      ∧ walk_a_route data costs1 route (-1) = .ok (m2, costs) := by
  have hb := footprint_in_bounds data costs.length hlen route hi
  obtain ⟨m1, h1⟩ := walk_a_route_ok data costs route 1 ha hb
  obtain ⟨m2, h2⟩ := walk_a_route_ok data (add_cells 1 (footprint data route) costs) route (-1) ha
    (by rw [length_add_cells]; exact hb)
  rw [add_cells_round_trip 1 _ _ hb] at h2
  exact ⟨m1, _, m2, h1, h2⟩

/-- Witness of C2 on a 3 by 3 grid with the route (0,0), (0,1), (2,1), (2,2). -/
theorem conservation_round_trip_witness :
    ∃ m1 costs1 m2,
      walk_a_route { dim_x := 3, dim_y := 3, wires := [] } [0, 1, 2, 3, 4, 5, 6, 7, 8]
          { wire := ⟨⟨0, 0⟩, ⟨2, 2⟩⟩, p1 := ⟨0, 1⟩, p2 := ⟨2, 1⟩ } 1 = .ok (m1, costs1)
        ∧ walk_a_route { dim_x := 3, dim_y := 3, wires := [] } costs1
          { wire := ⟨⟨0, 0⟩, ⟨2, 2⟩⟩, p1 := ⟨0, 1⟩, p2 := ⟨2, 1⟩ } (-1)
            = .ok (m2, [0, 1, 2, 3, 4, 5, 6, 7, 8]) :=
  conservation_round_trip { dim_x := 3, dim_y := 3, wires := [] } [0, 1, 2, 3, 4, 5, 6, 7, 8]
    { wire := ⟨⟨0, 0⟩, ⟨2, 2⟩⟩, p1 := ⟨0, 1⟩, p2 := ⟨2, 1⟩ } (by decide) (by decide) (by decide)

theorem walk_a_route_zero {data : Data} {costs costs' : List Int} {r : Route} {m : Metrics}
    (h : walk_a_route data costs r 0 = .ok (m, costs')) : costs' = costs := by
  obtain ⟨_, hb, he⟩ := walk_a_route_grid h
  rw [he, add_cells_zero _ _ hb]

theorem walk_routes_zero (data : Data) : ∀ (routes : List Route) (costs : List Int)
    (m m' : Metrics) (costs' : List Int),
    walk_routes data 0 routes costs m = .ok (m', costs') → costs' = costs := by
  intro routes
  induction routes with
  | nil =>
    intro costs m m' costs' h
    simp only [walk_routes, Except.ok.injEq, Prod.mk.injEq] at h
    exact h.2.symm
  | cons r rest ih =>
    intro costs m m' costs' h
    rw [walk_routes] at h
    split at h
    · simp at h
    · rename_i mr costs₁ hr
      rw [ih _ _ _ _ h, walk_a_route_zero hr]

theorem walk_routes_zero_ok (data : Data) (costs : List Int)
    (hlen : (costs.length : Int) = data.dim_x * data.dim_y) : ∀ (routes : List Route) (m : Metrics),
    (∀ r ∈ routes, r.aligned ∧ r.inside data) →
      ∃ m', walk_routes data 0 routes costs m = .ok (m', costs) := by
  intro routes
  induction routes with
  | nil => intro m _; exact ⟨m, rfl⟩
  | cons r rest ih =>
    intro m h
    obtain ⟨hr, hrest⟩ := List.forall_mem_cons.1 h
    have hb := footprint_in_bounds data costs.length hlen r hr.2
    obtain ⟨mr, hmr⟩ := walk_a_route_ok data costs r 0 hr.1 hb
    rw [add_cells_zero _ _ hb] at hmr
    obtain ⟨m', hm'⟩ := ih (m.update_metrics mr) hrest
    exact ⟨m', by simp only [walk_routes, hmr, hm']⟩

/-- C10: `walk_a_route` with `cost_change = 0` leaves the cost array as it
was whenever it returns, and it returns for every route with axis-aligned
segments inside the grid; the same holds for `walk_all_routes` with
`cost_change = 0` and every route collection. -/
theorem pure_evaluation (data : Data) (costs : List Int) :
    (∀ route m costs', walk_a_route data costs route 0 = .ok (m, costs') → costs' = costs)
    ∧ (∀ routes m costs', walk_all_routes data ⟨costs, routes⟩ 0 = .ok (m, costs') →
        costs' = costs)
    ∧ ((costs.length : Int) = data.dim_x * data.dim_y →
        (∀ route : Route, route.aligned → route.inside data →
          ∃ m, walk_a_route data costs route 0 = .ok (m, costs))
        ∧ (∀ routes : List Route, (∀ r ∈ routes, r.aligned ∧ r.inside data) →
          ∃ m, walk_all_routes data ⟨costs, routes⟩ 0 = .ok (m, costs))) := by
  refine ⟨fun _ _ _ h => walk_a_route_zero h,
    fun routes m costs' h => walk_routes_zero data routes costs _ m costs' h, fun hlen => ⟨?_, ?_⟩⟩
  · intro route ha hi
    have hb := footprint_in_bounds data costs.length hlen route hi
    obtain ⟨m, hm⟩ := walk_a_route_ok data costs route 0 ha hb
    rw [add_cells_zero _ _ hb] at hm
    exact ⟨m, hm⟩
  · intro routes h
    exact walk_routes_zero_ok data costs hlen routes {} h

/-- Witness of C10: a dry run of the route (0,0), (0,1), (2,1), (2,2) on a
3 by 3 grid returns and leaves the array as it was. -/
theorem pure_evaluation_witness :
    ∃ m, walk_a_route { dim_x := 3, dim_y := 3, wires := [] } [0, 1, 2, 3, 4, 5, 6, 7, 8]
      { wire := ⟨⟨0, 0⟩, ⟨2, 2⟩⟩, p1 := ⟨0, 1⟩, p2 := ⟨2, 1⟩ } 0
        = .ok (m, [0, 1, 2, 3, 4, 5, 6, 7, 8]) :=
  ((pure_evaluation { dim_x := 3, dim_y := 3, wires := [] } [0, 1, 2, 3, 4, 5, 6, 7, 8]).2.2
    (by decide)).1 { wire := ⟨⟨0, 0⟩, ⟨2, 2⟩⟩, p1 := ⟨0, 1⟩, p2 := ⟨2, 1⟩ } (by decide) (by decide)

/-! ## The precondition of `walk_a_line` -/

/-- C9, as stated, fails: the points (1,1) and (1,1) do not share exactly one
coordinate (they share both), yet `walk_a_line` does not stop at the
assertion: it returns zero metrics and the array as it was. -/
theorem walk_a_line_equal_points_returns :
    ¬ ((⟨1, 1⟩ : Point).x = (⟨1, 1⟩ : Point).x ∧ (⟨1, 1⟩ : Point).y ≠ (⟨1, 1⟩ : Point).y
        ∨ (⟨1, 1⟩ : Point).x ≠ (⟨1, 1⟩ : Point).x ∧ (⟨1, 1⟩ : Point).y = (⟨1, 1⟩ : Point).y)
    ∧ walk_a_line { dim_x := 3, dim_y := 3, wires := [] } [0, 1, 2, 3, 4, 5, 6, 7, 8] ⟨1, 1⟩ ⟨1, 1⟩ 1
        = .ok ({ max_cost_value := 0, sum_cost_values := 0 }, [0, 1, 2, 3, 4, 5, 6, 7, 8]) :=
  ⟨by decide, rfl⟩

/-- C9, amended: `walk_a_line` stops at its assertion exactly when both
coordinates of `p1` and `p2` differ; for `p1 == p2` it returns zero metrics
and leaves the array as it was; and whenever the points share no coordinate
nothing is returned, so the array is not touched. -/
theorem walk_a_line_precondition (data : Data) (costs : List Int) (p1 p2 : Point)
    (cost_change : Int) :
    (walk_a_line data costs p1 p2 cost_change = .error .assertion
        ↔ p1.x ≠ p2.x ∧ p1.y ≠ p2.y)
    ∧ (p1 = p2 → walk_a_line data costs p1 p2 cost_change
        = .ok ({ max_cost_value := 0, sum_cost_values := 0 }, costs)) := by
  constructor
  · constructor
    · intro h
      by_contra hn
      have ha : aligned p1 p2 := by
        unfold aligned
        by_contra hna
        exact hn ⟨fun hx => hna (Or.inl hx), fun hy => hna (Or.inr hy)⟩
      rw [walk_a_line_eq data costs p1 p2 cost_change ha] at h
      have := walk_cells_error _ _ _ _ _ h
      simp at this
    · rintro ⟨hx, hy⟩
      exact walk_a_line_not_aligned data costs p1 p2 cost_change (by simp [aligned, hx, hy])
  · intro h
    subst h
    simp [walk_a_line]

/-- Witness of the amended C9 at `p1 = p2 = (1,1)`. -/
theorem walk_a_line_precondition_witness :
    walk_a_line { dim_x := 3, dim_y := 3, wires := [] } [0, 1, 2, 3, 4, 5, 6, 7, 8] ⟨1, 1⟩ ⟨1, 1⟩ 1
      = .ok ({ max_cost_value := 0, sum_cost_values := 0 }, [0, 1, 2, 3, 4, 5, 6, 7, 8]) :=
  (walk_a_line_precondition { dim_x := 3, dim_y := 3, wires := [] } [0, 1, 2, 3, 4, 5, 6, 7, 8]
    ⟨1, 1⟩ ⟨1, 1⟩ 1).2 rfl

/-! ## The order on metrics -/

theorem Metrics.lt_iff (a b : Metrics) :
    a.lt b = true ↔ a.max_cost_value < b.max_cost_value
      ∨ (a.max_cost_value = b.max_cost_value ∧ a.sum_cost_values < b.sum_cost_values) := by
  unfold Metrics.lt
  split
  · rename_i h
    simp only [decide_eq_true_eq]
    constructor
    · intro h'; exact Or.inl h'
    · rintro (h' | ⟨h', _⟩)
      · exact h'
      · exact absurd h' h
  · rename_i h
    simp only [ne_eq, not_not] at h
    simp only [decide_eq_true_eq]
    constructor
    · intro h'; exact Or.inr ⟨h, h'⟩
    · rintro (h' | ⟨_, h'⟩)
      · omega
      · exact h'

theorem Metrics.eq_iff (a b : Metrics) :
    a = b ↔ a.max_cost_value = b.max_cost_value ∧ a.sum_cost_values = b.sum_cost_values := by
  cases a; cases b; simp

/-- C5: `operator<` on `Metrics` is the lexicographic order on
`(max_cost_value, sum_cost_values)`; for all `a`, `b`, `c` exactly one of
`a < b`, `b < a`, `a == b` (field-wise) holds, and `a < b` with `b < c`
gives `a < c`. -/
theorem metrics_lt_strict_total_order (a b c : Metrics) :
    (a.lt b = true ↔ a.max_cost_value < b.max_cost_value
        ∨ (a.max_cost_value = b.max_cost_value ∧ a.sum_cost_values < b.sum_cost_values))
    ∧ ((a.lt b = true ∧ b.lt a = false ∧ a ≠ b)
        ∨ (a.lt b = false ∧ b.lt a = true ∧ a ≠ b)
        ∨ (a.lt b = false ∧ b.lt a = false ∧ a = b))
    ∧ (a.lt b = true → b.lt c = true → a.lt c = true) := by
  refine ⟨Metrics.lt_iff a b, ?_, ?_⟩
  · have hab := Metrics.lt_iff a b
    have hba := Metrics.lt_iff b a
    have he := Metrics.eq_iff a b
    rcases lt_trichotomy a.max_cost_value b.max_cost_value with h | h | h
    · refine Or.inl ⟨hab.2 (Or.inl h), ?_, ?_⟩
      · rw [Bool.eq_false_iff]; intro hn; have := hba.1 hn; omega
      · intro hn; have := he.1 hn; omega
    · rcases lt_trichotomy a.sum_cost_values b.sum_cost_values with h' | h' | h'
      · refine Or.inl ⟨hab.2 (Or.inr ⟨h, h'⟩), ?_, ?_⟩
        · rw [Bool.eq_false_iff]; intro hn; have := hba.1 hn; omega
        · intro hn; have := he.1 hn; omega
      · refine Or.inr (Or.inr ⟨?_, ?_, he.2 ⟨h, h'⟩⟩)
        · rw [Bool.eq_false_iff]; intro hn; have := hab.1 hn; omega
        · rw [Bool.eq_false_iff]; intro hn; have := hba.1 hn; omega
      · refine Or.inr (Or.inl ⟨?_, hba.2 (Or.inr ⟨h.symm, h'⟩), ?_⟩)
        · rw [Bool.eq_false_iff]; intro hn; have := hab.1 hn; omega
        · intro hn; have := he.1 hn; omega
    · refine Or.inr (Or.inl ⟨?_, hba.2 (Or.inl h), ?_⟩)
      · rw [Bool.eq_false_iff]; intro hn; have := hab.1 hn; omega
      · intro hn; have := he.1 hn; omega
  · intro hab hbc
    rw [Metrics.lt_iff] at hab hbc ⊢
    omega

/-- Witness of C5: (1,5) < (2,0) and (2,0) < (2,3) give (1,5) < (2,3). -/
theorem metrics_lt_strict_total_order_witness :
    Metrics.lt ⟨1, 5⟩ ⟨2, 0⟩ = true ∧ Metrics.lt ⟨2, 0⟩ ⟨2, 3⟩ = true
      ∧ Metrics.lt ⟨1, 5⟩ ⟨2, 3⟩ = true :=
  ⟨by decide, by decide,
    (metrics_lt_strict_total_order ⟨1, 5⟩ ⟨2, 0⟩ ⟨2, 3⟩).2.2 (by decide) (by decide)⟩

/-! ## The route enumerator -/

theorem length_routes_of_wire (wire : Wire) :
    (routes_of_wire wire).length
      = (wire.end_.x - wire.start.x).natAbs + (wire.end_.y - wire.start.y).natAbs := by
  simp only [routes_of_wire, List.length_append, List.length_map, length_for_values]
  omega

/-- Every candidate of a wire whose end points are cells of the grid has
axis-aligned segments inside the grid. -/
theorem routes_of_wire_valid (data : Data) (wire : Wire)
    (hs : wire.start.inside data) (he : wire.end_.inside data) :
    ∀ r ∈ routes_of_wire wire, r.aligned ∧ r.inside data := by
  obtain ⟨hs1, hs2, hs3, hs4⟩ := hs
  obtain ⟨he1, he2, he3, he4⟩ := he
  intro r hr
  simp only [routes_of_wire, List.mem_append, List.mem_map] at hr
  rcases hr with ⟨y, hy, rfl⟩ | ⟨x, hx, rfl⟩
  · rw [mem_for_values] at hy
    refine ⟨⟨Or.inl rfl, Or.inr rfl, Or.inl rfl⟩, ⟨hs1, hs2, hs3, hs4⟩, ?_, ?_, ⟨he1, he2, he3, he4⟩⟩
    · exact ⟨hs1, hs2, by show 0 ≤ y; omega, by show y < data.dim_y; omega⟩
    · exact ⟨he1, he2, by show 0 ≤ y; omega, by show y < data.dim_y; omega⟩
  · rw [mem_for_values] at hx
    refine ⟨⟨Or.inr rfl, Or.inl rfl, Or.inr rfl⟩, ⟨hs1, hs2, hs3, hs4⟩, ?_, ?_, ⟨he1, he2, he3, he4⟩⟩
    · exact ⟨by show 0 ≤ x; omega, by show x < data.dim_x; omega, hs3, hs4⟩
    · exact ⟨by show 0 ≤ x; omega, by show x < data.dim_x; omega, he3, he4⟩

/-- C6: the candidate list that `prepare_all_routes` builds for a wire has
`|end.x - start.x| + |end.y - start.y|` routes; for the wire (0,0) to (4,4)
these are 8 routes, 4 with `p1` and `p2` on a common row and 4 with `p1` and
`p2` on a common column. -/
theorem candidate_count (data : Data) (wire : Wire) :
    (routes_of_wire wire).length
        = (wire.end_.x - wire.start.x).natAbs + (wire.end_.y - wire.start.y).natAbs
    ∧ (prepare_all_routes data).map List.length
        = data.wires.map (fun w =>
            (w.end_.x - w.start.x).natAbs + (w.end_.y - w.start.y).natAbs)
    ∧ (routes_of_wire ⟨⟨0, 0⟩, ⟨4, 4⟩⟩).length = 8
    ∧ ((routes_of_wire ⟨⟨0, 0⟩, ⟨4, 4⟩⟩).filter (fun r => decide (r.p1.y = r.p2.y))).length = 4
    ∧ ((routes_of_wire ⟨⟨0, 0⟩, ⟨4, 4⟩⟩).filter (fun r => decide (r.p1.x = r.p2.x))).length = 4 := by
  refine ⟨length_routes_of_wire wire, ?_, by decide, by decide, by decide⟩
  simp only [prepare_all_routes, List.map_map]
  apply List.map_congr_left
  intro w _
  exact length_routes_of_wire w

/-! ## Serialization -/

/-- C8 at the failing input: for the horizontal wire (0,0) to (3,0) and a
vertical-first draw, `generate_random_route` returns `p1 = start`,
`p2 = end`, and the route is printed as (0,0), (3,0), (3,0): the end point
twice in a row. -/
theorem serialize_repeats_end_point (rand2 : Nat) :
    (generate_random_route ⟨⟨0, 0⟩, ⟨3, 0⟩⟩ 1 rand2).serialize = [⟨0, 0⟩, ⟨3, 0⟩, ⟨3, 0⟩] := by
  have h0 := int_of_product_bounds (rand2 % 100) (Nat.mod_lt _ (by decide)) 0
  have hz : int_of_product (round_nearest 24 (rand2 % 100) 100) 0 = 0 := by
    have := h0.1 (le_refl 0)
    omega
  simp [generate_random_route, Route.serialize, Route.of_wire, hz]

/-! ## Grid consistency -/

theorem sum_map_set {α : Type} (f : α → Nat) : ∀ (l : List α) (i : Nat) (a b : α),
    l[i]? = some b → ((l.set i a).map f).sum + f b = (l.map f).sum + f a := by
  intro l
  induction l with
  | nil => intro i a b h; simp at h
  | cons x xs ih =>
    intro i a b h
    cases i with
    | zero =>
      simp only [List.getElem?_cons_zero, Option.some.injEq] at h
      subst h
      simp only [List.set_cons_zero, List.map_cons, List.sum_cons]
      omega
    | succ i =>
      simp only [List.getElem?_cons_succ] at h
      have := ih i a b h
      simp only [List.set_cons_succ, List.map_cons, List.sum_cons]
      omega

theorem coverage_set (data : Data) (routes : List Route) (i : Nat) (a b : Route) (j : Nat)
    (h : routes[i]? = some b) :
    coverage data (routes.set i a) j + (footprint data b).count (j : Int)
      = coverage data routes j + (footprint data a).count (j : Int) :=
  sum_map_set (fun r => (footprint data r).count (j : Int)) routes i a b h

theorem walk_routes_grid (data : Data) (c : Int) : ∀ (routes : List Route) (costs : List Int)
    (m m' : Metrics) (costs' : List Int),
    walk_routes data c routes costs m = .ok (m', costs') →
      costs'.length = costs.length
        ∧ ∀ j : Nat, costs'.getD j 0 = costs.getD j 0 + c * (coverage data routes j : Int) := by
  intro routes
  induction routes with
  | nil =>
    intro costs m m' costs' h
    simp only [walk_routes, Except.ok.injEq, Prod.mk.injEq] at h
    rw [← h.2]
    simp [coverage]
  | cons r rest ih =>
    intro costs m m' costs' h
    rw [walk_routes] at h
    split at h
    · simp at h
    · rename_i mr costs₁ hr
      obtain ⟨_, hb, he⟩ := walk_a_route_grid hr
      obtain ⟨hl, hg⟩ := ih _ _ _ _ h
      subst he
      refine ⟨by rw [hl, length_add_cells], ?_⟩
      intro j
      rw [hg j, getD_add_cells c _ _ hb j]
      simp only [coverage, List.map_cons, List.sum_cons]
      push_cast
      ring

theorem search_best_costs (data : Data) : ∀ (routes : List Route) (costs : List Int)
    (best best' : Route) (costs' : List Int),
    search_best data routes costs best = .ok (best', costs') → costs' = costs := by
  intro routes
  induction routes with
  | nil =>
    intro costs best best' costs' h
    simp only [search_best, Except.ok.injEq, Prod.mk.injEq] at h
    exact h.2.symm
  | cons r rest ih =>
    intro costs best best' costs' h
    rw [search_best] at h
    split at h
    · simp at h
    · rename_i m costs₁ hr
      rw [ih _ _ _ _ h, walk_a_route_zero hr]

/-- Retracting the current route of a wire and committing another one keeps
the array consistent with the routes. -/
theorem retract_commit_consistent (data : Data) (result : Result) (wire_id : Nat)
    (prev new new' : Route) (m0 m1 : Metrics) (costs1 costs3 : List Int)
    (hc : consistent data result) (hp : result.routes[wire_id]? = some prev)
    (h1 : walk_a_route data result.costs prev (-1) = .ok (m0, costs1))
    (h2 : walk_a_route data costs1 new 1 = .ok (m1, costs3))
    (hf : footprint data new' = footprint data new) :
    consistent data ⟨costs3, result.routes.set wire_id new'⟩ := by
  obtain ⟨_, hb1, e1⟩ := walk_a_route_grid h1
  obtain ⟨_, hb2, e2⟩ := walk_a_route_grid h2
  intro j hj
  have hlen : costs3.length = result.costs.length := by
    rw [e2, length_add_cells, e1, length_add_cells]
  have hj' : j < result.costs.length := by simpa [hlen] using hj
  have hcov := coverage_set data result.routes wire_id new' prev j hp
  have hcj := hc j hj'
  show costs3.getD j 0 = _
  rw [e2, getD_add_cells 1 _ _ hb2 j, e1, getD_add_cells (-1) _ _ hb1 j, hcj]
  rw [hf] at hcov
  push_cast
  omega

theorem routing_step_consistent (data : Data) (possible_routes : List (List Route))
    (env : StepEnv) (wire_id : Nat) (result result' : Result)
    (hc : consistent data result)
    (h : routing_step data possible_routes env wire_id result = .ok result') :
    consistent data result' := by
  unfold routing_step at h
  split at h
  · rename_i wire prev_route hw hp
    split at h
    · simp at h
    · rename_i m0 costs1 h1
      split at h
      · dsimp only at h
        split at h
        · simp at h
        · rename_i m1 costs2 h2
          simp only [Except.ok.injEq] at h
          rw [← h]
          exact retract_commit_consistent data result wire_id prev_route _ _ m0 m1 costs1 costs2
            hc hp h1 h2 rfl
      · split at h
        · simp at h
        · rename_i routes hr
          split at h
          · simp at h
          · rename_i best_route costs2 hs
            split at h
            · simp at h
            · rename_i m1 costs3 h2
              simp only [Except.ok.injEq] at h
              rw [← h]
              rw [search_best_costs data _ _ _ _ _ hs] at h2
              exact retract_commit_consistent data result wire_id prev_route _ _ m0 m1 costs1
                costs3 hc hp h1 h2 rfl
  · simp at h

theorem compute_step_consistent (data : Data) (all_routes_for_one_wire : List Route)
    (env : StepEnv) (wire_id : Nat) (result result' : Result)
    (hc : consistent data result)
    (h : compute_step data all_routes_for_one_wire env wire_id result = .ok result') :
    consistent data result' := by
  unfold compute_step at h
  split at h
  · rename_i wire prev_route hw hp
    split at h
    · simp at h
    · rename_i m0 costs1 h1
      dsimp only at h
      split at h
      · split at h
        · simp at h
        · rename_i m1 costs2 h2
          simp only [Except.ok.injEq] at h
          rw [← h]
          exact retract_commit_consistent data result wire_id prev_route _ _ m0 m1 costs1 costs2
            hc hp h1 h2 rfl
      · split at h
        · simp at h
        · rename_i best_route costs2 hs
          split at h
          · simp at h
          · rename_i m1 costs3 h2
            simp only [Except.ok.injEq] at h
            rw [← h]
            rw [search_best_costs data _ _ _ _ _ hs] at h2
            exact retract_commit_consistent data result wire_id prev_route best_route _ m0 m1
              costs1 costs3 hc hp h1 h2 rfl
  · simp at h

theorem reachable_consistent (data : Data) (possible_routes : List (List Route))
    (result : Result) (h : Reachable data possible_routes result) : consistent data result := by
  induction h with
  | initial routes costs m h0 =>
    obtain ⟨_, hg⟩ := walk_routes_grid data 1 routes _ _ _ _ h0
    intro j _
    show costs.getD j 0 = _
    rw [hg j]
    simp [List.getD_eq_getElem?_getD, List.getElem?_replicate]
    split <;> simp
  | shared_step env wire_id result result' _ hstep ih =>
    exact routing_step_consistent data possible_routes env wire_id result result' ih hstep
  | distributed_step cands env wire_id result result' _ hstep ih =>
    exact compute_step_consistent data cands env wire_id result result' ih hstep

/-- The states a sweep of `wire_routing_sequential` passes through are
reachable states. -/
theorem routing_loop_reachable (data : Data) (possible_routes : List (List Route)) :
    ∀ (envs : List StepEnv) (wire_id : Nat) (result result' : Result),
      Reachable data possible_routes result →
        routing_loop data possible_routes envs wire_id result = .ok result' →
          Reachable data possible_routes result' := by
  intro envs
  induction envs with
  | nil =>
    intro wire_id result result' hr h
    simp only [routing_loop, Except.ok.injEq] at h
    rw [← h]; exact hr
  | cons env envs ih =>
    intro wire_id result result' hr h
    rw [routing_loop] at h
    split at h
    · simp at h
    · rename_i result₁ hstep
      exact ih _ _ _ (Reachable.shared_step env wire_id result result₁ hr hstep) h

/-- C1: in every state that the sequential driver reaches from the zero grid
to which `walk_all_routes` with `+1` has applied the initial routes, by
complete per-wire steps (retract with `-1`, then commit a random route or
the winner of the search with `+1`, and store it), every cell of the cost
array holds the number of times the footprints of the current routes cover
it, and so is never negative. -/
theorem grid_consistency (data : Data) (possible_routes : List (List Route)) (result : Result)
    (h : Reachable data possible_routes result) :
    ∀ j : Nat, j < result.costs.length →
      result.costs.getD j 0 = (coverage data result.routes j : Int)
        ∧ 0 ≤ result.costs.getD j 0 := by
  intro j hj
  have hc := reachable_consistent data possible_routes result h j hj
  exact ⟨hc, by rw [hc]; exact Int.natCast_nonneg _⟩

/-- Witness of C1: in the state reached from the zero 3 by 3 grid by applying
two initial routes and then one search step on the first wire, the cell
(2,1), of index 5, holds 2 and both current routes cover it. -/
theorem grid_consistency_witness :
    demo_costs.getD 5 0
        = (coverage demo_data [{ demo_route0 with metrics := ⟨1, 1⟩ }, demo_route1] 5 : Int)
      ∧ 0 ≤ demo_costs.getD 5 0 :=
  grid_consistency demo_data (prepare_all_routes demo_data)
    ⟨demo_costs, [{ demo_route0 with metrics := ⟨1, 1⟩ }, demo_route1]⟩
    (Reachable.shared_step ⟨1, 0, 0, demo_route0⟩ 0 ⟨demo_costs, [demo_route0, demo_route1]⟩ _
      (Reachable.initial [demo_route0, demo_route1] demo_costs ⟨2, 9⟩ rfl)
      (by
        have h : is_random_route demo_data 1 = false := by decide
        unfold routing_step
        simp only [h]
        rfl))
    5 (by decide)

/-! ## The candidate search -/

theorem dry_run_of_valid (data : Data) (costs : List Int) (r : Route)
    (ha : r.aligned) (hb : in_bounds costs.length (footprint data r)) :
    ∃ m, walk_a_route data costs r 0 = .ok (m, costs) ∧ dry_run data costs r = some m := by
  obtain ⟨m, hm⟩ := walk_a_route_ok data costs r 0 ha hb
  rw [add_cells_zero _ _ hb] at hm
  exact ⟨m, hm, by simp [dry_run, hm]⟩

/-- The candidate loop returns either the initial `best_route`, when no
candidate scores strictly below it, or the earliest candidate of minimal
score. -/
theorem search_best_first_min (data : Data) (costs : List Int) :
    ∀ (routes : List Route) (best0 : Route),
      (∀ r ∈ routes, r.aligned ∧ in_bounds costs.length (footprint data r)) →
      ∃ best, search_best data routes costs best0 = .ok (best, costs)
        ∧ ((best = best0 ∧ ∀ r ∈ routes, ∀ m, dry_run data costs r = some m →
              m.lt best0.metrics = false)
          ∨ ∃ (i : Nat) (r : Route) (m : Metrics), routes[i]? = some r
              ∧ dry_run data costs r = some m ∧ best = { r with metrics := m }
              ∧ m.lt best0.metrics = true
              ∧ ∀ (j : Nat) (rj : Route) (mj : Metrics), routes[j]? = some rj →
                  dry_run data costs rj = some mj →
                    mj.lt m = false ∧ (j < i → m.lt mj = true)) := by
  intro routes
  induction routes with
  | nil =>
    intro best0 _
    exact ⟨best0, rfl, Or.inl ⟨rfl, by simp⟩⟩
  | cons r rest ih =>
    intro best0 hv
    obtain ⟨hr, hrest⟩ := List.forall_mem_cons.1 hv
    obtain ⟨m, hm, hd⟩ := dry_run_of_valid data costs r hr.1 hr.2
    obtain ⟨best, hs, hcase⟩ :=
      ih (if m.lt best0.metrics then { r with metrics := m } else best0) hrest
    refine ⟨best, by simp only [search_best, hm]; exact hs, ?_⟩
    by_cases hlt : m.lt best0.metrics = true
    · rw [if_pos hlt] at hcase
      dsimp only at hcase
      rcases hcase with ⟨hb, hall⟩ | ⟨i, ri, mi, hi, hdi, hbi, hlti, hmin⟩
      · refine Or.inr ⟨0, r, m, List.getElem?_cons_zero, hd, hb, hlt, ?_⟩
        intro j rj mj hj hdj
        cases j with
        | zero =>
          simp only [List.getElem?_cons_zero, Option.some.injEq] at hj
          subst hj
          rw [hd] at hdj
          cases hdj
          refine ⟨?_, fun h => absurd h (Nat.lt_irrefl 0)⟩
          rw [Bool.eq_false_iff]; intro hn; rw [Metrics.lt_iff] at hn; omega
        | succ j =>
          simp only [List.getElem?_cons_succ] at hj
          exact ⟨hall rj (List.getElem?_mem hj) mj hdj, fun h => absurd h (by omega)⟩
      · refine Or.inr ⟨i + 1, ri, mi, by simpa using hi, hdi, hbi, ?_, ?_⟩
        · rw [Metrics.lt_iff] at hlti hlt ⊢
          omega
        · intro j rj mj hj hdj
          cases j with
          | zero =>
            simp only [List.getElem?_cons_zero, Option.some.injEq] at hj
            subst hj
            rw [hd] at hdj
            cases hdj
            refine ⟨?_, fun _ => hlti⟩
            rw [Bool.eq_false_iff]; intro hn
            rw [Metrics.lt_iff] at hn hlti
            omega
          | succ j =>
            simp only [List.getElem?_cons_succ] at hj
            obtain ⟨h1, h2⟩ := hmin j rj mj hj hdj
            exact ⟨h1, fun h => h2 (by omega)⟩
    · rw [if_neg hlt] at hcase
      rcases hcase with ⟨hb, hall⟩ | ⟨i, ri, mi, hi, hdi, hbi, hlti, hmin⟩
      · refine Or.inl ⟨hb, ?_⟩
        intro r' hr' m' hd'
        rcases List.mem_cons.1 hr' with h | h
        · subst h
          rw [hd] at hd'
          cases hd'
          simpa using hlt
        · exact hall r' h m' hd'
      · refine Or.inr ⟨i + 1, ri, mi, by simpa using hi, hdi, hbi, hlti, ?_⟩
        intro j rj mj hj hdj
        cases j with
        | zero =>
          simp only [List.getElem?_cons_zero, Option.some.injEq] at hj
          subst hj
          rw [hd] at hdj
          cases hdj
          have hnlt : ¬ (m.max_cost_value < best0.metrics.max_cost_value
              ∨ (m.max_cost_value = best0.metrics.max_cost_value
                ∧ m.sum_cost_values < best0.metrics.sum_cost_values)) := by
            rw [← Metrics.lt_iff]; exact hlt
          have hlti' := (Metrics.lt_iff _ _).1 hlti
          constructor
          · rw [Bool.eq_false_iff]; intro hn
            rw [Metrics.lt_iff] at hn
            omega
          · intro _
            rw [Metrics.lt_iff]
            omega
        | succ j =>
          simp only [List.getElem?_cons_succ] at hj
          obtain ⟨h1, h2⟩ := hmin j rj mj hj hdj
          exact ⟨h1, fun h => h2 (by omega)⟩

/-- C3 at the failing input: the candidate list of the wire (1,1) to (1,1) is
empty, and the search branch commits and stores the default-constructed
`best_route` (whatever its indeterminate content is, here the route
(0,0), (2,0), (2,2)), which is no candidate. -/
theorem search_branch_empty_candidate_list :
    (prepare_all_routes point_data)[0]? = some (routes_of_wire ⟨⟨1, 1⟩, ⟨1, 1⟩⟩)
    ∧ (∀ r : Route, r ∉ routes_of_wire ⟨⟨1, 1⟩, ⟨1, 1⟩⟩)
    ∧ is_random_route point_data 1 = false
    ∧ routing_step point_data (prepare_all_routes point_data) ⟨1, 0, 0, demo_route0⟩ 0
        ⟨[0, 0, 0, 0, 1, 0, 0, 0, 0], [point_route]⟩
      = .ok ⟨[1, 1, 1, 0, 0, 1, 0, 0, 1], [Route.default demo_route0]⟩ := by
  have h : is_random_route point_data 1 = false := by decide
  have he : routes_of_wire ⟨⟨1, 1⟩, ⟨1, 1⟩⟩ = [] := rfl
  refine ⟨rfl, fun r => by rw [he]; exact List.not_mem_nil r, h, ?_⟩
  unfold routing_step
  simp only [h]
  rfl

/-- The search branch apart from the empty candidate list: in the search
branch of the shared-memory driver, when the
retraction of the previous route has returned the grid `retracted`, the
candidates of the wire are
axis-aligned routes inside the grid and at least one of them scores
strictly below the `(MAX_COST, MAX_COST)` that `best_route` starts from
(so the candidate list is not empty), the step returns, and the route it
commits with `+1` and stores as the wire's current route is the earliest
candidate whose `delta = 0` metrics are minimal among all candidates: no
candidate scores strictly below it and every earlier candidate scores
strictly above it. -/
theorem search_branch_commits_first_minimum (data : Data) (possible_routes : List (List Route))
    (env : StepEnv) (wire_id : Nat) (result : Result) (wire : Wire) (prev_route : Route)
    (routes : List Route) (m0 : Metrics) (retracted : List Int)
    (hlen : (result.costs.length : Int) = data.dim_x * data.dim_y)
    (hw : data.wires[wire_id]? = some wire)
    (hp : result.routes[wire_id]? = some prev_route)
    (hr : possible_routes[wire_id]? = some routes)
    (hretract : walk_a_route data result.costs prev_route (-1) = .ok (m0, retracted))
    (hsearch : is_random_route data env.rand_sa = false)
    (hv : ∀ r ∈ routes, r.aligned ∧ r.inside data)
    (hbelow : ∃ r ∈ routes, ∃ m, dry_run data retracted r = some m
      ∧ m.lt ⟨MAX_COST, MAX_COST⟩ = true) :
    ∃ (i : Nat) (r : Route) (m : Metrics), routes[i]? = some r
      ∧ dry_run data retracted r = some m
      ∧ (∀ (j : Nat) (rj : Route) (mj : Metrics), routes[j]? = some rj →
          dry_run data retracted rj = some mj → mj.lt m = false ∧ (j < i → m.lt mj = true))
      ∧ ∃ m1 costs3, walk_a_route data retracted { r with metrics := m } 1 = .ok (m1, costs3)
        ∧ routing_step data possible_routes env wire_id result
            = .ok ⟨costs3, result.routes.set wire_id { r with metrics := m }⟩ := by
  obtain ⟨_, _, eretr⟩ := walk_a_route_grid hretract
  have hl : retracted.length = result.costs.length := by rw [eretr, length_add_cells]
  have hv' : ∀ r ∈ routes, r.aligned ∧ in_bounds retracted.length (footprint data r) :=
    fun r hr => ⟨(hv r hr).1,
      footprint_in_bounds data _ (by rw [hl]; exact hlen) r (hv r hr).2⟩
  obtain ⟨best, hs, hcase⟩ :=
    search_best_first_min data retracted routes (Route.default env.uninit) hv'
  rcases hcase with ⟨_, hall⟩ | ⟨i, r, m, hi, hd, hb, _, hmin⟩
  · obtain ⟨r, hr', m, hd, hlt⟩ := hbelow
    have hn := hall r hr' m hd
    rw [show (Route.default env.uninit).metrics = ⟨MAX_COST, MAX_COST⟩ from rfl, hlt] at hn
    cases hn
  · subst hb
    have hri := hv' r (List.getElem?_mem hi)
    obtain ⟨m1, h1⟩ := walk_a_route_ok data retracted { r with metrics := m } 1 hri.1 hri.2
    refine ⟨i, r, m, hi, hd, hmin, m1, _, h1, ?_⟩
    unfold routing_step
    simp only [hw, hp, hretract, hsearch, hr, hs, h1]
    simp

/-- An instance of `search_branch_commits_first_minimum`: the search step on
the first wire of
`demo_data`, whose four candidates score (1,1), (1,3), (1,1), (1,1) on the
retracted grid; the first one is committed. -/
theorem search_branch_commits_first_minimum_witness :
    ∃ (i : Nat) (r : Route) (m : Metrics), (routes_of_wire ⟨⟨0, 0⟩, ⟨2, 2⟩⟩)[i]? = some r
      ∧ dry_run demo_data [0, 0, 0, 1, 1, 1, 0, 0, 0] r = some m
      ∧ (∀ (j : Nat) (rj : Route) (mj : Metrics),
          (routes_of_wire ⟨⟨0, 0⟩, ⟨2, 2⟩⟩)[j]? = some rj →
          dry_run demo_data [0, 0, 0, 1, 1, 1, 0, 0, 0] rj = some mj →
            mj.lt m = false ∧ (j < i → m.lt mj = true))
      ∧ ∃ m1 costs3,
          walk_a_route demo_data [0, 0, 0, 1, 1, 1, 0, 0, 0] { r with metrics := m } 1
            = .ok (m1, costs3)
        ∧ routing_step demo_data (prepare_all_routes demo_data) ⟨1, 0, 0, demo_route0⟩ 0
            ⟨demo_costs, [demo_route0, demo_route1]⟩
            = .ok ⟨costs3, [demo_route0, demo_route1].set 0 { r with metrics := m }⟩ :=
  search_branch_commits_first_minimum demo_data (prepare_all_routes demo_data)
    ⟨1, 0, 0, demo_route0⟩ 0 ⟨demo_costs, [demo_route0, demo_route1]⟩ ⟨⟨0, 0⟩, ⟨2, 2⟩⟩
    demo_route0 (routes_of_wire ⟨⟨0, 0⟩, ⟨2, 2⟩⟩) ⟨1, 1⟩ [0, 0, 0, 1, 1, 1, 0, 0, 0]
    (by decide) rfl rfl rfl rfl (by decide) (by decide)
    ⟨demo_route0, by decide, ⟨1, 1⟩, rfl, by decide⟩

/-! ## The forced-random branch with `SA_prob = 0` -/

/-- C7 at the failing input: with `SA_prob = 0` and a draw `rand() % 100 == 0`
`is_random_route` returns true; the step on the first wire of `demo_data`
replaces the route (0,0), (2,0), (2,2), which scores (1,1) on the retracted
grid, by the random route (0,0), (0,1), (2,1), (2,2), which scores (1,3)
there, and (1,1) < (1,3). -/
theorem sa_prob_zero_takes_random_branch :
    walk_all_routes demo_data ⟨List.replicate 9 0, [demo_route0, demo_route1]⟩ 1
        = .ok (⟨2, 9⟩, demo_costs)
    ∧ is_random_route demo_data 0 = true
    ∧ walk_a_route demo_data demo_costs demo_route0 (-1)
        = .ok (⟨1, 1⟩, [0, 0, 0, 1, 1, 1, 0, 0, 0])
    ∧ routing_step demo_data (prepare_all_routes demo_data) ⟨0, 1, 50, demo_route0⟩ 0
        ⟨demo_costs, [demo_route0, demo_route1]⟩
      = .ok ⟨[1, 0, 0, 2, 2, 2, 0, 0, 1],
          [{ wire := ⟨⟨0, 0⟩, ⟨2, 2⟩⟩, p1 := ⟨0, 1⟩, p2 := ⟨2, 1⟩ }, demo_route1]⟩
    ∧ dry_run demo_data [0, 0, 0, 1, 1, 1, 0, 0, 0] demo_route0 = some ⟨1, 1⟩
    ∧ dry_run demo_data [0, 0, 0, 1, 1, 1, 0, 0, 0]
        { wire := ⟨⟨0, 0⟩, ⟨2, 2⟩⟩, p1 := ⟨0, 1⟩, p2 := ⟨2, 1⟩ } = some ⟨1, 3⟩
    ∧ Metrics.lt ⟨1, 1⟩ ⟨1, 3⟩ = true := by
  have h : is_random_route demo_data 0 = true := by decide
  refine ⟨rfl, h, rfl, ?_, rfl, rfl, by decide⟩
  unfold routing_step
  simp only [h]
  rfl

/-! ## The work partitioner -/

/-- C4 at the failing input: for the cost estimates 1 and 3 and `nproc = 2`
the loop reaches the last wire with `proc_id = 0`; it writes
`work_per_proc[0] = 2` and never writes `work_per_proc[1]`, which keeps its
indeterminate content, so the range of worker 1 is not a non-empty range
inside [0, 2). -/
theorem load_balance_leaves_entry_unwritten (init : Nat → Int) :
    ∃ w, load_balance [1, 3] 2 init = .ok w ∧ w 0 = 2 ∧ w 1 = init 1
      ∧ wire_id_begin w 0 = 0 ∧ wire_id_end w 0 = 2
      ∧ wire_id_begin w 1 = 2 ∧ wire_id_end w 1 = init 1
      ∧ ¬ (wire_id_begin w 1 < wire_id_end w 1 ∧ wire_id_end w 1 ≤ 2) := by
  refine ⟨Function.update init 0 2, ?_, ?_, ?_, ?_, ?_, ?_, ?_, ?_⟩
  · simp [load_balance, partition_loop, partition_step]
  · simp
  · simp [Function.update]
  · simp [wire_id_begin]
  · simp [wire_id_end]
  · simp [wire_id_begin]
  · simp [wire_id_end, Function.update]
  · simp only [wire_id_begin, wire_id_end]
    simp [Function.update]

/-! ## Shape of the candidates -/

/-- C19, as stated, fails: the first candidate of the wire (0,0) to (2,2) has
`p1 = (0,0)` and `p2 = (2,0)` on the common row 0, which is the row of the
start point and not strictly between the rows 0 and 2. -/
theorem first_candidate_bends_at_start :
    (routes_of_wire ⟨⟨0, 0⟩, ⟨2, 2⟩⟩)[0]? = some demo_route0
    ∧ demo_route0.p1.y = demo_route0.p2.y
    ∧ demo_route0.p1.x ≠ demo_route0.p2.x
    ∧ ¬ (demo_route0.wire.start.y < demo_route0.p1.y
          ∧ demo_route0.p1.y < demo_route0.wire.end_.y)
    ∧ ¬ (demo_route0.wire.end_.y < demo_route0.p1.y
          ∧ demo_route0.p1.y < demo_route0.wire.start.y) := by
  decide

/-- C19, amended: every candidate of a wire keeps the wire and bends at an
integer coordinate from the start coordinate (included) towards the end
coordinate (excluded) along the varied axis: a candidate of the `y` loop has
`p1 = (start.x, y)`, `p2 = (end.x, y)` with `start.y <= y < end.y` (or
`end.y < y <= start.y`), a candidate of the `x` loop has `p1 = (x, start.y)`,
`p2 = (x, end.y)` with `start.x <= x < end.x` (or `end.x < x <= start.x`). -/
theorem candidate_bend_range (wire : Wire) (r : Route) (h : r ∈ routes_of_wire wire) :
    r.wire = wire
    ∧ ((r.p1.x = wire.start.x ∧ r.p2.x = wire.end_.x ∧ r.p1.y = r.p2.y
          ∧ ((wire.start.y ≤ r.p1.y ∧ r.p1.y < wire.end_.y)
            ∨ (wire.end_.y < r.p1.y ∧ r.p1.y ≤ wire.start.y)))
      ∨ (r.p1.y = wire.start.y ∧ r.p2.y = wire.end_.y ∧ r.p1.x = r.p2.x
          ∧ ((wire.start.x ≤ r.p1.x ∧ r.p1.x < wire.end_.x)
            ∨ (wire.end_.x < r.p1.x ∧ r.p1.x ≤ wire.start.x)))) := by
  simp only [routes_of_wire, List.mem_append, List.mem_map] at h
  rcases h with ⟨y, hy, rfl⟩ | ⟨x, hx, rfl⟩
  · rw [mem_for_values] at hy
    exact ⟨rfl, Or.inl ⟨rfl, rfl, rfl, hy⟩⟩
  · rw [mem_for_values] at hx
    exact ⟨rfl, Or.inr ⟨rfl, rfl, rfl, hx⟩⟩

/-- Witness of the amended C19 at the second candidate of the wire (0,0) to
(2,2), which bends on the row 1. -/
theorem candidate_bend_range_witness :
    demo_candidate1.wire = ⟨⟨0, 0⟩, ⟨2, 2⟩⟩
    ∧ ((demo_candidate1.p1.x = 0 ∧ demo_candidate1.p2.x = 2
          ∧ demo_candidate1.p1.y = demo_candidate1.p2.y
          ∧ ((0 ≤ demo_candidate1.p1.y ∧ demo_candidate1.p1.y < 2)
            ∨ (2 < demo_candidate1.p1.y ∧ demo_candidate1.p1.y ≤ 0)))
      ∨ (demo_candidate1.p1.y = 0 ∧ demo_candidate1.p2.y = 2
          ∧ demo_candidate1.p1.x = demo_candidate1.p2.x
          ∧ ((0 ≤ demo_candidate1.p1.x ∧ demo_candidate1.p1.x < 2)
            ∨ (2 < demo_candidate1.p1.x ∧ demo_candidate1.p1.x ≤ 0)))) :=
  candidate_bend_range ⟨⟨0, 0⟩, ⟨2, 2⟩⟩ demo_candidate1 (by decide)

/-! ## Random routes -/

/-- A route with axis-aligned segments never stops at an assertion of
`walk_a_line`. -/
theorem walk_a_route_no_assertion (data : Data) (costs : List Int) (r : Route) (c : Int)
    (ha : r.aligned) : walk_a_route data costs r c ≠ .error .assertion := by
  obtain ⟨ha1, ha2, ha3⟩ := ha
  intro h
  unfold walk_a_route at h
  split at h
  · rename_i e he
    rw [walk_a_line_eq data costs _ _ c ha1] at he
    have := walk_cells_error _ _ _ _ _ he
    simp only [Except.error.injEq] at h
    rw [h] at this
    cases this
  · rename_i m1 costs1 _
    split at h
    · rename_i e he
      rw [walk_a_line_eq data costs1 _ _ c ha2] at he
      have := walk_cells_error _ _ _ _ _ he
      simp only [Except.error.injEq] at h
      rw [h] at this
      cases this
    · rename_i m2 costs2 _
      split at h
      · rename_i e he
        rw [walk_a_line_eq data costs2 _ _ c ha3] at he
        have := walk_cells_error _ _ _ _ _ he
        simp only [Except.error.injEq] at h
        rw [h] at this
        cases this
      · rename_i m3 costs3 _
        split at h
        · rename_i e he
          unfold bump at he
          split at he
          · simp at he
          · simp only [Except.error.injEq] at he h
            rw [h] at he
            cases he
        · simp at h

theorem random_route_vertical_first (wire : Wire) (rand1 rand2 : Nat)
    (hv : (rand1 % 2 != 0) = true) :
    generate_random_route wire rand1 rand2
      = Route.of_wire wire
          ⟨wire.start.x, wire.start.y
            + int_of_product (round_nearest 24 (rand2 % 100) 100)
                (wire.end_.y - wire.start.y)⟩
          ⟨wire.end_.x, wire.start.y
            + int_of_product (round_nearest 24 (rand2 % 100) 100)
                (wire.end_.y - wire.start.y)⟩ := by
  unfold generate_random_route
  simp only [hv, if_true]

theorem random_route_horizontal_first (wire : Wire) (rand1 rand2 : Nat)
    (hv : ¬ (rand1 % 2 != 0) = true) :
    generate_random_route wire rand1 rand2
      = Route.of_wire wire
          ⟨wire.start.x
            + int_of_product (round_nearest 24 (rand2 % 100) 100)
                (wire.end_.x - wire.start.x),
            wire.start.y⟩
          ⟨wire.start.x
            + int_of_product (round_nearest 24 (rand2 % 100) 100)
                (wire.end_.x - wire.start.x),
            wire.end_.y⟩ := by
  unfold generate_random_route
  simp only [hv]
  rfl

theorem random_route_shape (wire : Wire) (rand1 rand2 : Nat) :
    (generate_random_route wire rand1 rand2).wire = wire
    ∧ (generate_random_route wire rand1 rand2).aligned
    ∧ in_box wire (generate_random_route wire rand1 rand2).p1
    ∧ in_box wire (generate_random_route wire rand1 rand2).p2 := by
  have hr : rand2 % 100 < 100 := Nat.mod_lt _ (by decide)
  have hy := int_of_product_bounds (rand2 % 100) hr (wire.end_.y - wire.start.y)
  have hx := int_of_product_bounds (rand2 % 100) hr (wire.end_.x - wire.start.x)
  by_cases hv : (rand1 % 2 != 0) = true
  · rw [random_route_vertical_first wire rand1 rand2 hv]
    refine ⟨rfl, ⟨Or.inl rfl, Or.inr rfl, Or.inl rfl⟩, ?_, ?_⟩ <;>
      (dsimp only [in_box, Route.of_wire]
       rcases le_total 0 (wire.end_.y - wire.start.y) with h | h
       · have := hy.1 h; omega
       · have := hy.2 h; omega)
  · rw [random_route_horizontal_first wire rand1 rand2 hv]
    refine ⟨rfl, ⟨Or.inr rfl, Or.inl rfl, Or.inr rfl⟩, ?_, ?_⟩ <;>
      (dsimp only [in_box, Route.of_wire]
       rcases le_total 0 (wire.end_.x - wire.start.x) with h | h
       · have := hx.1 h; omega
       · have := hx.2 h; omega)

/-- C20: for every wire and every outcome of the two draws the route that
`generate_random_route` returns keeps the wire's start and end, has its
three segments axis-aligned, so that `walk_a_route` never stops at an
assertion of `walk_a_line` on it, and has `p1` and `p2` inside the bounding
box of start and end: the `float` offset `int(p * d)` lies between 0 and
`d`. -/
theorem generate_random_route_valid (wire : Wire) (rand1 rand2 : Nat) :
    (generate_random_route wire rand1 rand2).wire = wire
    ∧ aligned wire.start (generate_random_route wire rand1 rand2).p1
    ∧ aligned (generate_random_route wire rand1 rand2).p1
        (generate_random_route wire rand1 rand2).p2
    ∧ aligned (generate_random_route wire rand1 rand2).p2 wire.end_
    ∧ (∀ (data : Data) (costs : List Int) (cost_change : Int),
        walk_a_route data costs (generate_random_route wire rand1 rand2) cost_change
          ≠ .error .assertion)
    ∧ in_box wire (generate_random_route wire rand1 rand2).p1
    ∧ in_box wire (generate_random_route wire rand1 rand2).p2 := by
  obtain ⟨hw, ha, h1, h2⟩ := random_route_shape wire rand1 rand2
  have ha' := ha
  obtain ⟨ha1, ha2, ha3⟩ := ha
  rw [hw] at ha1 ha3
  exact ⟨hw, ha1, ha2, ha3, fun data costs c => walk_a_route_no_assertion data costs _ c ha', h1, h2⟩

/-! ## Degenerate wires -/

theorem line_cells_col (data : Data) (p1 p2 : Point) (h : p1.x = p2.x) :
    line_cells data p1 p2 = (for_values p1.y p2.y).map fun y => y * data.dim_x + p1.x := by
  unfold line_cells
  rw [if_pos h]

theorem line_cells_self (data : Data) (p : Point) : line_cells data p p = [] := by
  rw [line_cells_col data p p rfl, for_values_self]; rfl

/-- With `SA_prob = 1.0` the product `SA_prob * 100` is the `double` 100 and
every draw is accepted. -/
theorem is_random_route_one (data : Data) (h : data.SA_prob = 1) (r : Nat) :
    is_random_route data r = true := by
  unfold is_random_route
  rw [h]
  have hn : (1 : ℚ).num = 1 := rfl
  have hd : (1 : ℚ).den = 1 := rfl
  have hv : round_nearest 53 ((1 : Int).natAbs * 100) 1 = ⟨7036874417766400, -46⟩ := by decide
  rw [hn, hd, hv]
  have hr : r % 100 < 100 := Nat.mod_lt _ (by decide)
  simp only [Binary.ge_nat]
  rw [if_neg (by decide), if_neg (by decide)]
  simp only [decide_eq_true_eq]
  have h46 : (2 : Nat) ^ (-(-46 : Int)).toNat = 70368744177664 := by decide
  rw [h46]
  omega

theorem inside_of_in_box (data : Data) (w : Wire) (p : Point)
    (hs : w.start.inside data) (he : w.end_.inside data) (hp : in_box w p) : p.inside data := by
  obtain ⟨hs1, hs2, hs3, hs4⟩ := hs
  obtain ⟨he1, he2, he3, he4⟩ := he
  obtain ⟨hp1, hp2, hp3, hp4⟩ := hp
  refine ⟨?_, ?_, ?_, ?_⟩ <;> omega

theorem random_route_inside (data : Data) (w : Wire) (rand1 rand2 : Nat)
    (hs : w.start.inside data) (he : w.end_.inside data) :
    (generate_random_route w rand1 rand2).inside data := by
  obtain ⟨hw, _, h1, h2⟩ := random_route_shape w rand1 rand2
  refine ⟨?_, inside_of_in_box data w _ hs he h1, inside_of_in_box data w _ hs he h2, ?_⟩
  · rw [hw]; exact hs
  · rw [hw]; exact he

/-- The step of the driver when `is_random_route` returns true: only the
retraction and the commit of the random route are executed. -/
theorem routing_step_random (data : Data) (possible_routes : List (List Route)) (env : StepEnv)
    (wire_id : Nat) (result : Result) (wire : Wire) (prev_route : Route)
    (hw : data.wires[wire_id]? = some wire) (hp : result.routes[wire_id]? = some prev_route)
    (hr : is_random_route data env.rand_sa = true) :
    routing_step data possible_routes env wire_id result
      = match walk_a_route data result.costs prev_route (-1) with
        | .error e => .error e
        | .ok (_, costs1) =>
          match walk_a_route data costs1
              (generate_random_route wire env.rand_coin env.rand_ratio) 1 with
          | .error e => .error e
          | .ok (_, costs2) =>
            .ok { costs := costs2
                  routes := result.routes.set wire_id
                    (generate_random_route wire env.rand_coin env.rand_ratio) } := by
  unfold routing_step
  simp only [hw, hp, hr, if_true]

/-- C12: with `SA_prob = 1.0`, `is_random_route` returns true for every value
of the draw; every driver step is then the retraction of the previous route
followed by the commit of the route returned by `generate_random_route`,
which becomes the wire's route, whatever the candidate lists and the
content of `best_route` are (the search is not executed); and the step
returns when the previous route is axis-aligned and inside the grid and the
wire's end points are cells of the grid. -/
theorem sa_prob_one_always_random (data : Data) (h : data.SA_prob = 1) :
    (∀ r : Nat, is_random_route data r = true)
    ∧ (∀ (possible_routes : List (List Route)) (env : StepEnv) (wire_id : Nat)
        (result : Result) (wire : Wire) (prev_route : Route),
        data.wires[wire_id]? = some wire → result.routes[wire_id]? = some prev_route →
        routing_step data possible_routes env wire_id result
          = match walk_a_route data result.costs prev_route (-1) with
            | .error e => .error e
            | .ok (_, costs1) =>
              match walk_a_route data costs1
                  (generate_random_route wire env.rand_coin env.rand_ratio) 1 with
              | .error e => .error e
              | .ok (_, costs2) =>
                .ok { costs := costs2
                      routes := result.routes.set wire_id
                        (generate_random_route wire env.rand_coin env.rand_ratio) })
    ∧ (∀ (possible_routes : List (List Route)) (env : StepEnv) (wire_id : Nat)
        (result : Result) (wire : Wire) (prev_route : Route),
        data.wires[wire_id]? = some wire → result.routes[wire_id]? = some prev_route →
        (result.costs.length : Int) = data.dim_x * data.dim_y →
        prev_route.aligned → prev_route.inside data →
        wire.start.inside data → wire.end_.inside data →
        ∃ costs2, routing_step data possible_routes env wire_id result
          = .ok { costs := costs2
                  routes := result.routes.set wire_id
                    (generate_random_route wire env.rand_coin env.rand_ratio) }) := by
  have hall : ∀ r : Nat, is_random_route data r = true := by
    intro r
    exact is_random_route_one data h r
  refine ⟨hall, ?_, ?_⟩
  · intro possible_routes env wire_id result wire prev_route hw hp
    exact routing_step_random data possible_routes env wire_id result wire prev_route hw hp
      (hall _)
  · intro possible_routes env wire_id result wire prev_route hw hp hlen ha hi hs he
    rw [routing_step_random data possible_routes env wire_id result wire prev_route hw hp (hall _)]
    have hb := footprint_in_bounds data result.costs.length hlen prev_route hi
    obtain ⟨m0, h0⟩ := walk_a_route_ok data result.costs prev_route (-1) ha hb
    have hshape := random_route_shape wire env.rand_coin env.rand_ratio
    have hin := random_route_inside data wire env.rand_coin env.rand_ratio hs he
    have hb' := footprint_in_bounds data
      (add_cells (-1) (footprint data prev_route) result.costs).length
      (by rw [length_add_cells]; exact hlen) _ hin
    obtain ⟨m1, h1⟩ := walk_a_route_ok data _ _ 1 hshape.2.1 hb'
    exact ⟨add_cells 1 (footprint data (generate_random_route wire env.rand_coin env.rand_ratio))
      (add_cells (-1) (footprint data prev_route) result.costs), by simp only [h0, h1]⟩

/-- Witness of C12: with `SA_prob = 1.0` the step on the first wire of
`always_random_data` with a draw of 99 replaces the route by the random
route and returns. -/
theorem sa_prob_one_always_random_witness :
    ∃ costs2, routing_step always_random_data [] ⟨99, 1, 50, demo_route0⟩ 0
        ⟨demo_costs, [demo_route0, demo_route1]⟩
      = .ok { costs := costs2
              routes := [demo_route0, demo_route1].set 0
                (generate_random_route ⟨⟨0, 0⟩, ⟨2, 2⟩⟩ 1 50) } :=
  (sa_prob_one_always_random always_random_data rfl).2.2 [] ⟨99, 1, 50, demo_route0⟩ 0
    ⟨demo_costs, [demo_route0, demo_route1]⟩ ⟨⟨0, 0⟩, ⟨2, 2⟩⟩ demo_route0 rfl rfl
    (by decide) (by decide) (by decide) (by decide) (by decide)

set_option maxRecDepth 100000 in
/-- C18 at the failing inputs: with `SA_prob = 0` the draw `r = 0` makes
`is_random_route` return true, so one value of `r` in 0..99 takes the
forced-random branch and not none; with the default `0.1f` of the option,
and with the option value 0.10, the values are `0..10`, eleven and not ten;
with the option value 0.5, whose product with 100 is exactly 50, they are
`0..50`.  For the option value 0.01 the `double` product lies just below 1
and the only value is `r = 0`. -/
theorem is_random_route_count :
    (List.range 100).filter (is_random_route demo_data) = [0]
    ∧ (List.range 100).filter (is_random_route { demo_data with SA_prob := default_SA_prob })
        = List.range 11
    ∧ (List.range 100).filter (is_random_route { demo_data with SA_prob := float_option 10 100 })
        = List.range 11
    ∧ (List.range 100).filter (is_random_route { demo_data with SA_prob := float_option 50 100 })
        = List.range 51
    ∧ (List.range 100).filter (is_random_route { demo_data with SA_prob := float_option 1 100 })
        = [0] := by
  decide

/-! ## The partitioner with one worker -/

theorem partition_loop_one (n cpp : Nat) : ∀ (costs : List Nat) (wire_id : Nat) (st : PartState),
    st.proc_id = 0 → wire_id + costs.length = n →
      ∃ st', partition_loop 1 n cpp costs wire_id st = .ok st'
        ∧ (costs ≠ [] → st'.work_per_proc 0 = (n : Int)) := by
  intro costs
  induction costs with
  | nil => intro wire_id st _ _; exact ⟨st, rfl, fun h => absurd rfl h⟩
  | cons cost rest ih =>
    intro wire_id st hp hn
    simp only [List.length_cons] at hn
    by_cases hlast : (wire_id : Int) = (n : Int) - 1
    · have hrest : rest = [] := by
        apply List.eq_nil_of_length_eq_zero
        omega
      subst hrest
      refine ⟨{ st with
          work_per_proc := Function.update st.work_per_proc st.proc_id ((wire_id : Int) + 1)
          accumulated_computation := st.accumulated_computation + cost },
        by simp only [partition_loop, partition_step, if_pos hlast], ?_⟩
      intro _
      show Function.update st.work_per_proc st.proc_id ((wire_id : Int) + 1) 0 = (n : Int)
      rw [hp, Function.update_same]
      omega
    · have hstep : partition_step 1 n cpp st wire_id cost
          = .ok { st with accumulated_computation := st.accumulated_computation + cost } := by
        simp only [partition_step, if_neg hlast, hp]
        simp
      obtain ⟨st', hst', hw⟩ := ih (wire_id + 1)
        { st with accumulated_computation := st.accumulated_computation + cost } hp (by omega)
      refine ⟨st', by simp only [partition_loop, hstep, hst'], ?_⟩
      intro _
      apply hw
      intro hnil
      subst hnil
      simp only [List.length_nil] at hn
      omega

/-- C14: with `nproc = 1` and at least one wire, for every list of cost
estimates the load-balancing loop returns with
`work_per_proc[0] == num_of_wires`, so the only worker gets
`wire_id_begin = 0` and `wire_id_end = num_of_wires`. -/
theorem single_worker_range (costs : List Nat) (init : Nat → Int) (h : costs ≠ []) :
    ∃ w, load_balance costs 1 init = .ok w ∧ w 0 = (costs.length : Int)
      ∧ wire_id_begin w 0 = 0 ∧ wire_id_end w 0 = (costs.length : Int) := by
  obtain ⟨st', hst', hw⟩ := partition_loop_one costs.length (costs.sum / 1) costs 0
    { work_per_proc := init, accumulated_computation := 0, proc_id := 0 } rfl (by omega)
  refine ⟨st'.work_per_proc, ?_, hw h, rfl, hw h⟩
  simp only [load_balance, hst']

/-- Witness of C14 for two wires with the cost estimates 1 and 3. -/
theorem single_worker_range_witness :
    ∃ w, load_balance [1, 3] 1 (fun _ => -7) = .ok w ∧ w 0 = 2
      ∧ wire_id_begin w 0 = 0 ∧ wire_id_end w 0 = 2 :=
  single_worker_range [1, 3] (fun _ => -7) (by decide)

/-! ## Cells of a line -/

theorem for_loop_up_nodup (stop : Int) : ∀ (n : Nat) (v : Int), stop = v + n →
    (for_loop 1 stop n v).Nodup := by
  intro n
  induction n with
  | zero => intro v _; simp [for_loop]
  | succ n ih =>
    intro v h
    have hne : v ≠ stop := by omega
    rw [for_loop, if_neg hne, List.nodup_cons]
    refine ⟨?_, ih (v + 1) (by push_cast at h; omega)⟩
    rw [(for_loop_up stop n (v + 1) (by push_cast at h; omega)).2]
    omega

theorem for_loop_down_nodup (stop : Int) : ∀ (n : Nat) (v : Int), stop = v - n →
    (for_loop (-1) stop n v).Nodup := by
  intro n
  induction n with
  | zero => intro v _; simp [for_loop]
  | succ n ih =>
    intro v h
    have hne : v ≠ stop := by omega
    rw [for_loop, if_neg hne, List.nodup_cons]
    refine ⟨?_, ih (v + -1) (by push_cast at h; omega)⟩
    rw [(for_loop_down stop n (v + -1) (by push_cast at h; omega)).2]
    omega

/-- The loop variable never takes a value twice. -/
theorem nodup_for_values (a b : Int) : (for_values a b).Nodup := by
  unfold for_values
  split
  · exact for_loop_up_nodup b _ a (by omega)
  · exact for_loop_down_nodup b _ a (by omega)

theorem line_cells_eq_map (data : Data) (p1 p2 : Point) :
    line_cells data p1 p2 = (line_points p1 p2).map (cell_index data) := by
  unfold line_cells line_points
  split <;> simp [List.map_map, cell_index, Function.comp_def]

theorem mem_line_points (p1 p2 q : Point) (ha : aligned p1 p2) :
    q ∈ line_points p1 p2 ↔ on_segment p1 p2 q := by
  obtain ⟨qx, qy⟩ := q
  unfold line_points on_segment
  by_cases hx : p1.x = p2.x
  · simp only [hx, if_true, List.mem_map, mem_for_values, Point.mk.injEq]
    constructor
    · rintro ⟨y, hy, h1, h2⟩
      subst h1 h2
      exact Or.inl ⟨trivial, rfl, hy⟩
    · rintro (⟨_, h1, hy⟩ | ⟨h0, h1, hq⟩)
      · exact ⟨qy, hy, h1.symm, rfl⟩
      · omega
  · have hy : p1.y = p2.y := by
      rcases ha with h | h
      · exact absurd h hx
      · exact h
    simp only [hx, if_false, List.mem_map, mem_for_values, Point.mk.injEq]
    constructor
    · rintro ⟨x, hx', h1, h2⟩
      subst h1 h2
      exact Or.inr ⟨hy, rfl, hx'⟩
    · rintro (⟨h0, _, _⟩ | ⟨_, h1, hq⟩)
      · exact h0.elim
      · exact ⟨qx, hq, rfl, h1.symm⟩

theorem nodup_line_points (p1 p2 : Point) : (line_points p1 p2).Nodup := by
  unfold line_points
  split
  · apply List.Nodup.map_on _ (nodup_for_values _ _)
    intro a _ b _ h
    simp only [Point.mk.injEq] at h
    exact h.2
  · apply List.Nodup.map_on _ (nodup_for_values _ _)
    intro a _ b _ h
    simp only [Point.mk.injEq] at h
    exact h.1

/-- Two cells of the grid with the same index are the same cell. -/
theorem cell_index_inj (data : Data) (p q : Point) (hp : p.inside data) (hq : q.inside data)
    (h : cell_index data p = cell_index data q) : p = q := by
  obtain ⟨px, py⟩ := p
  obtain ⟨qx, qy⟩ := q
  obtain ⟨hp1, hp2, hp3, hp4⟩ := hp
  obtain ⟨hq1, hq2, hq3, hq4⟩ := hq
  simp only [cell_index] at h
  dsimp only at hp1 hp2 hp3 hp4 hq1 hq2 hq3 hq4
  have hy : py = qy := by
    rcases lt_trichotomy py qy with hlt | heq | hgt
    · exfalso
      have : (qy - py) * data.dim_x ≥ 1 * data.dim_x :=
        Int.mul_le_mul_of_nonneg_right (by omega) (by omega)
      nlinarith
    · exact heq
    · exfalso
      have : (py - qy) * data.dim_x ≥ 1 * data.dim_x :=
        Int.mul_le_mul_of_nonneg_right (by omega) (by omega)
      nlinarith
  subst hy
  have hx : px = qx := by omega
  subst hx
  rfl

theorem on_segment_inside (data : Data) (p1 p2 q : Point) (h1 : p1.inside data)
    (h2 : p2.inside data) (hq : on_segment p1 p2 q) : q.inside data := by
  obtain ⟨a1, a2, a3, a4⟩ := h1
  obtain ⟨b1, b2, b3, b4⟩ := h2
  rcases hq with ⟨_, hx, hy⟩ | ⟨_, hy, hx⟩
  · refine ⟨?_, ?_, ?_, ?_⟩ <;> omega
  · refine ⟨?_, ?_, ?_, ?_⟩ <;> omega

theorem nodup_line_cells (data : Data) (p1 p2 : Point) (ha : aligned p1 p2)
    (h1 : p1.inside data) (h2 : p2.inside data) : (line_cells data p1 p2).Nodup := by
  rw [line_cells_eq_map]
  apply List.Nodup.map_on _ (nodup_line_points p1 p2)
  intro a ha' b hb' h
  exact cell_index_inj data a b
    (on_segment_inside data p1 p2 a h1 h2 ((mem_line_points p1 p2 a ha).1 ha'))
    (on_segment_inside data p1 p2 b h1 h2 ((mem_line_points p1 p2 b ha).1 hb')) h

/-! ## Metrics of a walk -/

theorem max_cost_nonneg (vals : List Int) : 0 ≤ max_cost vals := by
  induction vals with
  | nil => exact le_refl 0
  | cons v vs ih => exact le_trans ih (le_max_right v _)

theorem max_cost_cons (v : Int) (vals : List Int) :
    max_cost (v :: vals) = max v (max_cost vals) := rfl

theorem max_cost_append (a b : List Int) :
    max_cost (a ++ b) = max (max_cost a) (max_cost b) := by
  induction a with
  | nil =>
    have := max_cost_nonneg b
    show max_cost b = max 0 (max_cost b)
    omega
  | cons v vs ih =>
    show max v (max_cost (vs ++ b)) = max (max v (max_cost vs)) (max_cost b)
    rw [ih]
    omega

theorem wrap_int32_add_left (a b : Int) :
    wrap_int32 (wrap_int32 a + b) = wrap_int32 (a + b) := by
  unfold wrap_int32
  omega

theorem wrap_int32_add_right (a b : Int) :
    wrap_int32 (a + wrap_int32 b) = wrap_int32 (a + b) := by
  unfold wrap_int32
  omega

theorem wrap_int32_idem (a : Int) : wrap_int32 (wrap_int32 a) = wrap_int32 a := by
  unfold wrap_int32
  omega

/-- A sum that fits `cost_t` is stored as it is. -/
theorem wrap_int32_of_fits (a : Int) (h1 : -MAX_COST - 1 ≤ a) (h2 : a ≤ MAX_COST) :
    wrap_int32 a = a := by
  unfold MAX_COST at h1 h2
  unfold wrap_int32
  omega

theorem foldl_update_metrics (vals : List Int) : ∀ m : Metrics, 0 ≤ m.max_cost_value →
    wrap_int32 m.sum_cost_values = m.sum_cost_values →
    (vals.foldl Metrics.update m).max_cost_value = max m.max_cost_value (max_cost vals)
      ∧ (vals.foldl Metrics.update m).sum_cost_values
          = wrap_int32 (m.sum_cost_values + vals.sum) := by
  induction vals with
  | nil =>
    intro m hm hs
    refine ⟨by show m.max_cost_value = max m.max_cost_value 0; omega, ?_⟩
    simp only [List.foldl_nil, List.sum_nil, Int.add_zero]
    exact hs.symm
  | cons v vs ih =>
    intro m hm hs
    have h := ih (m.update v) (by show 0 ≤ max m.max_cost_value v; omega)
      (wrap_int32_idem _)
    simp only [List.foldl_cons, List.sum_cons, max_cost_cons]
    refine ⟨?_, ?_⟩
    · rw [h.1]; show max (max m.max_cost_value v) (max_cost vs) = _; omega
    · rw [h.2]
      show wrap_int32 (wrap_int32 (m.sum_cost_values + v) + vs.sum) = _
      rw [wrap_int32_add_left, Int.add_assoc]

/-- The metrics that the loop of `walk_a_line` accumulates over pairwise
distinct cells: each cell is read once, right after `cost_change` has been
added to it. -/
theorem walk_cells_values (c : Int) : ∀ (cells costs : List Int) (m m' : Metrics)
    (costs' : List Int), walk_cells c cells costs m = .ok (m', costs') → cells.Nodup →
      m' = (cells.map fun idx => costs.getD idx.toNat 0 + c).foldl Metrics.update m := by
  intro cells
  induction cells with
  | nil =>
    intro costs m m' costs' h _
    simp only [walk_cells, Except.ok.injEq, Prod.mk.injEq] at h
    simp [h.1]
  | cons idx rest ih =>
    intro costs m m' costs' h hn
    obtain ⟨hb, _⟩ := walk_cells_grid c _ _ _ _ _ h
    obtain ⟨hidx, hrest⟩ := in_bounds_cons.1 hb
    obtain ⟨hnot, hn'⟩ := List.nodup_cons.1 hn
    rw [walk_cells, bump_ok costs idx c hidx] at h
    have h' := ih _ _ _ _ h hn'
    rw [h']
    simp only [List.map_cons, List.foldl_cons]
    congr 1
    apply List.map_congr_left
    intro i hi
    have hib := hrest i hi
    have hne : idx.toNat ≠ i.toNat := by
      intro he
      have : idx = i := by omega
      exact hnot (this ▸ hi)
    rw [getD_set_cell _ _ _ _ (by omega), if_neg hne]

/-- After a walk over pairwise distinct cells, each of them holds its former
value plus `cost_change`. -/
theorem getD_add_cells_mem (c : Int) (cells costs : List Int) (hb : in_bounds costs.length cells)
    (hn : cells.Nodup) (idx : Int) (h : idx ∈ cells) :
    (add_cells c cells costs).getD idx.toNat 0 = costs.getD idx.toNat 0 + c := by
  have h0 := (hb idx h).1
  rw [getD_add_cells c cells costs hb idx.toNat]
  have e : ((idx.toNat : Nat) : Int) = idx := by omega
  rw [e, List.count_eq_one_of_mem hn h]
  simp

theorem getD_add_cells_not_mem (c : Int) (cells costs : List Int)
    (hb : in_bounds costs.length cells) (j : Nat) (h : (j : Int) ∉ cells) :
    (add_cells c cells costs).getD j 0 = costs.getD j 0 := by
  rw [getD_add_cells c cells costs hb j, List.count_eq_zero_of_not_mem h]
  simp

/-- C17, as stated, fails when the sum of the updated values leaves `cost_t`:
on the row of three cells holding 2147483647, 2147483647, 0 the walk with
`cost_change = 0` from (0,0) to (2,0) visits the first two cells, whose
values sum to 4294967294, and returns the sum -2. -/
theorem walk_a_line_sum_wraps :
    ([2147483647, 2147483647, 0] : List Int).length = (row_data.dim_x * row_data.dim_y).toNat
    ∧ aligned ⟨0, 0⟩ ⟨2, 0⟩
    ∧ (⟨0, 0⟩ : Point).inside row_data ∧ (⟨2, 0⟩ : Point).inside row_data
    ∧ walk_a_line row_data [2147483647, 2147483647, 0] ⟨0, 0⟩ ⟨2, 0⟩ 0
        = .ok (⟨2147483647, -2⟩, [2147483647, 2147483647, 0])
    ∧ ((line_points ⟨0, 0⟩ ⟨2, 0⟩).map fun q =>
          ([2147483647, 2147483647, 0] : List Int).getD (cell_index row_data q).toNat 0).sum
        = 4294967294 := by
  refine ⟨rfl, by decide, by decide, by decide, rfl, rfl⟩

/-- C17, amended: for every grid of `dim_x * dim_y` cells, axis-aligned
points `p1`, `p2` inside it and every `cost_change` for which the updated
values of the cells of the segment are `cost_t` values, `walk_a_line`
returns; the cells it visits are the cells of the half-open segment from
`p1` (included) to `p2` (excluded), each once; every cell of the segment
gains `cost_change`, every other entry of the array is unchanged, nothing
changes when `p1 == p2`; and the metrics returned have as maximum the
maximum of 0 and the updated values of the cells of the segment and as sum
the sum of these values in `cost_t` arithmetic: the sum itself when it fits
`cost_t`, wrapped around otherwise. -/
theorem walk_a_line_effect (data : Data) (costs : List Int) (p1 p2 : Point) (cost_change : Int)
    (hlen : (costs.length : Int) = data.dim_x * data.dim_y) (ha : aligned p1 p2)
    (h1 : p1.inside data) (h2 : p2.inside data)
    (hfit : ∀ q ∈ line_points p1 p2,
      -MAX_COST - 1 ≤ costs.getD (cell_index data q).toNat 0 + cost_change
        ∧ costs.getD (cell_index data q).toNat 0 + cost_change ≤ MAX_COST) :
    ∃ m costs', walk_a_line data costs p1 p2 cost_change = .ok (m, costs')
      ∧ costs'.length = costs.length
      ∧ (line_points p1 p2).Nodup
      ∧ (∀ q, q ∈ line_points p1 p2 ↔ on_segment p1 p2 q)
      ∧ (∀ q, on_segment p1 p2 q →
          costs'.getD (cell_index data q).toNat 0
            = costs.getD (cell_index data q).toNat 0 + cost_change)
      ∧ (∀ j : Nat, (∀ q, on_segment p1 p2 q → cell_index data q ≠ (j : Int)) →
          costs'.getD j 0 = costs.getD j 0)
      ∧ (p1 = p2 → costs' = costs)
      ∧ m.max_cost_value
          = max_cost ((line_points p1 p2).map fun q => costs'.getD (cell_index data q).toNat 0)
      ∧ m.sum_cost_values
          = wrap_int32
              ((line_points p1 p2).map fun q => costs'.getD (cell_index data q).toNat 0).sum
      ∧ (-MAX_COST - 1
            ≤ ((line_points p1 p2).map fun q => costs'.getD (cell_index data q).toNat 0).sum →
          ((line_points p1 p2).map fun q => costs'.getD (cell_index data q).toNat 0).sum
            ≤ MAX_COST →
          m.sum_cost_values
            = ((line_points p1 p2).map fun q =>
                costs'.getD (cell_index data q).toNat 0).sum) := by
  have hb := line_cells_in_bounds data costs.length hlen p1 p2 h1 h2
  have hn := nodup_line_cells data p1 p2 ha h1 h2
  obtain ⟨m, hm⟩ := walk_a_line_ok data costs p1 p2 cost_change ha hb
  have hmem : ∀ q, q ∈ line_points p1 p2 ↔ on_segment p1 p2 q :=
    fun q => mem_line_points p1 p2 q ha
  have hcell : ∀ q, on_segment p1 p2 q → cell_index data q ∈ line_cells data p1 p2 := by
    intro q hq
    rw [line_cells_eq_map]
    exact List.mem_map_of_mem _ ((hmem q).2 hq)
  have hvals : (line_points p1 p2).map
        (fun q => (add_cells cost_change (line_cells data p1 p2) costs).getD
          (cell_index data q).toNat 0)
      = (line_cells data p1 p2).map fun idx => costs.getD idx.toNat 0 + cost_change := by
    rw [line_cells_eq_map, List.map_map]
    apply List.map_congr_left
    intro q hq
    have := getD_add_cells_mem cost_change _ costs hb hn _ (hcell q ((hmem q).1 hq))
    rw [line_cells_eq_map] at this
    exact this
  have hmv := hm
  rw [walk_a_line_eq data costs p1 p2 cost_change ha] at hmv
  have hfold := walk_cells_values cost_change _ _ _ _ _ hmv hn
  have hf := foldl_update_metrics
    ((line_cells data p1 p2).map fun idx => costs.getD idx.toNat 0 + cost_change) {} (le_refl 0)
    rfl
  rw [← hfold] at hf
  have hsum : m.sum_cost_values
      = wrap_int32 ((line_points p1 p2).map fun q =>
          (add_cells cost_change (line_cells data p1 p2) costs).getD
            (cell_index data q).toNat 0).sum := by
    rw [hvals, hf.2]
    show wrap_int32 (0 + _) = _
    rw [Int.zero_add]
  refine ⟨m, _, hm, length_add_cells _ _ _, nodup_line_points p1 p2, hmem, ?_, ?_, ?_, ?_,
    hsum, ?_⟩
  · intro q hq
    exact getD_add_cells_mem cost_change _ costs hb hn _ (hcell q hq)
  · intro j hj
    apply getD_add_cells_not_mem cost_change _ costs hb j
    intro hmemj
    rw [line_cells_eq_map] at hmemj
    obtain ⟨q, hq, hqi⟩ := List.mem_map.1 hmemj
    exact hj q ((hmem q).1 hq) hqi
  · intro he
    subst he
    rw [line_cells_self]
    rfl
  · rw [hvals, hf.1]
    have := max_cost_nonneg
      ((line_cells data p1 p2).map fun idx => costs.getD idx.toNat 0 + cost_change)
    show max 0 _ = _
    omega
  · intro hlo hhi
    rw [hsum]
    exact wrap_int32_of_fits _ hlo hhi

/-- Witness of the amended C17: the walk with `+1` from (0,1) to (2,1) on a
3 by 3 grid. -/
theorem walk_a_line_effect_witness :
    ∃ m costs', walk_a_line demo_data [0, 1, 2, 3, 4, 5, 6, 7, 8] ⟨0, 1⟩ ⟨2, 1⟩ 1 = .ok (m, costs')
      ∧ costs'.length = 9
      ∧ (line_points ⟨0, 1⟩ ⟨2, 1⟩).Nodup
      ∧ (∀ q, q ∈ line_points ⟨0, 1⟩ ⟨2, 1⟩ ↔ on_segment ⟨0, 1⟩ ⟨2, 1⟩ q)
      ∧ (∀ q, on_segment ⟨0, 1⟩ ⟨2, 1⟩ q →
          costs'.getD (cell_index demo_data q).toNat 0
            = [0, 1, 2, 3, 4, 5, 6, 7, 8].getD (cell_index demo_data q).toNat 0 + 1)
      ∧ (∀ j : Nat, (∀ q, on_segment ⟨0, 1⟩ ⟨2, 1⟩ q → cell_index demo_data q ≠ (j : Int)) →
          costs'.getD j 0 = [0, 1, 2, 3, 4, 5, 6, 7, 8].getD j 0)
      ∧ ((⟨0, 1⟩ : Point) = ⟨2, 1⟩ → costs' = [0, 1, 2, 3, 4, 5, 6, 7, 8])
      ∧ m.max_cost_value
          = max_cost ((line_points ⟨0, 1⟩ ⟨2, 1⟩).map fun q =>
              costs'.getD (cell_index demo_data q).toNat 0)
      ∧ m.sum_cost_values
          = wrap_int32 ((line_points ⟨0, 1⟩ ⟨2, 1⟩).map fun q =>
              costs'.getD (cell_index demo_data q).toNat 0).sum
      ∧ (-MAX_COST - 1
            ≤ ((line_points ⟨0, 1⟩ ⟨2, 1⟩).map fun q =>
                costs'.getD (cell_index demo_data q).toNat 0).sum →
          ((line_points ⟨0, 1⟩ ⟨2, 1⟩).map fun q =>
              costs'.getD (cell_index demo_data q).toNat 0).sum ≤ MAX_COST →
          m.sum_cost_values
            = ((line_points ⟨0, 1⟩ ⟨2, 1⟩).map fun q =>
                costs'.getD (cell_index demo_data q).toNat 0).sum) :=
  walk_a_line_effect demo_data [0, 1, 2, 3, 4, 5, 6, 7, 8] ⟨0, 1⟩ ⟨2, 1⟩ 1
    (by decide) (by decide) (by decide) (by decide) (by decide)

/-! ## The two search branches -/

/-- C15, as stated, fails: on the same grid, wire, current route
(0,0), (0,2), (2,2), candidate list and draws, the search branch of the
OpenMP driver commits the first candidate (0,0), (2,0), (2,2), which ties
with the current route at (1,1), while the search branch of the MPI loop
keeps the current route, and the two grids differ. -/
theorem search_branches_differ_on_ties :
    routing_step demo_data (prepare_all_routes demo_data) ⟨1, 0, 0, demo_route0⟩ 0
        ⟨demo_costs2, [demo_candidate2, demo_route1]⟩
      = .ok ⟨demo_costs, [{ demo_route0 with metrics := ⟨1, 1⟩ }, demo_route1]⟩
    ∧ compute_step demo_data (routes_of_wire ⟨⟨0, 0⟩, ⟨2, 2⟩⟩) ⟨1, 0, 0, demo_route0⟩ 0
        ⟨demo_costs2, [demo_candidate2, demo_route1]⟩
      = .ok ⟨demo_costs2, [{ demo_candidate2 with metrics := ⟨2, 6⟩ }, demo_route1]⟩
    ∧ (prepare_all_routes demo_data)[0]? = some (routes_of_wire ⟨⟨0, 0⟩, ⟨2, 2⟩⟩)
    ∧ demo_route0.p2 ≠ demo_candidate2.p2
    ∧ demo_costs ≠ demo_costs2 := by
  refine ⟨?_, ?_, rfl, by decide, by decide⟩
  · with_unfolding_all rfl
  · with_unfolding_all rfl

/-- C15, amended: given the same grid, wire, current route, candidate list
and draws, when some candidate scores strictly below both the metrics that
the retraction of the current route returned (the initial `best_route` of
the MPI loop) and `(MAX_COST, MAX_COST)` (the initial `best_route` of the
OpenMP driver), the two search branches return, commit the same candidate
(same wire, `p1`, `p2`) and leave the same grid; the stored routes differ
only in the cached metrics. -/
theorem search_branches_agree (data : Data) (possible_routes : List (List Route))
    (env : StepEnv) (wire_id : Nat) (result : Result) (wire : Wire) (prev_route : Route)
    (routes : List Route) (m0 : Metrics) (retracted : List Int)
    (hlen : (result.costs.length : Int) = data.dim_x * data.dim_y)
    (hw : data.wires[wire_id]? = some wire)
    (hp : result.routes[wire_id]? = some prev_route)
    (hr : possible_routes[wire_id]? = some routes)
    (hretract : walk_a_route data result.costs prev_route (-1) = .ok (m0, retracted))
    (hsearch : is_random_route data env.rand_sa = false)
    (hv : ∀ r ∈ routes, r.aligned ∧ r.inside data)
    (hbelow : ∃ r ∈ routes, ∃ m, dry_run data retracted r = some m
      ∧ m.lt ⟨MAX_COST, MAX_COST⟩ = true ∧ m.lt m0 = true) :
    ∃ (r : Route) (m m1 : Metrics) (costs3 : List Int), r ∈ routes
      ∧ routing_step data possible_routes env wire_id result
          = .ok ⟨costs3, result.routes.set wire_id { r with metrics := m }⟩
      ∧ compute_step data routes env wire_id result
          = .ok ⟨costs3, result.routes.set wire_id { r with metrics := m1 }⟩ := by
  obtain ⟨_, _, eretr⟩ := walk_a_route_grid hretract
  have hl : retracted.length = result.costs.length := by rw [eretr, length_add_cells]
  have hv' : ∀ r ∈ routes, r.aligned ∧ in_bounds retracted.length (footprint data r) :=
    fun r hr => ⟨(hv r hr).1,
      footprint_in_bounds data _ (by rw [hl]; exact hlen) r (hv r hr).2⟩
  obtain ⟨rb, hrb, mb, hdb, hltb, hltb0⟩ := hbelow
  obtain ⟨best, hs, hcase⟩ :=
    search_best_first_min data retracted routes (Route.default env.uninit) hv'
  obtain ⟨best', hs', hcase'⟩ :=
    search_best_first_min data retracted routes { prev_route with metrics := m0 } hv'
  rcases hcase with ⟨_, hall⟩ | ⟨i, r, m, hi, hd, hb, _, hmin⟩
  · have hn := hall rb hrb mb hdb
    rw [show (Route.default env.uninit).metrics = ⟨MAX_COST, MAX_COST⟩ from rfl, hltb] at hn
    cases hn
  rcases hcase' with ⟨_, hall'⟩ | ⟨i', r', m', hi', hd', hb', _, hmin'⟩
  · have hn := hall' rb hrb mb hdb
    rw [show ({ prev_route with metrics := m0 } : Route).metrics = m0 from rfl, hltb0] at hn
    cases hn
  have hii : i = i' := by
    rcases lt_trichotomy i i' with hlt | heq | hgt
    · have h1 := (hmin' i r m hi hd).2 hlt
      have h2 := (hmin i' r' m' hi' hd').1
      rw [h1] at h2
      cases h2
    · exact heq
    · have h1 := (hmin i' r' m' hi' hd').2 hgt
      have h2 := (hmin' i r m hi hd).1
      rw [h1] at h2
      cases h2
  subst hii
  rw [hi] at hi'
  cases hi'
  rw [hd] at hd'
  cases hd'
  subst hb hb'
  have hri := hv' r (List.getElem?_mem hi)
  obtain ⟨m1, h1⟩ := walk_a_route_ok data retracted { r with metrics := m } 1 hri.1 hri.2
  refine ⟨r, m, m1, add_cells 1 (footprint data { r with metrics := m }) retracted,
    List.getElem?_mem hi, ?_, ?_⟩
  · unfold routing_step
    simp only [hw, hp, hretract, hsearch, hr, hs, h1]
    simp
  · unfold compute_step
    simp only [hw, hp, hretract, hsearch, hs', h1]
    simp

/-- Witness of the amended C15: the search step on the first wire of
`demo_data` when its current route is the second candidate, which scores
(1,3) while the first candidate scores (1,1). -/
theorem search_branches_agree_witness :
    ∃ (r : Route) (m m1 : Metrics) (costs3 : List Int),
      r ∈ routes_of_wire ⟨⟨0, 0⟩, ⟨2, 2⟩⟩
      ∧ routing_step demo_data (prepare_all_routes demo_data) ⟨1, 0, 0, demo_route0⟩ 0
          ⟨[1, 0, 0, 2, 2, 2, 0, 0, 1], [demo_candidate1, demo_route1]⟩
          = .ok ⟨costs3, [demo_candidate1, demo_route1].set 0 { r with metrics := m }⟩
      ∧ compute_step demo_data (routes_of_wire ⟨⟨0, 0⟩, ⟨2, 2⟩⟩) ⟨1, 0, 0, demo_route0⟩ 0
          ⟨[1, 0, 0, 2, 2, 2, 0, 0, 1], [demo_candidate1, demo_route1]⟩
          = .ok ⟨costs3, [demo_candidate1, demo_route1].set 0 { r with metrics := m1 }⟩ :=
  search_branches_agree demo_data (prepare_all_routes demo_data) ⟨1, 0, 0, demo_route0⟩ 0
    ⟨[1, 0, 0, 2, 2, 2, 0, 0, 1], [demo_candidate1, demo_route1]⟩ ⟨⟨0, 0⟩, ⟨2, 2⟩⟩
    demo_candidate1 (routes_of_wire ⟨⟨0, 0⟩, ⟨2, 2⟩⟩) ⟨1, 3⟩ [0, 0, 0, 1, 1, 1, 0, 0, 0]
    (by decide) rfl rfl rfl rfl (by decide) (by decide)
    ⟨demo_route0, by decide, ⟨1, 1⟩, rfl, by decide, by decide⟩

/-! ## The report of the coordinator -/

theorem compute_step_frame (data : Data) (all_routes_for_one_wire : List Route)
    (env : StepEnv) (wire_id : Nat) (result result' : Result)
    (h : compute_step data all_routes_for_one_wire env wire_id result = .ok result') :
    ∀ j : Nat, j ≠ wire_id → result'.routes[j]? = result.routes[j]? := by
  intro j hj
  unfold compute_step at h
  split at h
  · split at h
    · simp at h
    · dsimp only at h
      split at h
      · split at h
        · simp at h
        · simp only [Except.ok.injEq] at h
          rw [← h]
          exact List.getElem?_set_ne (Ne.symm hj)
      · split at h
        · simp at h
        · split at h
          · simp at h
          · simp only [Except.ok.injEq] at h
            rw [← h]
            exact List.getElem?_set_ne (Ne.symm hj)
  · simp at h

theorem compute_wire_loop_spec (data : Data) (generate_routes : Wire → List Route)
    (env : Nat → StepEnv) : ∀ (count wire_id : Nat) (result result' : Result),
    compute_wire_loop data generate_routes env count wire_id result = .ok result' →
      (∀ j : Nat, (j < wire_id ∨ wire_id + count ≤ j) → result'.routes[j]? = result.routes[j]?)
        ∧ (consistent data result → consistent data result') := by
  intro count
  induction count with
  | zero =>
    intro wire_id result result' h
    simp only [compute_wire_loop, Except.ok.injEq] at h
    rw [← h]
    exact ⟨fun _ _ => rfl, fun hc => hc⟩
  | succ count ih =>
    intro wire_id result result' h
    rw [compute_wire_loop] at h
    split at h
    · simp at h
    · rename_i result₁ hstep
      unfold compute_iteration at hstep
      split at hstep
      · obtain ⟨hf, hc⟩ := ih (wire_id + 1) result₁ result' h
        refine ⟨?_, fun hc0 => hc (compute_step_consistent data _ _ _ _ _ hc0 hstep)⟩
        intro j hj
        rw [hf j (by omega), compute_step_frame data _ _ _ _ _ hstep j (by omega)]
      · simp at hstep

theorem compute_iters_spec (data : Data) (generate_routes : Wire → List Route)
    (envs : Nat → Nat → StepEnv) (b e : Int) : ∀ (count iter_id : Nat) (result result' : Result),
    compute_iters data generate_routes envs b e count iter_id result = .ok result' →
      (∀ j : Nat, (j < b.toNat ∨ b.toNat + (e - b).toNat ≤ j) →
          result'.routes[j]? = result.routes[j]?)
        ∧ (consistent data result → consistent data result') := by
  intro count
  induction count with
  | zero =>
    intro iter_id result result' h
    simp only [compute_iters, Except.ok.injEq] at h
    rw [← h]
    exact ⟨fun _ _ => rfl, fun hc => hc⟩
  | succ count ih =>
    intro iter_id result result' h
    rw [compute_iters] at h
    split at h
    · simp at h
    · rename_i result₁ hloop
      obtain ⟨hf1, hc1⟩ := compute_wire_loop_spec data generate_routes _ _ _ _ _ hloop
      obtain ⟨hf, hc⟩ := ih (iter_id + 1) result₁ result' h
      exact ⟨fun j hj => by rw [hf j hj, hf1 j hj], fun hc0 => hc (hc1 hc0)⟩

/-- C16, as stated, fails: with two workers on `two_worker_data`, worker 1
owns the wire 1 and replaces its route by (0,1), (1,1), (1,2), (2,2), but the
routes that the coordinator (rank 0) holds at the end, and writes, still have
the broadcast initial route (0,1), (2,1), (2,2) for the wire 1. -/
theorem coordinator_keeps_initial_route_of_other_worker :
    ∃ (w : Nat → Int) (final0 final1 : Result),
      load_balance [4, 3] 2 (fun _ => 0) = .ok w
      ∧ wire_id_begin w 1 = 1 ∧ wire_id_end w 1 = 2
      ∧ walk_all_routes two_worker_data
          ⟨List.replicate 9 0, [demo_route0, two_worker_route1]⟩ 1
          = .ok (⟨2, 11⟩, [1, 1, 1, 1, 1, 2, 0, 0, 2])
      ∧ compute_worker two_worker_data routes_of_wire two_worker_envs w 0
          ⟨[1, 1, 1, 1, 1, 2, 0, 0, 2], [demo_route0, two_worker_route1]⟩ = .ok final0
      ∧ compute_worker two_worker_data routes_of_wire two_worker_envs w 1
          ⟨[1, 1, 1, 1, 1, 2, 0, 0, 2], [demo_route0, two_worker_route1]⟩ = .ok final1
      ∧ final1.routes[1]? = some { two_worker_route1 with p1 := ⟨1, 1⟩, p2 := ⟨1, 2⟩ }
      ∧ final0.routes[1]? = some two_worker_route1
      ∧ final0.routes[1]? ≠ final1.routes[1]? := by
  refine ⟨Function.update (Function.update (fun _ => 0) 0 1) 1 2,
    ⟨[1, 0, 0, 2, 2, 2, 0, 0, 2], [demo_candidate1, two_worker_route1]⟩,
    ⟨[1, 1, 1, 1, 1, 1, 0, 1, 2],
      [demo_route0, { two_worker_route1 with p1 := ⟨1, 1⟩, p2 := ⟨1, 2⟩ }]⟩,
    ?_, ?_, ?_, ?_, ?_, ?_, ?_, ?_, ?_⟩
  · simp [load_balance, partition_loop, partition_step]
  · rfl
  · rfl
  · rfl
  · with_unfolding_all rfl
  · with_unfolding_all rfl
  · rfl
  · rfl
  · decide

/-- C16, amended: the route list and the grid that the coordinator (rank 0)
holds after its annealing loops, and reports, contain for every wire outside
its own partition the broadcast initial route (no route of another worker is
received), for the wires of its own partition the routes it computed itself,
and the grid is the footprint count of exactly the reported routes whenever
the broadcast grid was that of the broadcast routes. -/
theorem coordinator_report (data : Data) (generate_routes : Wire → List Route)
    (envs : Nat → Nat → StepEnv) (work_per_proc : Nat → Int) (initial final : Result)
    (h : compute_worker data generate_routes envs work_per_proc 0 initial = .ok final) :
    (∀ wire_id : Nat, wire_id_end work_per_proc 0 ≤ (wire_id : Int) →
        final.routes[wire_id]? = initial.routes[wire_id]?)
    ∧ (consistent data initial → consistent data final) := by
  unfold compute_worker at h
  obtain ⟨hf, hc⟩ := compute_iters_spec data generate_routes envs _ _ _ _ _ _ h
  refine ⟨?_, hc⟩
  intro wire_id hw
  apply hf
  right
  have hb : wire_id_begin work_per_proc 0 = 0 := rfl
  rw [hb]
  omega

/-- Witness of the amended C16: the coordinator of `two_worker_data`, whose
partition is the wire 0. -/
theorem coordinator_report_witness :
    (∀ wire_id : Nat,
        wire_id_end (Function.update (Function.update (fun _ => 0) 0 1) 1 2) 0 ≤ (wire_id : Int) →
        ([demo_candidate1, two_worker_route1] : List Route)[wire_id]?
          = ([demo_route0, two_worker_route1] : List Route)[wire_id]?)
    ∧ (consistent two_worker_data
          ⟨[1, 1, 1, 1, 1, 2, 0, 0, 2], [demo_route0, two_worker_route1]⟩ →
        consistent two_worker_data
          ⟨[1, 0, 0, 2, 2, 2, 0, 0, 2], [demo_candidate1, two_worker_route1]⟩) :=
  coordinator_report two_worker_data routes_of_wire two_worker_envs
    (Function.update (Function.update (fun _ => 0) 0 1) 1 2)
    ⟨[1, 1, 1, 1, 1, 2, 0, 0, 2], [demo_route0, two_worker_route1]⟩
    ⟨[1, 0, 0, 2, 2, 2, 0, 0, 2], [demo_candidate1, two_worker_route1]⟩
    (by with_unfolding_all rfl)

/-! ## Routes of the two shapes -/

theorem proper_route_aligned (w : Wire) (r : Route) (h : proper_route w r) : r.aligned := by
  obtain ⟨hw, hs⟩ := h
  subst hw
  rcases hs with ⟨h1, h2, h3, _⟩ | ⟨h1, h2, h3, _⟩
  · exact ⟨Or.inl h1.symm, Or.inr h3, Or.inl h2⟩
  · exact ⟨Or.inr h1.symm, Or.inl h3, Or.inr h2⟩

theorem proper_route_in_box (w : Wire) (r : Route) (h : proper_route w r) :
    in_box w r.p1 ∧ in_box w r.p2 := by
  obtain ⟨hw, hs⟩ := h
  subst hw
  rcases hs with ⟨h1, h2, h3, hb⟩ | ⟨h1, h2, h3, hb⟩
  · refine ⟨⟨?_, ?_, ?_, ?_⟩, ⟨?_, ?_, ?_, ?_⟩⟩ <;> omega
  · refine ⟨⟨?_, ?_, ?_, ?_⟩, ⟨?_, ?_, ?_, ?_⟩⟩ <;> omega

theorem proper_route_inside (data : Data) (w : Wire) (r : Route) (h : proper_route w r)
    (hs : w.start.inside data) (he : w.end_.inside data) : r.inside data := by
  obtain ⟨h1, h2⟩ := proper_route_in_box w r h
  have hw := h.1
  refine ⟨?_, inside_of_in_box data w _ hs he h1, inside_of_in_box data w _ hs he h2, ?_⟩
  · rw [hw]; exact hs
  · rw [hw]; exact he

theorem candidate_proper (w : Wire) (r : Route) (h : r ∈ routes_of_wire w) :
    proper_route w r := by
  obtain ⟨hw, hs⟩ := candidate_bend_range w r h
  refine ⟨hw, ?_⟩
  rcases hs with ⟨h1, h2, h3, hb⟩ | ⟨h1, h2, h3, hb⟩
  · exact Or.inl ⟨h1, h2, h3, by omega⟩
  · exact Or.inr ⟨h1, h2, h3, by omega⟩

theorem random_route_proper (w : Wire) (rand1 rand2 : Nat) :
    proper_route w (generate_random_route w rand1 rand2) := by
  have hr : rand2 % 100 < 100 := Nat.mod_lt _ (by decide)
  have hy := int_of_product_bounds (rand2 % 100) hr (w.end_.y - w.start.y)
  have hx := int_of_product_bounds (rand2 % 100) hr (w.end_.x - w.start.x)
  by_cases hv : (rand1 % 2 != 0) = true
  · rw [random_route_vertical_first w rand1 rand2 hv]
    refine ⟨rfl, Or.inl ⟨rfl, rfl, rfl, ?_⟩⟩
    dsimp only [Route.of_wire, between]
    rcases le_total 0 (w.end_.y - w.start.y) with h | h
    · have := hy.1 h; omega
    · have := hy.2 h; omega
  · rw [random_route_horizontal_first w rand1 rand2 hv]
    refine ⟨rfl, Or.inr ⟨rfl, rfl, rfl, ?_⟩⟩
    dsimp only [Route.of_wire, between]
    rcases le_total 0 (w.end_.x - w.start.x) with h | h
    · have := hx.1 h; omega
    · have := hx.2 h; omega

theorem footprint_eq_map (data : Data) (r : Route) :
    footprint data r = (route_points r).map (cell_index data) := by
  simp only [footprint, route_points, line_cells_eq_map, List.map_append, List.map_cons,
    List.map_nil, cell_index]

theorem length_line_points (p1 p2 : Point) (ha : aligned p1 p2) :
    (line_points p1 p2).length = (p2.x - p1.x).natAbs + (p2.y - p1.y).natAbs := by
  unfold line_points
  split
  · rename_i h
    rw [List.length_map, length_for_values]
    omega
  · rename_i h
    have hy : p1.y = p2.y := by
      rcases ha with h' | h'
      · exact absurd h' h
      · exact h'
    rw [List.length_map, length_for_values]
    omega

theorem length_route_points (w : Wire) (r : Route) (h : proper_route w r) :
    (route_points r).length = route_length w := by
  obtain ⟨a1, a2, a3⟩ := proper_route_aligned w r h
  obtain ⟨hw, hs⟩ := h
  subst hw
  simp only [route_points, List.length_append, List.length_cons, List.length_nil,
    length_line_points _ _ a1, length_line_points _ _ a2, length_line_points _ _ a3,
    route_length]
  rcases hs with ⟨h1, h2, h3, hb⟩ | ⟨h1, h2, h3, hb⟩ <;> omega

theorem route_points_in_box (w : Wire) (r : Route) (h : proper_route w r) :
    ∀ q ∈ route_points r, in_box w q := by
  obtain ⟨a1, a2, a3⟩ := proper_route_aligned w r h
  obtain ⟨hw, hs⟩ := h
  subst hw
  intro q hq
  simp only [route_points, List.mem_append, List.mem_singleton,
    mem_line_points _ _ _ a1, mem_line_points _ _ _ a2, mem_line_points _ _ _ a3] at hq
  rcases hs with ⟨h1, h2, h3, hb⟩ | ⟨h1, h2, h3, hb⟩
  · rcases hq with ((hq | hq) | hq) | hq
    · refine ⟨?_, ?_, ?_, ?_⟩ <;> omega
    · refine ⟨?_, ?_, ?_, ?_⟩ <;> omega
    · refine ⟨?_, ?_, ?_, ?_⟩ <;> omega
    · subst hq
      refine ⟨?_, ?_, ?_, ?_⟩ <;> omega
  · rcases hq with ((hq | hq) | hq) | hq
    · refine ⟨?_, ?_, ?_, ?_⟩ <;> omega
    · refine ⟨?_, ?_, ?_, ?_⟩ <;> omega
    · refine ⟨?_, ?_, ?_, ?_⟩ <;> omega
    · subst hq
      refine ⟨?_, ?_, ?_, ?_⟩ <;> omega

/-- A route of one of the two shapes never visits a point twice. -/
theorem nodup_route_points (w : Wire) (r : Route) (h : proper_route w r) :
    (route_points r).Nodup := by
  obtain ⟨a1, a2, a3⟩ := proper_route_aligned w r h
  obtain ⟨hw, hs⟩ := h
  subst hw
  rw [route_points, List.nodup_append, List.nodup_append, List.nodup_append]
  refine ⟨⟨⟨nodup_line_points _ _, nodup_line_points _ _, ?_⟩, nodup_line_points _ _, ?_⟩,
    List.nodup_singleton _, ?_⟩
  · intro q hq1 hq2
    rw [mem_line_points _ _ _ a1] at hq1
    rw [mem_line_points _ _ _ a2] at hq2
    rcases hs with ⟨h1, h2, h3, hb⟩ | ⟨h1, h2, h3, hb⟩ <;> omega
  · intro q hq1 hq2
    rw [List.mem_append, mem_line_points _ _ _ a1, mem_line_points _ _ _ a2] at hq1
    rw [mem_line_points _ _ _ a3] at hq2
    rcases hs with ⟨h1, h2, h3, hb⟩ | ⟨h1, h2, h3, hb⟩
    · rcases hq1 with hq1 | hq1 <;> omega
    · rcases hq1 with hq1 | hq1 <;> omega
  · intro q hq1 hq2
    rw [List.mem_append, List.mem_append, mem_line_points _ _ _ a1, mem_line_points _ _ _ a2,
      mem_line_points _ _ _ a3] at hq1
    rw [List.mem_singleton] at hq2
    subst hq2
    rcases hs with ⟨h1, h2, h3, hb⟩ | ⟨h1, h2, h3, hb⟩
    · rcases hq1 with (hq1 | hq1) | hq1 <;> omega
    · rcases hq1 with (hq1 | hq1) | hq1 <;> omega

theorem nodup_footprint (data : Data) (w : Wire) (r : Route) (h : proper_route w r)
    (hs : w.start.inside data) (he : w.end_.inside data) : (footprint data r).Nodup := by
  rw [footprint_eq_map]
  apply List.Nodup.map_on _ (nodup_route_points w r h)
  intro a ha b hb hab
  exact cell_index_inj data a b
    (inside_of_in_box data w a hs he (route_points_in_box w r h a ha))
    (inside_of_in_box data w b hs he (route_points_in_box w r h b hb)) hab

theorem length_footprint (data : Data) (w : Wire) (r : Route) (h : proper_route w r) :
    (footprint data r).length = route_length w := by
  rw [footprint_eq_map, List.length_map, length_route_points w r h]

theorem footprint_in_box (data : Data) (w : Wire) (r : Route) (h : proper_route w r) :
    ∀ idx ∈ footprint data r, ∃ q, in_box w q ∧ cell_index data q = idx := by
  intro idx hidx
  rw [footprint_eq_map] at hidx
  obtain ⟨q, hq, hqi⟩ := List.mem_map.1 hidx
  exact ⟨q, route_points_in_box w r h q hq, hqi⟩

/-! ## Metrics of a route with pairwise distinct cells -/

theorem walk_cells_summary (c : Int) (cells g costs : List Int)
    (hb : in_bounds g.length cells) (hn : cells.Nodup)
    (hsame : ∀ idx ∈ cells, g.getD idx.toNat 0 = costs.getD idx.toNat 0) :
    ∃ m, walk_cells c cells g {} = .ok (m, add_cells c cells g)
      ∧ m.max_cost_value = max_cost (cells.map fun idx => costs.getD idx.toNat 0 + c)
      ∧ m.sum_cost_values
          = wrap_int32 (cells.map fun idx => costs.getD idx.toNat 0 + c).sum := by
  obtain ⟨m, hm⟩ := walk_cells_ok c cells g {} hb
  have hfold := walk_cells_values c _ _ _ _ _ hm hn
  have hmap : (cells.map fun idx => g.getD idx.toNat 0 + c)
      = cells.map fun idx => costs.getD idx.toNat 0 + c := by
    apply List.map_congr_left
    intro idx hidx
    rw [hsame idx hidx]
  rw [hmap] at hfold
  have hf := foldl_update_metrics (cells.map fun idx => costs.getD idx.toNat 0 + c) {} (le_refl 0)
    rfl
  rw [← hfold] at hf
  have hnn := max_cost_nonneg (cells.map fun idx => costs.getD idx.toNat 0 + c)
  refine ⟨m, hm, ?_, ?_⟩
  · rw [hf.1]; show max 0 _ = _; omega
  · rw [hf.2]; show wrap_int32 (0 + _) = _; rw [Int.zero_add]

theorem getD_add_cells_other (c : Int) (cells costs : List Int)
    (hb : in_bounds costs.length cells) (idx : Int) (h0 : 0 ≤ idx) (h : idx ∉ cells) :
    (add_cells c cells costs).getD idx.toNat 0 = costs.getD idx.toNat 0 := by
  apply getD_add_cells_not_mem c cells costs hb
  have e : ((idx.toNat : Nat) : Int) = idx := by omega
  rw [e]
  exact h

/-- The metrics that `walk_a_route` returns for a route whose cells are
pairwise distinct: maximum and sum of the values of its cells after
`cost_change` has been added. -/
theorem walk_a_route_metrics (data : Data) (costs : List Int) (r : Route) (c : Int)
    (ha : r.aligned) (hb : in_bounds costs.length (footprint data r))
    (hn : (footprint data r).Nodup) :
    ∃ m, walk_a_route data costs r c = .ok (m, add_cells c (footprint data r) costs)
      ∧ m.max_cost_value
          = max_cost ((footprint data r).map fun idx => costs.getD idx.toNat 0 + c)
      ∧ m.sum_cost_values
          = wrap_int32 ((footprint data r).map fun idx => costs.getD idx.toNat 0 + c).sum := by
  unfold footprint at hb hn ⊢
  simp only [in_bounds_append] at hb
  obtain ⟨⟨⟨hb1, hb2⟩, hb3⟩, hb4⟩ := hb
  rw [List.nodup_append, List.nodup_append, List.nodup_append] at hn
  obtain ⟨⟨⟨hn1, hn2, d12⟩, hn3, d123⟩, _, d4⟩ := hn
  obtain ⟨ha1, ha2, ha3⟩ := ha
  have he0 := (hb4 _ (List.mem_singleton.2 rfl))
  -- first segment
  obtain ⟨m1, h1, hm1, hs1⟩ := walk_cells_summary c (line_cells data r.wire.start r.p1) costs costs
    hb1 hn1 (fun _ _ => rfl)
  -- second segment
  have hb2' : in_bounds (add_cells c (line_cells data r.wire.start r.p1) costs).length
      (line_cells data r.p1 r.p2) := by rw [length_add_cells]; exact hb2
  obtain ⟨m2, h2, hm2, hs2⟩ := walk_cells_summary c (line_cells data r.p1 r.p2)
    (add_cells c (line_cells data r.wire.start r.p1) costs) costs hb2' hn2
    (fun idx hidx => getD_add_cells_other c _ costs hb1 idx (hb2 idx hidx).1
      (fun hmem => d12 hmem hidx))
  -- third segment
  have hb3' : in_bounds (add_cells c (line_cells data r.p1 r.p2)
      (add_cells c (line_cells data r.wire.start r.p1) costs)).length
      (line_cells data r.p2 r.wire.end_) := by
    rw [length_add_cells, length_add_cells]; exact hb3
  obtain ⟨m3, h3, hm3, hs3⟩ := walk_cells_summary c (line_cells data r.p2 r.wire.end_)
    (add_cells c (line_cells data r.p1 r.p2)
      (add_cells c (line_cells data r.wire.start r.p1) costs)) costs hb3' hn3
    (fun idx hidx => by
      rw [getD_add_cells_other c _ _ hb2' idx (hb3 idx hidx).1
          (fun hmem => d123 (List.mem_append_right _ hmem) hidx),
        getD_add_cells_other c _ costs hb1 idx (hb3 idx hidx).1
          (fun hmem => d123 (List.mem_append_left _ hmem) hidx)])
  -- terminal cell
  have hv : (add_cells c (line_cells data r.p2 r.wire.end_)
      (add_cells c (line_cells data r.p1 r.p2)
        (add_cells c (line_cells data r.wire.start r.p1) costs))).getD
        (r.wire.end_.y * data.dim_x + r.wire.end_.x).toNat 0
      = costs.getD (r.wire.end_.y * data.dim_x + r.wire.end_.x).toNat 0 := by
    rw [getD_add_cells_other c _ _ hb3' _ he0.1
        (fun hmem => d4 (List.mem_append_right _ hmem) (List.mem_singleton.2 rfl)),
      getD_add_cells_other c _ _ hb2' _ he0.1
        (fun hmem => d4 (List.mem_append_left _ (List.mem_append_right _ hmem))
          (List.mem_singleton.2 rfl)),
      getD_add_cells_other c _ costs hb1 _ he0.1
        (fun hmem => d4 (List.mem_append_left _ (List.mem_append_left _ hmem))
          (List.mem_singleton.2 rfl))]
  have h4 := bump_ok (add_cells c (line_cells data r.p2 r.wire.end_)
      (add_cells c (line_cells data r.p1 r.p2) (add_cells c (line_cells data r.wire.start r.p1) costs)))
    (r.wire.end_.y * data.dim_x + r.wire.end_.x) c
    (by simpa [length_add_cells, in_bounds] using hb4)
  rw [hv] at h4
  have hn1' := max_cost_nonneg
    ((line_cells data r.wire.start r.p1).map fun idx => costs.getD idx.toNat 0 + c)
  have hn2' := max_cost_nonneg
    ((line_cells data r.p1 r.p2).map fun idx => costs.getD idx.toNat 0 + c)
  have hn3' := max_cost_nonneg
    ((line_cells data r.p2 r.wire.end_).map fun idx => costs.getD idx.toNat 0 + c)
  refine ⟨((((({} : Metrics).update_metrics m1).update_metrics m2).update_metrics m3).update
      (costs.getD (r.wire.end_.y * data.dim_x + r.wire.end_.x).toNat 0 + c)), ?_, ?_, ?_⟩
  · unfold walk_a_route
    rw [walk_a_line_eq data costs _ _ c ha1]
    simp only [h1, walk_a_line_eq data _ _ _ c ha2, h2, walk_a_line_eq data _ _ _ c ha3, h3, h4,
      add_cells_append, add_cells]
    rw [hv]
  · simp only [Metrics.update, Metrics.update_metrics, List.map_append, List.map_cons,
      List.map_nil, max_cost_append, max_cost_cons, hm1, hm2, hm3]
    show max (max (max (max 0 _) _) _) _ = max (max (max _ _) _) (max _ 0)
    omega
  · simp only [Metrics.update, Metrics.update_metrics, List.map_append, List.map_cons,
      List.map_nil, List.sum_append, List.sum_cons, List.sum_nil, hs1, hs2, hs3]
    generalize ((line_cells data r.wire.start r.p1).map
      fun idx => costs.getD idx.toNat 0 + c).sum = s1
    generalize ((line_cells data r.p1 r.p2).map fun idx => costs.getD idx.toNat 0 + c).sum = s2
    generalize ((line_cells data r.p2 r.wire.end_).map
      fun idx => costs.getD idx.toNat 0 + c).sum = s3
    show wrap_int32 (wrap_int32 (wrap_int32 (wrap_int32 (0 + wrap_int32 s1) + wrap_int32 s2)
      + wrap_int32 s3) + _) = _
    unfold wrap_int32
    omega

/-! ## Wires with disjoint bounding boxes -/

theorem sum_map_eq_zero {α : Type} (f : α → Nat) (l : List α) (h : ∀ b ∈ l, f b = 0) :
    (l.map f).sum = 0 := by
  induction l with
  | nil => rfl
  | cons x xs ih =>
    obtain ⟨hx, hxs⟩ := List.forall_mem_cons.1 h
    simp only [List.map_cons, List.sum_cons, hx, ih hxs]

theorem sum_map_eq_single {α : Type} (f : α → Nat) : ∀ (l : List α) (i : Nat) (a : α),
    l[i]? = some a → (∀ (j : Nat) (b : α), j ≠ i → l[j]? = some b → f b = 0) →
      (l.map f).sum = f a := by
  intro l
  induction l with
  | nil => intro i a h; simp at h
  | cons x xs ih =>
    intro i a h h0
    cases i with
    | zero =>
      simp only [List.getElem?_cons_zero, Option.some.injEq] at h
      subst h
      have hz : (xs.map f).sum = 0 := by
        apply sum_map_eq_zero
        intro b hb
        obtain ⟨n, hn⟩ := List.mem_iff_getElem?.1 hb
        exact h0 (n + 1) b (by omega) (by simpa using hn)
      simp only [List.map_cons, List.sum_cons, hz]
      omega
    | succ i =>
      simp only [List.getElem?_cons_succ] at h
      have hx : f x = 0 := h0 0 x (by omega) List.getElem?_cons_zero
      have := ih i a h (fun j b hj hb => h0 (j + 1) b (by omega) (by simpa using hb))
      simp only [List.map_cons, List.sum_cons, hx, this]
      omega

theorem cell_index_bounds (data : Data) (len : Nat)
    (hlen : (len : Int) = data.dim_x * data.dim_y) (p : Point) (hp : p.inside data) :
    0 ≤ cell_index data p ∧ cell_index data p < (len : Int) := by
  obtain ⟨h1, h2, h3, h4⟩ := hp
  unfold cell_index
  rw [hlen]
  have hy1 : p.y + 1 ≤ data.dim_y := by omega
  constructor
  · nlinarith
  · nlinarith

/-- On wires with disjoint boxes, a cell in the box of a wire is covered by
the route of that wire only. -/
theorem coverage_in_box (data : Data) (result : Result) (hwi : wires_inside data)
    (hd : disjoint_boxes data) (hg : well_routed data result) (i : Nat) (w : Wire) (r : Route)
    (hw : data.wires[i]? = some w) (hr : result.routes[i]? = some r) (q : Point)
    (hq : in_box w q) (j : Nat) (hj : cell_index data q = (j : Int)) :
    coverage data result.routes j = (footprint data r).count (j : Int) := by
  obtain ⟨_, _, hlen, hprop⟩ := hg
  unfold coverage
  apply sum_map_eq_single (fun r => (footprint data r).count (j : Int)) _ i r hr
  intro i' r' hne hr'
  apply List.count_eq_zero_of_not_mem
  intro hmem
  have hi' : i' < data.wires.length := by
    rw [← hlen]
    by_contra hcon
    rw [List.getElem?_eq_none (by omega)] at hr'
    cases hr'
  have hw' : data.wires[i']? = some data.wires[i'] := List.getElem?_eq_getElem hi'
  have hp' := hprop i' _ r' hw' hr'
  obtain ⟨q', hq', hqi⟩ := footprint_in_box data _ r' hp' _ hmem
  obtain ⟨hs, he⟩ := hwi w (List.getElem?_mem hw)
  obtain ⟨hs', he'⟩ := hwi _ (List.getElem?_mem hw')
  have heq : q = q' := cell_index_inj data q q' (inside_of_in_box data w q hs he hq)
    (inside_of_in_box data _ q' hs' he' hq') (by rw [hj, hqi])
  subst heq
  exact hd i i' w _ (Ne.symm hne) hw hw' q hq hq'

/-- In such a state every cell of the route of a wire holds 1. -/
theorem well_routed_cell (data : Data) (result : Result) (hwi : wires_inside data)
    (hd : disjoint_boxes data) (hg : well_routed data result) (i : Nat) (w : Wire) (r : Route)
    (hw : data.wires[i]? = some w) (hr : result.routes[i]? = some r) (idx : Int)
    (hidx : idx ∈ footprint data r) : result.costs.getD idx.toNat 0 = 1 := by
  have hp := hg.2.2.2 i w r hw hr
  obtain ⟨hs, he⟩ := hwi w (List.getElem?_mem hw)
  obtain ⟨q, hq, hqi⟩ := footprint_in_box data w r hp idx hidx
  have hb := cell_index_bounds data result.costs.length hg.1 q (inside_of_in_box data w q hs he hq)
  rw [hqi] at hb
  have e : ((idx.toNat : Nat) : Int) = idx := by omega
  have hc := hg.2.1 idx.toNat (by omega)
  rw [hc, coverage_in_box data result hwi hd hg i w r hw hr q hq idx.toNat (by rw [hqi, e]), e,
    List.count_eq_one_of_mem (nodup_footprint data w r hp hs he) hidx]
  rfl

theorem max_cost_map_const (l : List Int) (f : Int → Int) (v : Int) (h : ∀ x ∈ l, f x = v) :
    max_cost (l.map f) = if l = [] then 0 else max v 0 := by
  induction l with
  | nil => rfl
  | cons x xs ih =>
    obtain ⟨hx, hxs⟩ := List.forall_mem_cons.1 h
    have := ih hxs
    simp only [List.map_cons, max_cost_cons, hx, this, if_neg (List.cons_ne_nil x xs)]
    split <;> omega

theorem sum_map_const (l : List Int) (f : Int → Int) (v : Int) (h : ∀ x ∈ l, f x = v) :
    (l.map f).sum = (l.length : Int) * v := by
  induction l with
  | nil => simp
  | cons x xs ih =>
    obtain ⟨hx, hxs⟩ := List.forall_mem_cons.1 h
    simp only [List.map_cons, List.sum_cons, hx, ih hxs, List.length_cons]
    push_cast
    ring

/-- After the route of a wire has been retracted, every cell of the box of
the wire holds 0. -/
theorem retracted_in_box (data : Data) (result : Result) (hwi : wires_inside data)
    (hd : disjoint_boxes data) (hg : well_routed data result) (i : Nat) (w : Wire) (r : Route)
    (hw : data.wires[i]? = some w) (hr : result.routes[i]? = some r) (q : Point)
    (hq : in_box w q) :
    (add_cells (-1) (footprint data r) result.costs).getD (cell_index data q).toNat 0 = 0 := by
  have hp := hg.2.2.2 i w r hw hr
  obtain ⟨hs, he⟩ := hwi w (List.getElem?_mem hw)
  have hb := cell_index_bounds data result.costs.length hg.1 q (inside_of_in_box data w q hs he hq)
  have e : (((cell_index data q).toNat : Nat) : Int) = cell_index data q := by omega
  have hfb := footprint_in_bounds data result.costs.length hg.1 r
    (proper_route_inside data w r hp hs he)
  rw [getD_add_cells (-1) _ _ hfb, hg.2.1 _ (by omega),
    coverage_in_box data result hwi hd hg i w r hw hr q hq _ e.symm]
  ring

theorem well_routed_set (data : Data) (result : Result) (wire_id : Nat) (w : Wire)
    (nr : Route) (costs' : List Int) (hg : well_routed data result)
    (hw : data.wires[wire_id]? = some w) (hnr : proper_route w nr)
    (hlen : costs'.length = result.costs.length)
    (hc : consistent data ⟨costs', result.routes.set wire_id nr⟩) :
    well_routed data ⟨costs', result.routes.set wire_id nr⟩ := by
  obtain ⟨h1, _, h3, h4⟩ := hg
  refine ⟨by show ((costs'.length : Nat) : Int) = _; rw [hlen]; exact h1, hc,
    by show (result.routes.set wire_id nr).length = _; rw [List.length_set]; exact h3, ?_⟩
  intro i w' r hw' hr
  change (result.routes.set wire_id nr)[i]? = some r at hr
  by_cases hi : wire_id = i
  · subst hi
    rw [hw] at hw'
    cases hw'
    rw [List.getElem?_set] at hr
    simp only [if_true] at hr
    split at hr
    · cases hr
      exact hnr
    · cases hr
  · rw [List.getElem?_set_ne hi] at hr
    exact h4 i w' r hw' hr

/-- A driver step on wires with disjoint boxes, none of them with
`start == end`, returns and keeps the state well routed. -/
theorem routing_step_well_routed (data : Data) (hwi : wires_inside data)
    (hd : disjoint_boxes data) (hdeg : ∀ w ∈ data.wires, w.start ≠ w.end_) (env : StepEnv)
    (wire_id : Nat) (result : Result) (hg : well_routed data result)
    (hid : wire_id < data.wires.length) :
    ∃ result', routing_step data (prepare_all_routes data) env wire_id result = .ok result'
      ∧ well_routed data result' := by
  have hw : data.wires[wire_id]? = some data.wires[wire_id] := List.getElem?_eq_getElem hid
  have hid' : wire_id < result.routes.length := by rw [hg.2.2.1]; exact hid
  have hp : result.routes[wire_id]? = some result.routes[wire_id] :=
    List.getElem?_eq_getElem hid'
  generalize data.wires[wire_id] = w at hw
  generalize result.routes[wire_id] = prev at hp
  have hprev := hg.2.2.2 wire_id w prev hw hp
  obtain ⟨hs, he⟩ := hwi w (List.getElem?_mem hw)
  have hfb := footprint_in_bounds data result.costs.length hg.1 prev
    (proper_route_inside data w prev hprev hs he)
  obtain ⟨m0, h0⟩ := walk_a_route_ok data result.costs prev (-1)
    (proper_route_aligned w prev hprev) hfb
  have hlr : (add_cells (-1) (footprint data prev) result.costs).length = result.costs.length :=
    length_add_cells _ _ _
  have hlen' : (((add_cells (-1) (footprint data prev) result.costs).length : Nat) : Int)
      = data.dim_x * data.dim_y := by rw [hlr]; exact hg.1
  -- committing a route of one of the two shapes closes the step
  have hcommit : ∀ (nr : Route), proper_route w nr →
      ∀ costs', routing_step data (prepare_all_routes data) env wire_id result
          = .ok ⟨costs', result.routes.set wire_id nr⟩ →
        costs'.length = result.costs.length →
        ∃ result', routing_step data (prepare_all_routes data) env wire_id result = .ok result'
          ∧ well_routed data result' := by
    intro nr hnr costs' hstep hl
    exact ⟨_, hstep, well_routed_set data result wire_id w nr costs' hg hw hnr hl
      (routing_step_consistent data _ env wire_id result _ hg.2.1 hstep)⟩
  by_cases hrand : is_random_route data env.rand_sa = true
  · have hnr := random_route_proper w env.rand_coin env.rand_ratio
    obtain ⟨m1, h1⟩ := walk_a_route_ok data (add_cells (-1) (footprint data prev) result.costs)
      (generate_random_route w env.rand_coin env.rand_ratio) 1
      (proper_route_aligned w _ hnr)
      (footprint_in_bounds data _ hlen' _ (proper_route_inside data w _ hnr hs he))
    apply hcommit _ hnr (add_cells 1 (footprint data
      (generate_random_route w env.rand_coin env.rand_ratio))
      (add_cells (-1) (footprint data prev) result.costs))
    · rw [routing_step_random data _ env wire_id result w prev hw hp hrand]
      simp only [h0, h1]
    · rw [length_add_cells, length_add_cells]
  · have hsearch : is_random_route data env.rand_sa = false := by
      simpa using hrand
    have hr : (prepare_all_routes data)[wire_id]? = some (routes_of_wire w) := by
      unfold prepare_all_routes
      rw [List.getElem?_map, hw]
      rfl
    have hv' : ∀ r ∈ routes_of_wire w, r.aligned
        ∧ in_bounds (add_cells (-1) (footprint data prev) result.costs).length
            (footprint data r) := by
      intro r hr'
      have hpr := candidate_proper w r hr'
      exact ⟨proper_route_aligned w r hpr,
        footprint_in_bounds data _ hlen' r (proper_route_inside data w r hpr hs he)⟩
    obtain ⟨best, hsb, hcase⟩ := search_best_first_min data
      (add_cells (-1) (footprint data prev) result.costs) (routes_of_wire w)
      (Route.default env.uninit) hv'
    rcases hcase with ⟨_, hall⟩ | ⟨i, r, m, hi, hdr, hb, _, _⟩
    · -- some candidate exists and scores (0, 0)
      exfalso
      have hne : routes_of_wire w ≠ [] := by
        intro hnil
        have hl := length_routes_of_wire w
        rw [hnil] at hl
        simp only [List.length_nil] at hl
        have hse := hdeg w (List.getElem?_mem hw)
        apply hse
        obtain ⟨⟨sx, sy⟩, ⟨ex, ey⟩⟩ := w
        simp only [Point.mk.injEq]
        dsimp only at hl
        omega
      obtain ⟨r0, hr0⟩ := List.exists_mem_of_ne_nil _ hne
      have hpr := candidate_proper w r0 hr0
      obtain ⟨m, hm, hmax, _⟩ := walk_a_route_metrics data
        (add_cells (-1) (footprint data prev) result.costs) r0 0 (hv' r0 hr0).1 (hv' r0 hr0).2
        (nodup_footprint data w r0 hpr hs he)
      have hzero : ∀ idx ∈ footprint data r0,
          (add_cells (-1) (footprint data prev) result.costs).getD idx.toNat 0 + 0 = 0 := by
        intro idx hidx
        obtain ⟨q, hq, hqi⟩ := footprint_in_box data w r0 hpr idx hidx
        rw [← hqi, retracted_in_box data result hwi hd hg wire_id w prev hw hp q hq]
        rfl
      rw [max_cost_map_const _ _ 0 hzero] at hmax
      have hdry : dry_run data (add_cells (-1) (footprint data prev) result.costs) r0 = some m := by
        simp only [dry_run, hm]
      have hn := hall r0 hr0 m hdry
      have hlt : m.lt (Route.default env.uninit).metrics = true := by
        rw [Metrics.lt_iff]
        left
        show m.max_cost_value < MAX_COST
        rw [hmax]
        unfold MAX_COST
        split <;> decide
      rw [hlt] at hn
      cases hn
    · subst hb
      have hri := hv' r (List.getElem?_mem hi)
      have hpr := candidate_proper w r (List.getElem?_mem hi)
      obtain ⟨m1, h1⟩ := walk_a_route_ok data (add_cells (-1) (footprint data prev) result.costs)
        { r with metrics := m } 1 hri.1 hri.2
      apply hcommit { r with metrics := m } hpr
        (add_cells 1 (footprint data { r with metrics := m })
          (add_cells (-1) (footprint data prev) result.costs))
      · unfold routing_step
        simp only [hw, hp, h0, hsearch, hr, hsb, h1]
        simp
      · rw [length_add_cells, length_add_cells]

theorem routing_loop_well_routed (data : Data) (hwi : wires_inside data)
    (hd : disjoint_boxes data) (hdeg : ∀ w ∈ data.wires, w.start ≠ w.end_) :
    ∀ (envs : List StepEnv) (wire_id : Nat) (result : Result), well_routed data result →
      wire_id + envs.length ≤ data.wires.length →
      ∃ result', routing_loop data (prepare_all_routes data) envs wire_id result = .ok result'
        ∧ well_routed data result' := by
  intro envs
  induction envs with
  | nil => intro wire_id result hg _; exact ⟨result, rfl, hg⟩
  | cons env envs ih =>
    intro wire_id result hg hl
    simp only [List.length_cons] at hl
    obtain ⟨r1, h1, hg1⟩ := routing_step_well_routed data hwi hd hdeg env wire_id result hg
      (by omega)
    obtain ⟨r2, h2, hg2⟩ := ih (wire_id + 1) r1 hg1 (by omega)
    exact ⟨r2, by simp only [routing_loop, h1, h2], hg2⟩

theorem routing_sweeps_well_routed (data : Data) (hwi : wires_inside data)
    (hd : disjoint_boxes data) (hdeg : ∀ w ∈ data.wires, w.start ≠ w.end_) :
    ∀ (sweeps : List (List StepEnv)) (result : Result), well_routed data result →
      (∀ envs ∈ sweeps, envs.length = data.wires.length) →
      ∃ final, routing_sweeps data (prepare_all_routes data) sweeps result = .ok final
        ∧ well_routed data final := by
  intro sweeps
  induction sweeps with
  | nil => intro result hg _; exact ⟨result, rfl, hg⟩
  | cons envs rest ih =>
    intro result hg hl
    obtain ⟨he, hrest⟩ := List.forall_mem_cons.1 hl
    obtain ⟨r1, h1, hg1⟩ := routing_loop_well_routed data hwi hd hdeg envs 0 result hg
      (by omega)
    have hseq : wire_routing_sequential data result (prepare_all_routes data) envs = .ok r1 := by
      unfold wire_routing_sequential Data.num_of_wires
      rw [List.take_of_length_le (by omega)]
      exact h1
    obtain ⟨r2, h2, hg2⟩ := ih r1 hg1 hrest
    exact ⟨r2, by simp only [routing_sweeps, hseq, h2], hg2⟩

theorem walk_routes_ok (data : Data) (c : Int) : ∀ (routes : List Route) (costs : List Int)
    (m : Metrics), (costs.length : Int) = data.dim_x * data.dim_y →
      (∀ r ∈ routes, r.aligned ∧ r.inside data) →
      ∃ m' costs', walk_routes data c routes costs m = .ok (m', costs')
        ∧ costs'.length = costs.length := by
  intro routes
  induction routes with
  | nil => intro costs m _ _; exact ⟨m, costs, rfl, rfl⟩
  | cons r rest ih =>
    intro costs m hlen h
    obtain ⟨hr, hrest⟩ := List.forall_mem_cons.1 h
    obtain ⟨mr, hmr⟩ := walk_a_route_ok data costs r c hr.1
      (footprint_in_bounds data costs.length hlen r hr.2)
    obtain ⟨m', costs', hw, hl⟩ := ih (add_cells c (footprint data r) costs)
      (m.update_metrics mr) (by rw [length_add_cells]; exact hlen) hrest
    exact ⟨m', costs', by simp only [walk_routes, hmr, hw], by rw [hl, length_add_cells]⟩

theorem initial_routes_proper (data : Data) (draws : List (Nat × Nat)) (i : Nat) (w : Wire)
    (r : Route) (hw : data.wires[i]? = some w) (hr : (initial_routes data draws)[i]? = some r) :
    proper_route w r := by
  unfold initial_routes at hr
  rw [List.getElem?_zipWith, hw] at hr
  split at hr
  · rename_i a b ha hb
    cases ha
    cases hr
    exact random_route_proper _ _ _
  · cases hr

/-- The state after the initial assignment is well routed. -/
theorem initial_well_routed (data : Data) (draws : List (Nat × Nat)) (hwi : wires_inside data)
    (hne : data.wires ≠ []) (hdraws : draws.length = data.wires.length) :
    ∃ m0 costs0, walk_all_routes data
        ⟨List.replicate (data.dim_x * data.dim_y).toNat 0, initial_routes data draws⟩ 1
          = .ok (m0, costs0)
      ∧ well_routed data ⟨costs0, initial_routes data draws⟩ := by
  obtain ⟨w0, hw0⟩ := List.exists_mem_of_ne_nil _ hne
  obtain ⟨⟨a1, a2, a3, a4⟩, _⟩ := hwi w0 hw0
  have hdim : 0 ≤ data.dim_x * data.dim_y := Int.mul_nonneg (by omega) (by omega)
  have hlen : (((List.replicate (data.dim_x * data.dim_y).toNat (0 : Int)).length : Nat) : Int)
      = data.dim_x * data.dim_y := by
    rw [List.length_replicate]; omega
  have hvalid : ∀ r ∈ initial_routes data draws, r.aligned ∧ r.inside data := by
    intro r hr
    obtain ⟨i, hi⟩ := List.mem_iff_getElem?.1 hr
    have hil : i < data.wires.length := by
      by_contra hcon
      have : (initial_routes data draws).length ≤ i := by
        unfold initial_routes
        rw [List.length_zipWith]
        omega
      rw [List.getElem?_eq_none this] at hi
      cases hi
    have hw : data.wires[i]? = some data.wires[i] := List.getElem?_eq_getElem hil
    have hp := initial_routes_proper data draws i _ r hw hi
    obtain ⟨hs, he⟩ := hwi _ (List.getElem?_mem hw)
    exact ⟨proper_route_aligned _ r hp, proper_route_inside data _ r hp hs he⟩
  obtain ⟨m0, costs0, h0, hl0⟩ := walk_routes_ok data 1 (initial_routes data draws)
    (List.replicate (data.dim_x * data.dim_y).toNat 0) {} hlen hvalid
  refine ⟨m0, costs0, h0, ?_, ?_, ?_, ?_⟩
  · show ((costs0.length : Nat) : Int) = _
    rw [hl0]; exact hlen
  · exact reachable_consistent data [] _ (Reachable.initial _ _ m0 h0)
  · show (initial_routes data draws).length = _
    unfold initial_routes
    rw [List.length_zipWith]
    omega
  · intro i w r hw hr
    exact initial_routes_proper data draws i w r hw hr

/-- On a well-routed state the final `walk_all_routes(..., 0)` reads 1 in
every cell of every route. -/
theorem walk_routes_ones (data : Data) (costs : List Int) : ∀ (routes : List Route) (m : Metrics),
    wrap_int32 m.sum_cost_values = m.sum_cost_values →
    (∀ r ∈ routes, walk_a_route data costs r 0
        = .ok (⟨1, wrap_int32 ((footprint data r).length : Int)⟩, costs)) →
    ∃ m', walk_routes data 0 routes costs m = .ok (m', costs)
      ∧ m'.max_cost_value = (if routes = [] then m.max_cost_value else max m.max_cost_value 1)
      ∧ m'.sum_cost_values
          = wrap_int32
              (m.sum_cost_values + ((routes.map fun r => (footprint data r).length).sum : Nat)) := by
  intro routes
  induction routes with
  | nil =>
    intro m hs _
    refine ⟨m, rfl, rfl, ?_⟩
    simp only [List.map_nil, List.sum_nil, Nat.cast_zero, Int.add_zero]
    exact hs.symm
  | cons r rest ih =>
    intro m hs h
    obtain ⟨hr, hrest⟩ := List.forall_mem_cons.1 h
    obtain ⟨m', hm', hmax, hsum⟩ :=
      ih (m.update_metrics ⟨1, wrap_int32 ((footprint data r).length : Int)⟩)
        (wrap_int32_idem _) hrest
    refine ⟨m', by simp only [walk_routes, hr, hm'], ?_, ?_⟩
    · rw [hmax, if_neg (List.cons_ne_nil r rest)]
      show (if rest = [] then max m.max_cost_value 1 else max (max m.max_cost_value 1) 1) = _
      split <;> omega
    · rw [hsum]
      show wrap_int32 (wrap_int32 (m.sum_cost_values
        + wrap_int32 ((footprint data r).length : Int)) + _) = _
      simp only [List.map_cons, List.sum_cons]
      push_cast
      generalize ((footprint data r).length : Int) = a
      generalize (((rest.map fun r => (footprint data r).length).sum : Nat) : Int) = b
      unfold wrap_int32
      omega

/-- The lengths of the footprints of a well-routed state are the route
lengths of the wires. -/
theorem well_routed_lengths (data : Data) (result : Result) (hg : well_routed data result) :
    (result.routes.map fun r => (footprint data r).length) = data.wires.map route_length := by
  have hrl : result.routes.length = data.wires.length := hg.2.2.1
  apply List.ext_getElem?
  intro i
  rw [List.getElem?_map, List.getElem?_map]
  by_cases hil : i < data.wires.length
  · have hir : i < result.routes.length := by omega
    have hw : data.wires[i]? = some data.wires[i] := List.getElem?_eq_getElem hil
    have hr : result.routes[i]? = some result.routes[i] := List.getElem?_eq_getElem hir
    rw [hw, hr]
    simp only [Option.map_some']
    rw [length_footprint data _ _ (hg.2.2.2 i _ _ hw hr)]
  · have h1 : result.routes[i]? = none := List.getElem?_eq_none (by omega)
    have h2 : data.wires[i]? = none := List.getElem?_eq_none (by omega)
    rw [h1, h2]
    rfl

/-- A list of indices inside an array of `n` cells has as many entries as
the cells of the array count together. -/
theorem length_eq_sum_count (n : Nat) : ∀ l : List Int, in_bounds n l →
    l.length = ((List.range n).map fun j : Nat => l.count (j : Int)).sum := by
  intro l
  induction l with
  | nil => intro _; simp
  | cons x xs ih =>
    intro hb
    obtain ⟨hx, hxs⟩ := in_bounds_cons.1 hb
    have hsingle : ((List.range n).map fun j : Nat => if x == (j : Int) then 1 else 0).sum = 1 := by
      rw [sum_map_eq_single (fun j : Nat => if x == (j : Int) then 1 else 0) (List.range n)
        x.toNat x.toNat (by rw [List.getElem?_range (by omega)])]
      · have : x = ((x.toNat : Nat) : Int) := by omega
        simp [← this]
      · intro j b hj hb'
        have hbj : b = j := by
          have hjn : j < n := by
            by_contra hcon
            rw [List.getElem?_eq_none (by rw [List.length_range]; omega)] at hb'
            cases hb'
          rw [List.getElem?_range hjn] at hb'
          exact (Option.some.inj hb').symm
        subst hbj
        have : x ≠ (b : Int) := by omega
        simp [this]
    have hcount : (fun j : Nat => (x :: xs).count (j : Int))
        = fun j : Nat => xs.count (j : Int) + if x == (j : Int) then 1 else 0 := by
      funext j
      rw [List.count_cons]
    rw [hcount, List.sum_map_add, hsingle, ← ih hxs, List.length_cons]

/-- The footprints of routes inside an array of `n` cells have together as
many entries as the coverage of the cells adds up to. -/
theorem sum_lengths_eq_sum_coverage (data : Data) (n : Nat) : ∀ routes : List Route,
    (∀ r ∈ routes, in_bounds n (footprint data r)) →
    (routes.map fun r => (footprint data r).length).sum
      = ((List.range n).map fun j : Nat => coverage data routes j).sum := by
  intro routes
  induction routes with
  | nil => intro _; simp [coverage]
  | cons r rest ih =>
    intro h
    obtain ⟨hr, hrest⟩ := List.forall_mem_cons.1 h
    have hcov : (fun j : Nat => coverage data (r :: rest) j)
        = fun j : Nat => (footprint data r).count (j : Int) + coverage data rest j := by
      funext j
      simp only [coverage, List.map_cons, List.sum_cons]
    rw [hcov, List.sum_map_add, ← ih hrest, ← length_eq_sum_count n _ hr]
    simp only [List.map_cons, List.sum_cons]

/-- On a well-routed state the route lengths of the wires add up to at most
the number of cells of the grid. -/
theorem well_routed_sum_le (data : Data) (result : Result) (hwi : wires_inside data)
    (hd : disjoint_boxes data) (hg : well_routed data result) :
    (((data.wires.map route_length).sum : Nat) : Int) ≤ data.dim_x * data.dim_y := by
  have hfb : ∀ r ∈ result.routes, in_bounds result.costs.length (footprint data r) := by
    intro r hr
    obtain ⟨i, hi⟩ := List.mem_iff_getElem?.1 hr
    have hil : i < data.wires.length := by
      by_contra hcon
      rw [List.getElem?_eq_none (by rw [hg.2.2.1]; omega)] at hi
      cases hi
    have hw : data.wires[i]? = some data.wires[i] := List.getElem?_eq_getElem hil
    generalize data.wires[i] = w at hw
    obtain ⟨hs, he⟩ := hwi w (List.getElem?_mem hw)
    exact footprint_in_bounds data result.costs.length hg.1 r
      (proper_route_inside data w r (hg.2.2.2 i w r hw hi) hs he)
  have hcov : ∀ x ∈ (List.range result.costs.length).map fun j => coverage data result.routes j,
      x ≤ 1 := by
    intro x hx
    obtain ⟨j, hj, rfl⟩ := List.mem_map.1 hx
    rw [List.mem_range] at hj
    by_cases hex : ∃ r ∈ result.routes, (j : Int) ∈ footprint data r
    · obtain ⟨r, hr, hjr⟩ := hex
      obtain ⟨i, hi⟩ := List.mem_iff_getElem?.1 hr
      have hil : i < data.wires.length := by
        by_contra hcon
        rw [List.getElem?_eq_none (by rw [hg.2.2.1]; omega)] at hi
        cases hi
      have hw : data.wires[i]? = some data.wires[i] := List.getElem?_eq_getElem hil
      generalize data.wires[i] = w at hw
      have h1 := well_routed_cell data result hwi hd hg i w r hw hi (j : Int) hjr
      rw [Int.toNat_natCast] at h1
      have h2 := hg.2.1 j hj
      rw [h1] at h2
      omega
    · have : coverage data result.routes j = 0 := by
        apply sum_map_eq_zero
        intro r hr
        exact List.count_eq_zero_of_not_mem (fun hmem => hex ⟨r, hr, hmem⟩)
      omega
  have hle := List.sum_le_card_nsmul _ 1 hcov
  rw [List.length_map, List.length_range, smul_eq_mul, Nat.mul_one,
    ← sum_lengths_eq_sum_coverage data result.costs.length result.routes hfb,
    well_routed_lengths data result hg] at hle
  rw [← hg.1]
  exact_mod_cast hle

theorem well_routed_final_walk (data : Data) (result : Result) (hwi : wires_inside data)
    (hd : disjoint_boxes data) (hne : data.wires ≠ []) (hg : well_routed data result) :
    walk_all_routes data result 0
      = .ok (⟨1, wrap_int32 ((data.wires.map route_length).sum : Nat)⟩, result.costs) := by
  have hone : ∀ r ∈ result.routes, walk_a_route data result.costs r 0
      = .ok (⟨1, wrap_int32 ((footprint data r).length : Int)⟩, result.costs) := by
    intro r hr
    obtain ⟨i, hi⟩ := List.mem_iff_getElem?.1 hr
    have hil : i < data.wires.length := by
      by_contra hcon
      rw [List.getElem?_eq_none (by rw [hg.2.2.1]; omega)] at hi
      cases hi
    have hw : data.wires[i]? = some data.wires[i] := List.getElem?_eq_getElem hil
    generalize data.wires[i] = w at hw
    have hp := hg.2.2.2 i w r hw hi
    obtain ⟨hs, he⟩ := hwi w (List.getElem?_mem hw)
    have hfb := footprint_in_bounds data result.costs.length hg.1 r
      (proper_route_inside data w r hp hs he)
    obtain ⟨m, hm, hmax, hsum⟩ := walk_a_route_metrics data result.costs r 0
      (proper_route_aligned w r hp) hfb (nodup_footprint data w r hp hs he)
    have hvals : ∀ idx ∈ footprint data r, result.costs.getD idx.toNat 0 + 0 = 1 := by
      intro idx hidx
      rw [well_routed_cell data result hwi hd hg i w r hw hi idx hidx]
      rfl
    have hfne : footprint data r ≠ [] := by
      intro hnil
      have := length_footprint data w r hp
      rw [hnil] at this
      simp [route_length] at this
    rw [max_cost_map_const _ _ 1 hvals, if_neg hfne] at hmax
    rw [sum_map_const _ _ 1 hvals] at hsum
    rw [add_cells_zero _ _ hfb] at hm
    rw [hm]
    congr 2
    rw [Metrics.eq_iff]
    exact ⟨by rw [hmax]; rfl, by rw [hsum]; simp⟩
  obtain ⟨m', hm', hmax, hsum⟩ := walk_routes_ones data result.costs result.routes {} rfl hone
  have hrne : result.routes ≠ [] := by
    intro hnil
    have := hg.2.2.1
    rw [hnil] at this
    exact hne (List.eq_nil_of_length_eq_zero this.symm)
  unfold walk_all_routes
  rw [hm']
  congr 2
  rw [Metrics.eq_iff]
  refine ⟨?_, ?_⟩
  · rw [hmax, if_neg hrne]; rfl
  · rw [hsum, well_routed_lengths data result hg]
    show wrap_int32 (0 + _) = _
    rw [Int.zero_add]

/-- C13, as stated, fails in two ways.  Without wires the final
`walk_all_routes(..., 0)` returns `max_cost = 0`, not 1.  For the single
wire (1,1) to (1,1), whose route length is 1, a sweep that takes the search
branch finds no candidate and commits the default-constructed `best_route`
(here with the content (0,0), (2,0), (2,2)), and the final walk returns the
sum 5. -/
theorem disjoint_wires_counterexamples :
    (routing_sweeps empty_data (prepare_all_routes empty_data) [[]]
          ⟨List.replicate 9 0, initial_routes empty_data []⟩
        = .ok ⟨List.replicate 9 0, []⟩
      ∧ walk_all_routes empty_data ⟨List.replicate 9 0, []⟩ 0
        = .ok (⟨0, 0⟩, List.replicate 9 0))
    ∧ (initial_routes point_data [(1, 0)] = [point_route]
      ∧ walk_all_routes point_data ⟨List.replicate 9 0, [point_route]⟩ 1
        = .ok (⟨1, 1⟩, [0, 0, 0, 0, 1, 0, 0, 0, 0])
      ∧ routing_sweeps point_data (prepare_all_routes point_data) [[⟨1, 0, 0, demo_route0⟩]]
          ⟨[0, 0, 0, 0, 1, 0, 0, 0, 0], [point_route]⟩
        = .ok ⟨[1, 1, 1, 0, 0, 1, 0, 0, 1], [Route.default demo_route0]⟩
      ∧ walk_all_routes point_data
          ⟨[1, 1, 1, 0, 0, 1, 0, 0, 1], [Route.default demo_route0]⟩ 0
        = .ok (⟨1, 5⟩, [1, 1, 1, 0, 0, 1, 0, 0, 1])
      ∧ (point_data.wires.map route_length).sum = 1) := by
  refine ⟨⟨rfl, rfl⟩, rfl, rfl, ?_, rfl, rfl⟩
  with_unfolding_all rfl

/-- C13, amended: for at least one wire, all wires inside the grid with
`start != end` and with bounding boxes that pairwise share no cell, the
initial assignment (a random route per wire, applied with `+1` to the zero
grid) and any number of sweeps of the driver, read sequentially and with
any draws, return, and the final `walk_all_routes` with `cost_change = 0`
returns `max_cost` equal to 1 and `sum_cost` equal to the sum over the wires
of the route length `|dx| + |dy| + 1` as a `cost_t` value, leaving the grid
unchanged; the sum is at most the number of cells, so on every grid whose
number of cells `dim_x * dim_y` is an `int` the `sum_cost` is the sum
itself. -/
theorem disjoint_wires_no_interaction (data : Data) (draws : List (Nat × Nat))
    (sweeps : List (List StepEnv)) (hne : data.wires ≠ []) (hwi : wires_inside data)
    (hdeg : ∀ w ∈ data.wires, w.start ≠ w.end_) (hd : disjoint_boxes data)
    (hdraws : draws.length = data.wires.length)
    (hsweeps : ∀ envs ∈ sweeps, envs.length = data.wires.length) :
    ∃ m0 costs0 final,
      walk_all_routes data
          ⟨List.replicate (data.dim_x * data.dim_y).toNat 0, initial_routes data draws⟩ 1
        = .ok (m0, costs0)
      ∧ routing_sweeps data (prepare_all_routes data) sweeps
          ⟨costs0, initial_routes data draws⟩ = .ok final
      ∧ walk_all_routes data final 0
        = .ok (⟨1, wrap_int32 ((data.wires.map route_length).sum : Nat)⟩, final.costs)
      ∧ (data.dim_x * data.dim_y ≤ MAX_COST →
          walk_all_routes data final 0
            = .ok (⟨1, ((data.wires.map route_length).sum : Nat)⟩, final.costs)) := by
  obtain ⟨m0, costs0, h0, hg0⟩ := initial_well_routed data draws hwi hne hdraws
  obtain ⟨final, hf, hgf⟩ := routing_sweeps_well_routed data hwi hd hdeg sweeps _ hg0 hsweeps
  have hw := well_routed_final_walk data final hwi hd hne hgf
  refine ⟨m0, costs0, final, h0, hf, hw, fun hsize => ?_⟩
  have hle := well_routed_sum_le data final hwi hd hgf
  rw [hw, wrap_int32_of_fits _ (by unfold MAX_COST; omega) (by omega)]

/-- Witness of the amended C13: two wires in the two halves of a 4 by 2
grid, two sweeps; the final sum is 3 + 3. -/
theorem disjoint_wires_no_interaction_witness :
    ∃ m0 costs0 final,
      walk_all_routes box_data
          ⟨List.replicate (box_data.dim_x * box_data.dim_y).toNat 0,
            initial_routes box_data [(1, 50), (0, 50)]⟩ 1
        = .ok (m0, costs0)
      ∧ routing_sweeps box_data (prepare_all_routes box_data)
          [[⟨50, 0, 0, demo_route0⟩, ⟨5, 1, 70, demo_route0⟩],
            [⟨0, 1, 20, demo_route0⟩, ⟨99, 0, 0, demo_route0⟩]]
          ⟨costs0, initial_routes box_data [(1, 50), (0, 50)]⟩ = .ok final
      ∧ walk_all_routes box_data final 0
        = .ok (⟨1, ((box_data.wires.map route_length).sum : Nat)⟩, final.costs) :=
  let ⟨m0, costs0, final, h0, hf, _, hsum⟩ :=
    disjoint_wires_no_interaction box_data [(1, 50), (0, 50)]
      [[⟨50, 0, 0, demo_route0⟩, ⟨5, 1, 70, demo_route0⟩],
        [⟨0, 1, 20, demo_route0⟩, ⟨99, 0, 0, demo_route0⟩]]
      (by decide)
      (by unfold wires_inside; decide)
      (by decide)
      (by
        intro i j w w' hij hw hw' p h1 h2
        have hi : i < 2 := by
          by_contra hcon
          rw [List.getElem?_eq_none (by simpa [box_data] using hcon)] at hw
          cases hw
        have hj : j < 2 := by
          by_contra hcon
          rw [List.getElem?_eq_none (by simpa [box_data] using hcon)] at hw'
          cases hw'
        obtain ⟨h1a, h1b, _, _⟩ := h1
        obtain ⟨h2a, h2b, _, _⟩ := h2
        interval_cases i <;> interval_cases j <;> simp [box_data] at hw hw' hij <;>
          (subst hw hw'
           dsimp only at h1a h1b h2a h2b
           omega))
      rfl
      (by decide)
  ⟨m0, costs0, final, h0, hf, hsum (by decide)⟩

/-! ## A mutating walk against a dry run on the grid it leaves -/

/-- On the grid that a walk with `cost_change` leaves behind, a route of
pairwise distinct cells reads at every cell the value the walk wrote there. -/
theorem walk_then_dry_run (data : Data) (g : List Int) (r : Route) (c : Int)
    (ha : r.aligned) (hb : in_bounds g.length (footprint data r))
    (hn : (footprint data r).Nodup) :
    ∃ m, walk_a_route data g r c = .ok (m, add_cells c (footprint data r) g)
      ∧ walk_a_route data (add_cells c (footprint data r) g) r 0
          = .ok (m, add_cells c (footprint data r) g) := by
  obtain ⟨m, hm, hmax, hsum⟩ := walk_a_route_metrics data g r c ha hb hn
  have hb' : in_bounds (add_cells c (footprint data r) g).length (footprint data r) := by
    rw [length_add_cells]; exact hb
  obtain ⟨m', hm', hmax', hsum'⟩ :=
    walk_a_route_metrics data (add_cells c (footprint data r) g) r 0 ha hb' hn
  rw [add_cells_zero _ _ hb'] at hm'
  have hlists : ((footprint data r).map fun idx =>
      (add_cells c (footprint data r) g).getD idx.toNat 0 + 0)
      = (footprint data r).map fun idx => g.getD idx.toNat 0 + c := by
    apply List.map_congr_left
    intro idx hidx
    rw [getD_add_cells_mem c _ g hb hn idx hidx, Int.add_zero]
  rw [hlists] at hmax' hsum'
  have hmm : m' = m := by
    rw [Metrics.eq_iff]
    exact ⟨hmax'.trans hmax.symm, hsum'.trans hsum.symm⟩
  rw [hmm] at hm'
  exact ⟨m, hm, hm'⟩

/-- C23: for every grid `g`, every route whose footprint cells (the indices
of the three half-open segments and of the terminal cell) are pairwise
distinct and every `cost_change` (in particular `-1` and `+1`), whenever
`walk_a_route(g, r, cost_change)` returns metrics `m` and leaves the grid
`g'`, the dry run `walk_a_route(g', r, 0)` returns the same `m` and leaves
`g'` as it is, so `m` is the `delta = 0` score of the route on `g'`; and the
mutating walk does return when the segments are axis-aligned and the
footprint lies inside the array. -/
theorem mutating_walk_metrics_match_dry_run (data : Data) (g : List Int) (r : Route)
    (cost_change : Int) (hn : (footprint data r).Nodup) :
    (∀ (m : Metrics) (g' : List Int), walk_a_route data g r cost_change = .ok (m, g') →
        walk_a_route data g' r 0 = .ok (m, g') ∧ dry_run data g' r = some m)
    ∧ (r.aligned → in_bounds g.length (footprint data r) →
        ∃ (m : Metrics) (g' : List Int), walk_a_route data g r cost_change = .ok (m, g')) := by
  refine ⟨?_, fun ha hb => ?_⟩
  · intro m g' h
    obtain ⟨ha, hb, hg⟩ := walk_a_route_grid h
    obtain ⟨m1, h1, h2⟩ := walk_then_dry_run data g r cost_change ha hb hn
    rw [h] at h1
    have hm : m = m1 := by injection h1 with h1; injection h1
    subst hm
    subst hg
    exact ⟨h2, by simp only [dry_run, h2]⟩
  · obtain ⟨m1, h1, _⟩ := walk_then_dry_run data g r cost_change ha hb hn
    exact ⟨m1, _, h1⟩

/-- Witness of C23: retracting the route (0,0), (2,0), (2,2) from
`demo_costs` returns the metrics `(1, 1)`, which a dry run on the retracted
grid returns again. -/
theorem mutating_walk_metrics_match_dry_run_witness :
    (footprint demo_data demo_route0).Nodup
    ∧ walk_a_route demo_data demo_costs demo_route0 (-1)
        = .ok (⟨1, 1⟩, [0, 0, 0, 1, 1, 1, 0, 0, 0])
    ∧ walk_a_route demo_data [0, 0, 0, 1, 1, 1, 0, 0, 0] demo_route0 0
        = .ok (⟨1, 1⟩, [0, 0, 0, 1, 1, 1, 0, 0, 0])
    ∧ dry_run demo_data [0, 0, 0, 1, 1, 1, 0, 0, 0] demo_route0 = some ⟨1, 1⟩ :=
  ⟨by decide, rfl,
    (mutating_walk_metrics_match_dry_run demo_data demo_costs demo_route0 (-1) (by decide)).1
      ⟨1, 1⟩ [0, 0, 0, 1, 1, 1, 0, 0, 0] (by rfl)⟩

/-! ## The parallel candidate reduction -/

theorem Metrics.lt_eq_false_iff (a b : Metrics) :
    a.lt b = false ↔ b.max_cost_value < a.max_cost_value
      ∨ (a.max_cost_value = b.max_cost_value ∧ b.sum_cost_values ≤ a.sum_cost_values) := by
  rw [← Bool.not_eq_true, Metrics.lt_iff]
  omega

/-- The candidate loop returns a route that is the initial `best_route` or
a scored candidate, and no score involved lies strictly below its metrics. -/
theorem search_best_min (data : Data) (costs : List Int) (routes : List Route) (best0 : Route)
    (hv : ∀ r ∈ routes, r.aligned ∧ in_bounds costs.length (footprint data r)) :
    ∃ best, search_best data routes costs best0 = .ok (best, costs)
      ∧ (best = best0 ∨ ∃ r ∈ routes, ∃ m, dry_run data costs r = some m
            ∧ best = { r with metrics := m } ∧ m.lt best0.metrics = true)
      ∧ best0.metrics.lt best.metrics = false
      ∧ ∀ r ∈ routes, ∀ m, dry_run data costs r = some m → m.lt best.metrics = false := by
  obtain ⟨best, hs, hcase⟩ := search_best_first_min data costs routes best0 hv
  refine ⟨best, hs, ?_⟩
  rcases hcase with ⟨rfl, hall⟩ | ⟨i, r, m, hi, hd, rfl, hlt, hmin⟩
  · refine ⟨Or.inl rfl, ?_, hall⟩
    rw [Metrics.lt_eq_false_iff]; omega
  · refine ⟨Or.inr ⟨r, List.mem_iff_getElem?.2 ⟨i, hi⟩, m, hd, rfl, hlt⟩, ?_, ?_⟩
    · rw [Metrics.lt_iff] at hlt
      rw [Metrics.lt_eq_false_iff]
      dsimp only
      omega
    · intro rj hrj mj hdj
      obtain ⟨j, hj⟩ := List.mem_iff_getElem?.1 hrj
      exact (hmin j rj mj hj hdj).1

/-- A thread returns its private copy or a scored candidate, and no score of
its iterations lies strictly below the metrics of what it returns. -/
theorem search_thread_min (data : Data) (costs : List Int) (routes : List Route)
    (hv : ∀ r ∈ routes, r.aligned ∧ in_bounds costs.length (footprint data r))
    (route_ids : List Nat) (private_copy : Route) :
    ∃ w, search_thread data routes costs route_ids private_copy = .ok w
      ∧ (w = private_copy ∨ ∃ r ∈ routes, ∃ m, dry_run data costs r = some m
            ∧ w = { r with metrics := m })
      ∧ private_copy.metrics.lt w.metrics = false
      ∧ ∀ route_id ∈ route_ids, ∀ r, routes[route_id]? = some r →
          ∀ m, dry_run data costs r = some m → m.lt w.metrics = false := by
  have hsub : ∀ r ∈ route_ids.filterMap (fun route_id => routes[route_id]?), r ∈ routes := by
    intro r hr
    obtain ⟨route_id, _, h⟩ := List.mem_filterMap.1 hr
    exact List.mem_iff_getElem?.2 ⟨route_id, h⟩
  obtain ⟨w, hs, hw, h0, hall⟩ := search_best_min data costs
    (route_ids.filterMap fun route_id => routes[route_id]?) private_copy
    (fun r hr => hv r (hsub r hr))
  refine ⟨w, by simp only [search_thread, hs], ?_, h0, ?_⟩
  · rcases hw with h | ⟨r, hr, m, hd, h, _⟩
    · exact Or.inl h
    · exact Or.inr ⟨r, hsub r hr, m, hd, h⟩
  · intro route_id hid r hr m hd
    exact hall r (List.mem_filterMap.2 ⟨route_id, hid, hr⟩) m hd

theorem min_route_cases (omp_out omp_in : Route) :
    (min_route omp_out omp_in = omp_out ∧ omp_in.metrics.lt omp_out.metrics = false)
    ∨ (min_route omp_out omp_in = omp_in ∧ omp_in.metrics.lt omp_out.metrics = true) := by
  unfold min_route
  by_cases h : omp_in.metrics.lt omp_out.metrics = true
  · exact Or.inr ⟨by rw [if_pos h], h⟩
  · exact Or.inl ⟨by rw [if_neg h], by simpa using h⟩

/-- The combined result of the threads is the shared `best_route` as it was
or a scored candidate, and no score of any iteration that some thread ran
lies strictly below its metrics. -/
theorem search_best_parallel_min (data : Data) (costs : List Int) (routes : List Route)
    (hv : ∀ r ∈ routes, r.aligned ∧ in_bounds costs.length (footprint data r)) :
    ∀ (threads : List (List Nat × Route)) (b : Route),
      Metrics.lt ⟨MAX_COST, MAX_COST⟩ b.metrics = false →
      ∃ best, search_best_parallel data routes costs threads b = .ok best
        ∧ (best = b ∨ ∃ r ∈ routes, ∃ m, dry_run data costs r = some m
              ∧ best = { r with metrics := m })
        ∧ b.metrics.lt best.metrics = false
        ∧ ∀ t ∈ threads, ∀ route_id ∈ t.1, ∀ r, routes[route_id]? = some r →
            ∀ m, dry_run data costs r = some m → m.lt best.metrics = false := by
  intro threads
  induction threads with
  | nil =>
    intro b _
    refine ⟨b, rfl, Or.inl rfl, ?_, by simp⟩
    rw [Metrics.lt_eq_false_iff]; omega
  | cons t rest ih =>
    intro b hb
    obtain ⟨route_ids, uninit⟩ := t
    obtain ⟨w, hw, hwc, hw0, hwall⟩ :=
      search_thread_min data costs routes hv route_ids (Route.default uninit)
    have hwmax : Metrics.lt ⟨MAX_COST, MAX_COST⟩ w.metrics = false := hw0
    have hb' : Metrics.lt ⟨MAX_COST, MAX_COST⟩ (min_route b w).metrics = false := by
      rcases min_route_cases b w with ⟨h, _⟩ | ⟨h, _⟩ <;> rw [h] <;> assumption
    obtain ⟨best, hs, hc, h0, hall⟩ := ih (min_route b w) hb'
    refine ⟨best, by simp only [search_best_parallel, hw]; exact hs, ?_, ?_, ?_⟩
    · rcases hc with h | h
      · rcases min_route_cases b w with ⟨hm, _⟩ | ⟨hm, hlt⟩
        · exact Or.inl (h.trans hm)
        · rcases hwc with hwd | hwr
          · exfalso
            rw [hwd] at hlt
            have hd : (Route.default uninit).metrics = ⟨MAX_COST, MAX_COST⟩ := rfl
            rw [hd, hb] at hlt
            cases hlt
          · exact Or.inr (by rw [h, hm]; exact hwr)
      · exact Or.inr h
    · rw [Metrics.lt_eq_false_iff] at h0 ⊢
      rcases min_route_cases b w with ⟨hm, _⟩ | ⟨hm, hlt⟩
      · rw [hm] at h0; exact h0
      · rw [hm] at h0
        rw [Metrics.lt_iff] at hlt
        omega
    · intro t ht route_id hid r hr m hd
      rcases List.mem_cons.1 ht with rfl | ht
      · have h1 := hwall route_id hid r hr m hd
        rw [Metrics.lt_eq_false_iff] at h0 h1 ⊢
        rcases min_route_cases b w with ⟨hm, hlt⟩ | ⟨hm, hlt⟩
        · rw [hm] at h0
          rw [Metrics.lt_eq_false_iff] at hlt
          omega
        · rw [hm] at h0
          omega
      · exact hall t ht route_id hid r hr m hd

theorem shared_out_covers {n : Nat} {threads : List (List Nat)} (h : shared_out n threads)
    (i : Nat) (hi : i < n) : ∃ route_ids ∈ threads, i ∈ route_ids := by
  have hmem : i ∈ threads.flatten := (h.2.mem_iff).2 (List.mem_range.2 hi)
  exact List.mem_flatten.1 hmem

/-- C21, as stated, fails on ties.  On the grid left by retracting the route
(0,0), (2,0), (2,2) the candidates of the wire (0,0) to (2,2) score (1,1),
(1,3), (1,1), (1,1).  The sequential loop returns candidate 0.  With the
iterations 2, 3 on one thread and 0, 1 on another, and the private copy of
the first combined first, the reduction returns candidate 2. -/
theorem parallel_reduction_differs_on_ties :
    walk_a_route demo_data demo_costs demo_route0 (-1) = .ok (⟨1, 1⟩, demo_retracted)
    ∧ shared_out (routes_of_wire ⟨⟨0, 0⟩, ⟨2, 2⟩⟩).length
        ([([2, 3], demo_route1), ([0, 1], point_route)].map Prod.fst)
    ∧ search_best demo_data (routes_of_wire ⟨⟨0, 0⟩, ⟨2, 2⟩⟩) demo_retracted
        (Route.default demo_route1)
      = .ok ({ demo_route0 with metrics := ⟨1, 1⟩ }, demo_retracted)
    ∧ search_best_parallel demo_data (routes_of_wire ⟨⟨0, 0⟩, ⟨2, 2⟩⟩) demo_retracted
        [([2, 3], demo_route1), ([0, 1], point_route)] (Route.default demo_route1)
      = .ok { demo_candidate2 with metrics := ⟨1, 1⟩ }
    ∧ ({ demo_candidate2 with metrics := ⟨1, 1⟩ } : Route)
      ≠ { demo_route0 with metrics := ⟨1, 1⟩ } :=
  ⟨rfl, by unfold shared_out; decide, rfl, rfl, by decide⟩

/-- C21, amended: for every list of axis-aligned candidates inside the
array, every sharing out of the candidate indices among threads (each thread
running its indices in increasing order from a default-constructed private
copy) and every order in which the private copies are combined into the
shared `best_route` with `min_route`, both the sequential loop and the
reduction return, the resulting route carries the same metrics as the route
the sequential loop returns, it is the shared `best_route` as it was or a
candidate with its `delta = 0` metrics, and it is the same route as the
sequential one whenever every candidate scoring these metrics is that
route. -/
theorem parallel_reduction_agrees (data : Data) (costs : List Int) (routes : List Route)
    (threads : List (List Nat × Route)) (uninit : Route)
    (hv : ∀ r ∈ routes, r.aligned ∧ in_bounds costs.length (footprint data r))
    (ha : shared_out routes.length (threads.map Prod.fst)) :
    ∃ best_seq best_par,
      search_best data routes costs (Route.default uninit) = .ok (best_seq, costs)
      ∧ search_best_parallel data routes costs threads (Route.default uninit) = .ok best_par
      ∧ best_par.metrics = best_seq.metrics
      ∧ (best_par = Route.default uninit
          ∨ ∃ r ∈ routes, dry_run data costs r = some best_par.metrics
              ∧ best_par = { r with metrics := best_par.metrics })
      ∧ ((∀ r ∈ routes, dry_run data costs r = some best_seq.metrics →
            { r with metrics := best_seq.metrics } = best_seq) → best_par = best_seq) := by
  have hmax : Metrics.lt ⟨MAX_COST, MAX_COST⟩ (Route.default uninit).metrics = false := rfl
  obtain ⟨bs, hs, hsc, hs0, hsall⟩ := search_best_min data costs routes (Route.default uninit) hv
  obtain ⟨bp, hp, hpc, hp0, hpall⟩ :=
    search_best_parallel_min data costs routes hv threads (Route.default uninit) hmax
  have hpall' : ∀ r ∈ routes, ∀ m, dry_run data costs r = some m → m.lt bp.metrics = false := by
    intro r hr m hd
    obtain ⟨i, hi⟩ := List.mem_iff_getElem?.1 hr
    have hlen : i < routes.length := by
      by_contra hcon
      rw [List.getElem?_eq_none (by omega)] at hi
      cases hi
    obtain ⟨route_ids, hmem, hin⟩ := shared_out_covers ha i hlen
    obtain ⟨t, ht, rfl⟩ := List.mem_map.1 hmem
    exact hpall t ht i hin r hi m hd
  have hle1 : bs.metrics.lt bp.metrics = false := by
    rcases hsc with h | ⟨r, hr, m, hd, h, _⟩
    · rw [h]; exact hp0
    · rw [h]; exact hpall' r hr m hd
  have hle2 : bp.metrics.lt bs.metrics = false := by
    rcases hpc with h | ⟨r, hr, m, hd, h⟩
    · rw [h]; exact hs0
    · rw [h]; exact hsall r hr m hd
  have heq : bp.metrics = bs.metrics := by
    rw [Metrics.lt_eq_false_iff] at hle1 hle2
    rw [Metrics.eq_iff]
    omega
  refine ⟨bs, bp, hs, hp, heq, ?_, ?_⟩
  · rcases hpc with h | ⟨r, hr, m, hd, h⟩
    · exact Or.inl h
    · refine Or.inr ⟨r, hr, ?_, ?_⟩
      · rw [h]; exact hd
      · rw [h]
  · intro huniq
    rcases hpc with h | ⟨r, hr, m, hd, h⟩
    · rcases hsc with h' | ⟨r', hr', m', hd', h', hlt⟩
      · rw [h, h']
      · exfalso
        rw [h, h'] at heq
        rw [heq, Metrics.lt_iff] at hlt
        dsimp only at hlt
        omega
    · have hm : m = bs.metrics := by rw [← heq, h]
      rw [h, hm]
      exact huniq r hr (by rw [← hm]; exact hd)

/-- Witness of the amended C21: on `tie_free_costs` the fourth candidate of
the wire (0,0) to (2,2) alone scores the minimum (0,0); the iterations are
shared out as 2, 3 and 0, 1. -/
theorem parallel_reduction_agrees_witness :
    shared_out (routes_of_wire ⟨⟨0, 0⟩, ⟨2, 2⟩⟩).length
      ([([2, 3], demo_route1), ([0, 1], point_route)].map Prod.fst)
    ∧ ∃ best_seq best_par,
      search_best demo_data (routes_of_wire ⟨⟨0, 0⟩, ⟨2, 2⟩⟩) tie_free_costs
          (Route.default demo_route1) = .ok (best_seq, tie_free_costs)
      ∧ search_best_parallel demo_data (routes_of_wire ⟨⟨0, 0⟩, ⟨2, 2⟩⟩) tie_free_costs
          [([2, 3], demo_route1), ([0, 1], point_route)] (Route.default demo_route1)
        = .ok best_par
      ∧ best_par.metrics = best_seq.metrics
      ∧ (best_par = Route.default demo_route1
          ∨ ∃ r ∈ routes_of_wire ⟨⟨0, 0⟩, ⟨2, 2⟩⟩,
              dry_run demo_data tie_free_costs r = some best_par.metrics
              ∧ best_par = { r with metrics := best_par.metrics })
      ∧ ((∀ r ∈ routes_of_wire ⟨⟨0, 0⟩, ⟨2, 2⟩⟩,
            dry_run demo_data tie_free_costs r = some best_seq.metrics →
            { r with metrics := best_seq.metrics } = best_seq) → best_par = best_seq) :=
  ⟨by unfold shared_out; decide,
    parallel_reduction_agrees demo_data tie_free_costs (routes_of_wire ⟨⟨0, 0⟩, ⟨2, 2⟩⟩)
      [([2, 3], demo_route1), ([0, 1], point_route)] demo_route1
      (by unfold in_bounds; decide) (by unfold shared_out; decide)⟩

/-! ## Routes and their wires -/

/-- C22 at the failing input: the single wire (1,1) to (1,1), whose current
route connects it.  The step takes the search branch, the candidate list is
empty, and the default-constructed `best_route` is committed and stored:
with the content (0,0), (0,2), (2,2) the stored route belongs to no wire of
the input, and with a content whose first segment is not axis-aligned the
step stops at the assertion of `walk_a_line`.  The reduction of
`wire_routing` over no iteration returns the same default-constructed
route. -/
theorem degenerate_wire_route_not_kept :
    routes_connect_wires point_data ⟨[0, 0, 0, 0, 1, 0, 0, 0, 0], [point_route]⟩
    ∧ is_random_route point_data 1 = false
    ∧ (prepare_all_routes point_data)[0]? = some []
    ∧ routing_step point_data (prepare_all_routes point_data) ⟨1, 0, 0, demo_candidate2⟩ 0
        ⟨[0, 0, 0, 0, 1, 0, 0, 0, 0], [point_route]⟩
      = .ok ⟨[1, 0, 0, 1, 0, 0, 1, 1, 1], [Route.default demo_candidate2]⟩
    ∧ ¬ routes_connect_wires point_data
        ⟨[1, 0, 0, 1, 0, 0, 1, 1, 1], [Route.default demo_candidate2]⟩
    ∧ routing_step point_data (prepare_all_routes point_data) ⟨1, 0, 0, skew_route⟩ 0
        ⟨[0, 0, 0, 0, 1, 0, 0, 0, 0], [point_route]⟩
      = .error .assertion
    ∧ search_best_parallel point_data [] [0, 0, 0, 0, 0, 0, 0, 0, 0]
        [([], demo_route0), ([], demo_route1)] (Route.default demo_candidate2)
      = .ok (Route.default demo_candidate2) := by
  have h : is_random_route point_data 1 = false := by decide
  refine ⟨⟨rfl, ?_⟩, h, rfl, ?_, ?_, ?_, rfl⟩
  · intro i wire route hw hr
    cases i with
    | zero =>
      simp only [point_data, List.getElem?_cons_zero, Option.some.injEq] at hw hr
      subst hw hr
      decide
    | succ j => simp [point_data] at hw
  · unfold routing_step
    simp only [h]
    rfl
  · intro hcon
    have := (hcon.2 0 ⟨⟨1, 1⟩, ⟨1, 1⟩⟩ (Route.default demo_candidate2) rfl rfl).1
    revert this
    decide
  · unfold routing_step
    simp only [h]
    rfl

end WireRoute
